import Mathlib

/-! TrenchBroom: preference serialisation and the INI reader, the parallel texture
coordinate system, and the layout of the entity browser.

A shallow embedding of `common/src/PreferenceManager.cpp`,
`common/src/Model/ParallelTexCoordSystem.cpp` and
`Source/View/EntityBrowserCanvas.cpp`.

* `QString` is the text of a Qt string, a list of characters.  The member
  functions used by the source (`trimmed`, `startsWith`, `endsWith`, `mid`,
  `left`, `indexOf`, `replace`) are modelled after the Qt documentation.
* `QTextStream` is the unread text of a stream; `QTextStream.lines` is the
  sequence of strings successive `readLine()` calls return until `atEnd()`.
* `std::map<K, V>` is the finite partial function it denotes, `K → Option V`.
* Output parameters (`bool* out`) are passed in and returned.
* Floating point numbers are elements of an ordered field and arithmetic on them
  is exact; `CMath` holds the square root, cosine and sine.
* Objects outside the sources (preferences, layout, renderers) are seen through
  the calls made on them.
-/

namespace TrenchBroom

/-! ## Qt strings -/

/-- The text held by a `QString`. -/
abbrev QString := List Char

namespace QString

/-- `QChar::isSpace`: space, the controls U+0009..U+000D, U+0085, U+00A0 and the
Unicode separator categories Zs, Zl and Zp. -/
def isSpace (c : Char) : Bool :=
  let u := c.toNat
  u == 0x20 || (0x09 ≤ u && u ≤ 0x0d) || u == 0x85 || u == 0xa0 || u == 0x1680
    || (0x2000 ≤ u && u ≤ 0x200a) || u == 0x2028 || u == 0x2029 || u == 0x202f
    || u == 0x205f || u == 0x3000

/-- `QString::trimmed()`: whitespace removed from the start and the end. -/
def trimmed (s : QString) : QString :=
  ((s.dropWhile isSpace).reverse.dropWhile isSpace).reverse

/-- `QString::length()`. -/
def length (s : QString) : Int := (List.length s : Int)

/-- `QString::startsWith(QChar)`; false on the empty string. -/
def startsWith (s : QString) (c : Char) : Bool :=
  match s with
  | [] => false
  | d :: _ => d == c

/-- `QString::endsWith(QChar)`; false on the empty string. -/
def endsWith (s : QString) (c : Char) : Bool :=
  match s.getLast? with
  | none => false
  | some d => d == c

/-- Position of the first `c` in `s` counted from `from`, or `-1`. -/
def indexOfFrom (c : Char) : QString → Int → Int
  | [], _ => -1
  | d :: rest, i => if d = c then i else indexOfFrom c rest (i + 1)

/-- `QString::indexOf(QChar)`: index of the first occurrence, `-1` when there is none. -/
def indexOf (s : QString) (c : Char) : Int := indexOfFrom c s 0

/-- `QString::left(n)`: the `n` leftmost characters; the entire string when `n` is
negative or at least `size()`. -/
def left (s : QString) (n : Int) : QString :=
  if n < 0 ∨ length s ≤ n then s else s.take n.toNat

/-- `QString::mid(position, n)` with Qt's clamping (`QContainerImplHelper::mid`):
null when `position` exceeds the length, everything from `position` when `n` is
negative or exceeds what is available. -/
def mid (s : QString) (position n : Int) : QString :=
  if length s < position then []
  else if position < 0 then
    if n < 0 ∨ length s ≤ n + position then s
    else if n + position ≤ 0 then []
    else s.take (n + position).toNat
  else if n < 0 ∨ length s - position < n then s.drop position.toNat
  else (s.drop position.toNat).take n.toNat

/-- `line.replace("\\ ", " ")`: one scan from left to right, every occurrence of
backslash-space replaced by a space, replaced text not rescanned. -/
def replaceEscapedSpace : QString → QString
  | [] => []
  | [c] => [c]
  | c :: d :: rest =>
    if c = '\\' ∧ d = ' ' then ' ' :: replaceEscapedSpace rest
    else c :: replaceEscapedSpace (d :: rest)

end QString

/-! ## Text streams -/

/-- A `QTextStream` opened for reading: the text not yet consumed. -/
structure QTextStream where
  unread : List Char

namespace QTextStream

/-- A line as `readLine()` hands it out: the `"\n"` is dropped by the caller, and a
`'\r'` standing right before it (or at the end of the data) is dropped here. -/
def chopCR (cur : QString) : QString :=
  if cur.getLast? = some '\r' then cur.dropLast else cur

/-- Splits the unread text into lines; `cur` is the line being collected. -/
def linesFrom : List Char → QString → List QString
  | [], cur => if cur = [] then [] else [chopCR cur]
  | c :: rest, cur =>
    if c = '\n' then chopCR cur :: linesFrom rest [] else linesFrom rest (cur ++ [c])

/-- The strings returned by `readLine()` in a `while (!atEnd())` loop. -/
def lines (s : QTextStream) : List QString := linesFrom s.unread []

end QTextStream

/-! ## std::map -/

/-- A `std::map<K, V>`, as the partial function from keys to values. -/
abbrev StdMap (K V : Type) := K → Option V

namespace StdMap

/-- The default-constructed map. -/
def empty {K V : Type} : StdMap K V := fun _ => none

/-- `m[k] = v`. -/
def assign {K V : Type} [DecidableEq K] (m : StdMap K V) (k : K) (v : V) : StdMap K V :=
  fun k' => if k' = k then some v else m k'

end StdMap

/-- The result type of `parseINI`: section name to (key to value). -/
abbrev INIMap := StdMap QString (StdMap QString QString)

/-- The value stored for `key` in `section`, if both exist. -/
def INIMap.lookup (m : INIMap) (sec key : QString) : Option QString :=
  match m sec with
  | none => none
  | some inner => inner key

/-- `result[section][key] = value`: `operator[]` default-constructs a missing inner map. -/
def INIMap.assign (result : INIMap) (sec key value : QString) : INIMap :=
  StdMap.assign result sec (StdMap.assign ((result sec).getD StdMap.empty) key value)

/-! ## parseINI -/

/-- The loop variables of `parseINI`. -/
structure ParseState where
  sec : QString
  result : INIMap

/-- One iteration of the `while` loop of `parseINI`, on the line just read. -/
def parseLine (st : ParseState) (rawLine : QString) : ParseState :=
  let line := QString.trimmed rawLine
  let line := QString.replaceEscapedSpace line
  let sqBracketAtStart := QString.startsWith line '['
  let sqBracketAtEnd := QString.endsWith line ']'
  let heading := sqBracketAtStart && sqBracketAtEnd
  if heading then
    { st with sec := QString.mid line 1 (QString.length line - 2) }
  else
    let eqIndex := QString.indexOf line '='
    if eqIndex ≠ -1 then
      let key := QString.left line eqIndex
      let value := QString.mid line (eqIndex + 1) (-1)
      { st with result := INIMap.assign st.result st.sec key value }
    else
      st

/-- The loop state after the given lines have been read, from the initial state. -/
def parseLines (ls : List QString) : ParseState :=
  ls.foldl parseLine { sec := [], result := StdMap.empty }

/-- `parseINI(QTextStream*)`. -/
def parseINI (iniStream : QTextStream) : INIMap :=
  (parseLines iniStream.lines).result

/-- The line as the parser classifies it: trimmed, then unescaped. -/
def lineText (rawLine : QString) : QString :=
  QString.replaceEscapedSpace (QString.trimmed rawLine)

/-- The heading test of `parseINI` on a classified line. -/
def isHeading (line : QString) : Bool :=
  QString.startsWith line '[' && QString.endsWith line ']'

/-- A line the loop passes over: neither a heading nor containing an `'='`. -/
def isSkipped (rawLine : QString) : Bool :=
  !isHeading (QString.trimmed rawLine) && !decide ('=' ∈ rawLine)

/-! ## PreferenceSerializerV1 -/

/-- A `std::string`, as the text it holds. -/
abbrev StdString := List Char

/-- `QString::toStdString()`. -/
def QString.toStdString (s : QString) : StdString := s

/-- What a `readFromString` overload leaves behind: the returned flag and `*out`. -/
structure ReadResult (α : Type) where
  ok : Bool
  out : α
deriving DecidableEq, Repr

/-- `QTextStream::Status`. -/
inductive QTextStream.Status where
  | Ok
  | ReadPastEnd
  | ReadCorruptData
  | WriteFailed
deriving DecidableEq, Repr

/-- `QTextStream::operator>>` into a numeric variable, after the Qt documentation:
the number detected on the stream is stored in the target; "if no number was
detected on the stream, the target is set to 0", and the status becomes
`ReadPastEnd` or `ReadCorruptData`.  The value the target held plays no part.
The number detection itself is the argument `scan`, which returns the number and
the text left over. -/
def QTextStream.extract {N : Type} [Zero N] (scan : List Char → Option (N × List Char))
    (s : QTextStream) (_target : N) : QTextStream × QTextStream.Status × N :=
  match scan s.unread with
  | some (v, rest) => (⟨rest⟩, .Ok, v)
  | none =>
    let rest := s.unread.dropWhile QString.isSpace
    (⟨rest⟩, if rest = [] then .ReadPastEnd else .ReadCorruptData, 0)

/-- Value of a run of decimal digits read so far, or `none` at a non-digit. -/
def digitsValue : List Char → Option Nat
  | [] => some 0
  | c :: rest =>
    if c.isDigit then (digitsValue rest).map (fun v => (c.toNat - 48) * 10 ^ rest.length + v)
    else none

/-- The decimal case of integer detection: leading white space is skipped, then an
optional sign, then at least one digit, up to the first non-digit. -/
def scanDecimal (text : List Char) : Option (Int × List Char) :=
  let t := text.dropWhile QString.isSpace
  let neg := QString.startsWith t '-'
  let t := if neg || QString.startsWith t '+' then t.drop 1 else t
  let ds := t.takeWhile Char.isDigit
  match ds, digitsValue ds with
  | _ :: _, some v => some (if neg then -(v : Int) else (v : Int), t.dropWhile Char.isDigit)
  | _, _ => none

namespace PreferenceSerializerV1

/-- `readFromString(const QString& in, bool* out)`. -/
def readFromString_bool (input : QString) (out : Bool) : ReadResult Bool :=
  if input = "1".toList then
    ⟨true, true⟩
  else if input = "0".toList then
    ⟨true, false⟩
  else
    ⟨false, out⟩

/-- `readFromString(const QString& in, Color* out)`; `Color::canParse` and
`Color::parse` are declared elsewhere and are arguments here. -/
def readFromString_Color {Color : Type} (canParse : StdString → Bool)
    (parse : StdString → Color) (input : QString) (out : Color) : ReadResult Color :=
  let inStdString := QString.toStdString input
  if !canParse inStdString then
    ⟨false, out⟩
  else
    ⟨true, parse inStdString⟩

/-- `readFromString(const QString& in, float* out)`: `inStream >> *out` acts on `*out`
itself; the flag is `inStream.status() == QTextStream::Ok`. -/
def readFromString_float {F : Type} [Zero F] (scan : List Char → Option (F × List Char))
    (input : QString) (out : F) : ReadResult F :=
  let inCopy := input
  let inStream : QTextStream := ⟨inCopy⟩
  let r := QTextStream.extract scan inStream out
  ⟨r.2.1 == .Ok, r.2.2⟩

/-- `readFromString(const QString& in, int* out)`: same body as the `float` overload. -/
def readFromString_int (scan : List Char → Option (Int × List Char))
    (input : QString) (out : Int) : ReadResult Int :=
  let inCopy := input
  let inStream : QTextStream := ⟨inCopy⟩
  let r := QTextStream.extract scan inStream out
  ⟨r.2.1 == .Ok, r.2.2⟩

/-- `writeToString(QTextStream& stream, const bool in)`; the stream is the text
written to it so far. -/
def writeToString_bool (stream : QString) (value : Bool) : QString :=
  if value then
    stream ++ "1".toList
  else
    stream ++ "0".toList

end PreferenceSerializerV1

/-! ## PreferenceManager -/

/-- Inserting a pointer into the ascending sequence of a `std::set`. -/
def insertAscending (p : Nat) : List Nat → List Nat
  | [] => [p]
  | q :: rest =>
    if p < q then p :: q :: rest
    else if p = q then q :: rest
    else q :: insertAscending p rest

/-- `PreferenceBase::Set`, a `std::set` of preference pointers: the addresses it
holds, in the ascending order in which it is iterated. -/
structure PreferenceSet where
  elems : List Nat
  ordered : elems.Pairwise (· < ·)

namespace PreferenceSet

/-- The default-constructed set. -/
def empty : PreferenceSet := ⟨[], List.Pairwise.nil⟩

/-- `std::set::insert`; the sequence stays ascending. -/
def insert (s : PreferenceSet) (p : Nat) : PreferenceSet :=
  ⟨insertAscending p s.elems, by
    have key : ∀ l : List Nat, l.Pairwise (· < ·) →
        (insertAscending p l).Pairwise (· < ·)
          ∧ ∀ lo, lo < p → (∀ x ∈ l, lo < x) → ∀ x ∈ insertAscending p l, lo < x := by
      intro l
      induction l with
      | nil =>
        intro _
        simp [insertAscending]
      | cons q rest ih =>
        intro h
        have hq := List.pairwise_cons.mp h
        obtain ⟨ih1, ih2⟩ := ih hq.2
        unfold insertAscending
        split_ifs with h1 h2
        · refine ⟨List.pairwise_cons.mpr ⟨?_, h⟩, ?_⟩
          · intro a ha
            rcases List.mem_cons.mp ha with rfl | ha
            · exact h1
            · exact lt_trans h1 (hq.1 a ha)
          · intro lo hlo hall x hx
            rcases List.mem_cons.mp hx with rfl | hx
            · exact hlo
            · exact hall x hx
        · exact ⟨h, fun lo _ hall x hx => hall x hx⟩
        · refine ⟨List.pairwise_cons.mpr ⟨?_, ih1⟩, ?_⟩
          · exact ih2 q (by omega) hq.1
          · intro lo hlo hall x hx
            rcases List.mem_cons.mp hx with rfl | hx
            · exact hall _ (List.mem_cons_self _ _)
            · exact ih2 lo hlo (fun y hy => hall y (List.mem_cons_of_mem _ hy)) x hx
    exact (key s.elems s.ordered).1⟩

/-- Membership of a pointer. -/
def contains (s : PreferenceSet) (p : Nat) : Bool := decide (p ∈ s.elems)

end PreferenceSet

/-- A call the manager makes on an object outside it. -/
inductive Call (Path : Type) where
  | save (pref : Nat)
  | resetToPrevious (pref : Nat)
  | preferenceDidChangeNotifier (path : Path)
deriving DecidableEq, Repr

namespace Call

/-- The preference a call saves, when it is a `save()`. -/
def saved {Path : Type} : Call Path → Option Nat
  | .save pref => some pref
  | _ => none

/-- The preference a call resets, when it is a `resetToPrevious()`. -/
def reset {Path : Type} : Call Path → Option Nat
  | .resetToPrevious pref => some pref
  | _ => none

/-- The path a call notifies, when it fires `preferenceDidChangeNotifier`. -/
def notified {Path : Type} : Call Path → Option Path
  | .preferenceDidChangeNotifier path => some path
  | _ => none

end Call

/-- The data members of `PreferenceManager`. -/
structure PreferenceManager where
  m_unsavedPreferences : PreferenceSet
  m_saveInstantly : Bool

/-- What a member function that returns a set leaves behind: the returned set, the
manager afterwards, and the calls made, in order. -/
structure Outcome (Path : Type) where
  returned : PreferenceSet
  manager : PreferenceManager
  calls : List (Call Path)

namespace PreferenceManager

/-- `PreferenceManager::markAsUnsaved`. -/
def markAsUnsaved (self : PreferenceManager) (preference : Nat) : PreferenceManager :=
  { self with m_unsavedPreferences := self.m_unsavedPreferences.insert preference }

/-- Body of the `for` loop of `saveChanges`. -/
def saveStep {Path : Type} (path : Nat → Path)
    (acc : PreferenceSet × List (Call Path)) (pref : Nat) : PreferenceSet × List (Call Path) :=
  (acc.1.insert pref, acc.2 ++ [Call.save pref, Call.preferenceDidChangeNotifier (path pref)])

/-- `PreferenceManager::saveChanges`; `path` gives `pref->path()`. -/
def saveChanges {Path : Type} (path : Nat → Path) (self : PreferenceManager) : Outcome Path :=
  let loop := self.m_unsavedPreferences.elems.foldl (saveStep path) (PreferenceSet.empty, [])
  { returned := loop.1
    manager := { self with m_unsavedPreferences := PreferenceSet.empty }
    calls := loop.2 }

/-- Body of the `for` loop of `discardChanges`. -/
def discardStep {Path : Type}
    (acc : PreferenceSet × List (Call Path)) (pref : Nat) : PreferenceSet × List (Call Path) :=
  (acc.1.insert pref, acc.2 ++ [Call.resetToPrevious pref])

/-- `PreferenceManager::discardChanges`. -/
def discardChanges (Path : Type) (self : PreferenceManager) : Outcome Path :=
  let loop : PreferenceSet × List (Call Path) :=
    self.m_unsavedPreferences.elems.foldl discardStep (PreferenceSet.empty, [])
  { returned := loop.1
    manager := { self with m_unsavedPreferences := PreferenceSet.empty }
    calls := loop.2 }

end PreferenceManager

/-! ## Vectors and matrices

`FloatType` and `float` values are elements of an ordered field `K` and every
operation is exact; conversions between the two (`static_cast<float>`) are the
identity.  The functions of `<cmath>` the code reaches are the fields of `CMath`. -/

/-- The real functions the code calls: `std::sqrt`, `std::cos`, `std::sin`, and the
constant `Math::Constants::Pi`. -/
structure CMath (K : Type) where
  sqrt : K → K
  cos : K → K
  sin : K → K
  pi : K

/-- What exact arithmetic means for the functions of `CMath`: `sqrt` is the
non-negative square root, `cos` and `sin` lie on the unit circle, vanish resp. are
one at zero, and obey the half-angle formulas. -/
structure CMath.Exact {K : Type} [LinearOrderedField K] (M : CMath K) : Prop where
  sqrt_nonneg : ∀ a, 0 ≤ M.sqrt a
  sqrt_mul_self : ∀ a, 0 ≤ a → M.sqrt a * M.sqrt a = a
  cos_sq_add_sin_sq : ∀ a, M.cos a * M.cos a + M.sin a * M.sin a = 1
  cos_zero : M.cos 0 = 1
  sin_zero : M.sin 0 = 0
  cos_of_half : ∀ a, M.cos a = M.cos (a / 2) * M.cos (a / 2) - M.sin (a / 2) * M.sin (a / 2)
  sin_of_half : ∀ a, M.sin a = 2 * M.sin (a / 2) * M.cos (a / 2)

/-- `Math::Axis::Type`. -/
inductive Math.Axis where
  | AX
  | AY
  | AZ
deriving DecidableEq, Repr

/-- `Math::radians`: degrees to radians. -/
def Math.radians {K : Type} [LinearOrderedField K] (M : CMath K) (d : K) : K :=
  d * M.pi / 180

/-- Modelled from the spec: `Vec2f` (declared outside the sources at hand), a pair of
coordinates. -/
structure Vec2 (K : Type) where
  x : K
  y : K

namespace Vec2

/-- Modelled from the spec: `Vec2f::operator+`, by coordinates. -/
def add {K : Type} [LinearOrderedField K] (a b : Vec2 K) : Vec2 K := ⟨a.x + b.x, a.y + b.y⟩

/-- Modelled from the spec: `Vec2f::operator-`, by coordinates. -/
def sub {K : Type} [LinearOrderedField K] (a b : Vec2 K) : Vec2 K := ⟨a.x - b.x, a.y - b.y⟩

end Vec2

/-- Modelled from the spec: `Vec3` (declared outside the sources at hand), a vector
of three coordinates. -/
structure Vec3 (K : Type) where
  x : K
  y : K
  z : K

namespace Vec3

/-- Modelled from the spec: `Vec3::Null`, the zero vector. -/
def Null {K : Type} [LinearOrderedField K] : Vec3 K := ⟨0, 0, 0⟩

/-- Modelled from the spec: `Vec3::PosX`, the unit vector of the X axis. -/
def PosX {K : Type} [LinearOrderedField K] : Vec3 K := ⟨1, 0, 0⟩

/-- Modelled from the spec: `Vec3::PosY`, the unit vector of the Y axis. -/
def PosY {K : Type} [LinearOrderedField K] : Vec3 K := ⟨0, 1, 0⟩

/-- Modelled from the spec: `Vec3::PosZ`, the unit vector of the Z axis. -/
def PosZ {K : Type} [LinearOrderedField K] : Vec3 K := ⟨0, 0, 1⟩

/-- Modelled from the spec: `operator+` on vectors, by coordinates. -/
def add {K : Type} [LinearOrderedField K] (a b : Vec3 K) : Vec3 K :=
  ⟨a.x + b.x, a.y + b.y, a.z + b.z⟩

/-- Modelled from the spec: `operator-` on vectors, by coordinates. -/
def sub {K : Type} [LinearOrderedField K] (a b : Vec3 K) : Vec3 K :=
  ⟨a.x - b.x, a.y - b.y, a.z - b.z⟩

/-- Modelled from the spec: `operator*` of a vector and a number. -/
def scale {K : Type} [LinearOrderedField K] (a : Vec3 K) (s : K) : Vec3 K :=
  ⟨a.x * s, a.y * s, a.z * s⟩

/-- Modelled from the spec: `operator/` of a vector and a number. -/
def div {K : Type} [LinearOrderedField K] (a : Vec3 K) (s : K) : Vec3 K :=
  ⟨a.x / s, a.y / s, a.z / s⟩

/-- Modelled from the spec: `Vec3::dot`, the scalar product. -/
def dot {K : Type} [LinearOrderedField K] (a b : Vec3 K) : K :=
  a.x * b.x + a.y * b.y + a.z * b.z

/-- Modelled from the spec: `Vec3::length`, the square root of the scalar square. -/
def length {K : Type} [LinearOrderedField K] (M : CMath K) (a : Vec3 K) : K :=
  M.sqrt (dot a a)

/-- Modelled from the spec: `Vec3::normalized`, the vector divided by its length. -/
def normalized {K : Type} [LinearOrderedField K] (M : CMath K) (a : Vec3 K) : Vec3 K :=
  div a (length M a)

/-- The coordinate of a vector along an axis. -/
def component {K : Type} [LinearOrderedField K] (a : Vec3 K) : Math.Axis → K
  | .AX => a.x
  | .AY => a.y
  | .AZ => a.z

/-- Modelled from the spec: `Vec3::firstComponent`, the axis of the coordinate of
largest magnitude; of several equal ones the first. -/
def firstComponent {K : Type} [LinearOrderedField K] (a : Vec3 K) : Math.Axis :=
  let index : Math.Axis := if |a.x| < |a.y| then .AY else .AX
  if |component a index| < |a.z| then .AZ else index

end Vec3

/-- Modelled from the spec: `crossed(left, right)`, the cross product. -/
def crossed {K : Type} [LinearOrderedField K] (left right : Vec3 K) : Vec3 K :=
  ⟨left.y * right.z - left.z * right.y,
   left.z * right.x - left.x * right.z,
   left.x * right.y - left.y * right.x⟩

/-- Modelled from the spec: `Quat3`, a quaternion with real part `r` and vector part `v`. -/
structure Quat3 (K : Type) where
  r : K
  v : Vec3 K

namespace Quat3

/-- Modelled from the spec: `Quat3(axis, angle)`: real part `cos(angle / 2)`, vector
part `axis * sin(angle / 2)`. -/
def setRotation {K : Type} [LinearOrderedField K] (M : CMath K) (axis : Vec3 K) (angle : K) :
    Quat3 K :=
  ⟨M.cos (angle / 2), Vec3.scale axis (M.sin (angle / 2))⟩

/-- Modelled from the spec: the product of two quaternions. -/
def mul {K : Type} [LinearOrderedField K] (left right : Quat3 K) : Quat3 K :=
  let t := right.r
  let w := right.v
  let r := left.r
  let v := left.v
  ⟨r * t - Vec3.dot v w,
   ⟨r * w.x + t * v.x + v.y * w.z - v.z * w.y,
    r * w.y + t * v.y + v.z * w.x - v.x * w.z,
    r * w.z + t * v.z + v.x * w.y - v.y * w.x⟩⟩

/-- Modelled from the spec: `Quat3::conjugated`. -/
def conjugated {K : Type} [LinearOrderedField K] (q : Quat3 K) : Quat3 K :=
  ⟨q.r, ⟨-q.v.x, -q.v.y, -q.v.z⟩⟩

/-- Modelled from the spec: `Quat3 * Vec3`, the vector part of `q * (0, right) * q.conjugated()`. -/
def mulVec {K : Type} [LinearOrderedField K] (q : Quat3 K) (right : Vec3 K) : Vec3 K :=
  (mul (mul q ⟨0, right⟩) (conjugated q)).v

end Quat3

/-- Modelled from the spec: `Vec4`, a vector of homogeneous coordinates. -/
structure Vec4 (K : Type) where
  x : K
  y : K
  z : K
  w : K

/-- Modelled from the spec: `Mat4x4`, given by its four rows. -/
structure Mat4x4 (K : Type) where
  row0 : Vec4 K
  row1 : Vec4 K
  row2 : Vec4 K
  row3 : Vec4 K

namespace Mat4x4

/-- A row times a column of homogeneous coordinates. -/
def rowDot {K : Type} [LinearOrderedField K] (r v : Vec4 K) : K :=
  r.x * v.x + r.y * v.y + r.z * v.z + r.w * v.w

/-- Modelled from the spec: `Mat4x4 * Vec4`. -/
def mulVec4 {K : Type} [LinearOrderedField K] (m : Mat4x4 K) (v : Vec4 K) : Vec4 K :=
  ⟨rowDot m.row0 v, rowDot m.row1 v, rowDot m.row2 v, rowDot m.row3 v⟩

/-- Modelled from the spec: `Mat4x4 * Vec3`: the point is given the fourth coordinate 1,
multiplied, and divided by the fourth coordinate of the product. -/
def mulVec3 {K : Type} [LinearOrderedField K] (m : Mat4x4 K) (v : Vec3 K) : Vec3 K :=
  let h := mulVec4 m ⟨v.x, v.y, v.z, 1⟩
  ⟨h.x / h.w, h.y / h.w, h.z / h.w⟩

/-- The linear part of a matrix, applied to a vector. -/
def linear {K : Type} [LinearOrderedField K] (m : Mat4x4 K) (v : Vec3 K) : Vec3 K :=
  ⟨m.row0.x * v.x + m.row0.y * v.y + m.row0.z * v.z,
   m.row1.x * v.x + m.row1.y * v.y + m.row1.z * v.z,
   m.row2.x * v.x + m.row2.y * v.y + m.row2.z * v.z⟩

/-- The translation part of a matrix. -/
def translation {K : Type} [LinearOrderedField K] (m : Mat4x4 K) : Vec3 K :=
  ⟨m.row0.w, m.row1.w, m.row2.w⟩

/-- An affine transformation: the last row is `0 0 0 1`. -/
def IsAffine {K : Type} [LinearOrderedField K] (m : Mat4x4 K) : Prop :=
  m.row3.x = 0 ∧ m.row3.y = 0 ∧ m.row3.z = 0 ∧ m.row3.w = 1

end Mat4x4

/-! ## ParallelTexCoordSystem -/

/-- Modelled from the spec: `Assets::Texture`, as far as the code reads it. -/
structure Texture where
  width : Nat
  height : Nat
deriving DecidableEq, Repr

/-- `texture == NULL ? 1 : texture->width()`. -/
def textureWidth (texture : Option Texture) : Nat :=
  match texture with
  | none => 1
  | some t => t.width

/-- `texture == NULL ? 1 : texture->height()`. -/
def textureHeight (texture : Option Texture) : Nat :=
  match texture with
  | none => 1
  | some t => t.height

/-- Modelled from the spec: `BrushFaceAttribs`, the attributes the code reads and
writes: texture, offset, rotation and scale. -/
structure BrushFaceAttribs (K : Type) where
  texture : Option Texture
  offset : Vec2 K
  rotation : K
  xScale : K
  yScale : K

/-- The helpers of `TexCoordSystem` and `Math` that are declared outside the sources
at hand: `Math::zero`, `angleBetween`, `Math::correct` (rounding to a number of
decimals) and `TexCoordSystem::modOffset`. -/
structure TexCoordHelpers (K : Type) where
  zero : K → Bool
  angleBetween : Vec3 K → Vec3 K → Vec3 K → K
  correct : K → Nat → K
  modOffset : Vec2 K → Option Texture → Vec2 K

/-- Modelled from the spec: `safeScale`, the scale factor, or 1 when it is zero. -/
def safeScale {K : Type} [LinearOrderedField K] (H : TexCoordHelpers K) (value : K) : K :=
  if H.zero value then 1 else value

/-- Modelled from the spec: `safeScaleAxis`, the axis divided by the safe scale factor. -/
def safeScaleAxis {K : Type} [LinearOrderedField K] (H : TexCoordHelpers K)
    (axis : Vec3 K) (factor : K) : Vec3 K :=
  Vec3.div axis (safeScale H factor)

/-- Modelled from the spec: `Vec2f::correct(decimals)`, `Math::correct` on both coordinates. -/
def Vec2.correct {K : Type} (H : TexCoordHelpers K) (v : Vec2 K) (decimals : Nat) : Vec2 K :=
  ⟨H.correct v.x decimals, H.correct v.y decimals⟩

/-- The data members of `ParallelTexCoordSystem`. -/
structure ParallelTexCoordSystem (K : Type) where
  m_xAxis : Vec3 K
  m_yAxis : Vec3 K

namespace ParallelTexCoordSystem

/-- `ParallelTexCoordSystem(xAxis, yAxis, normal, rotation)`. -/
def ofAxes {K : Type} (xAxis yAxis _normal : Vec3 K) (_rotation : K) :
    ParallelTexCoordSystem K :=
  ⟨xAxis, yAxis⟩

/-- `ParallelTexCoordSystem(point0, point1, point2)`; `firstComponent` is
`Vec3::firstComponent`, declared outside the sources at hand. -/
def ofPoints {K : Type} [LinearOrderedField K] (M : CMath K)
    (firstComponent : Vec3 K → Math.Axis) (point0 point1 point2 : Vec3 K) :
    ParallelTexCoordSystem K :=
  let normal := Vec3.normalized M (crossed (Vec3.sub point2 point0) (Vec3.sub point1 point0))
  let first := firstComponent normal
  let m_xAxis :=
    match first with
    | .AX => Vec3.normalized M (crossed Vec3.PosZ normal)
    | .AY => Vec3.normalized M (crossed Vec3.PosZ normal)
    | .AZ => Vec3.normalized M (crossed Vec3.PosY normal)
  let m_yAxis := Vec3.normalized M (crossed m_xAxis normal)
  ⟨m_xAxis, m_yAxis⟩

/-- `getXAxis`. -/
def getXAxis {K : Type} (self : ParallelTexCoordSystem K) : Vec3 K := self.m_xAxis

/-- `getYAxis`. -/
def getYAxis {K : Type} (self : ParallelTexCoordSystem K) : Vec3 K := self.m_yAxis

/-- `getZAxis`. -/
def getZAxis {K : Type} [LinearOrderedField K] (M : CMath K) (self : ParallelTexCoordSystem K) :
    Vec3 K :=
  Vec3.normalized M (crossed self.m_xAxis self.m_yAxis)

/-- `doGetTexCoords`. -/
def doGetTexCoords {K : Type} [LinearOrderedField K] (H : TexCoordHelpers K)
    (self : ParallelTexCoordSystem K) (point : Vec3 K) (attribs : BrushFaceAttribs K) : Vec2 K :=
  let texture := attribs.texture
  let x := (Vec3.dot point (Vec3.div (getXAxis self) (safeScale H attribs.xScale))
      + attribs.offset.x) / (textureWidth texture : K)
  let y := (Vec3.dot point (Vec3.div (getYAxis self) (safeScale H attribs.yScale))
      + attribs.offset.y) / (textureHeight texture : K)
  ⟨x, y⟩

/-- `doSetRotation`. -/
def doSetRotation {K : Type} [LinearOrderedField K] (M : CMath K)
    (self : ParallelTexCoordSystem K) (normal : Vec3 K) (oldAngle newAngle : K) :
    ParallelTexCoordSystem K :=
  let angleDelta := oldAngle - newAngle
  if angleDelta = 0 then
    self
  else
    let angle := Math.radians M angleDelta
    let rot := Quat3.setRotation M normal angle
    ⟨Quat3.mulVec rot self.m_xAxis, Quat3.mulVec rot self.m_yAxis⟩

/-- `doTransform`; returns the coordinate system and the attributes it leaves behind. -/
def doTransform {K : Type} [LinearOrderedField K] (H : TexCoordHelpers K)
    (self : ParallelTexCoordSystem K) (oldNormal : Vec3 K) (transformation : Mat4x4 K)
    (attribs : BrushFaceAttribs K) (_lockTexture : Bool) :
    ParallelTexCoordSystem K × BrushFaceAttribs K :=
  let oldOriginTexCoords :=
    Vec2.add
      ⟨Vec3.dot Vec3.Null (safeScaleAxis H self.m_xAxis attribs.xScale),
       Vec3.dot Vec3.Null (safeScaleAxis H self.m_yAxis attribs.yScale)⟩
      attribs.offset
  let offset := Mat4x4.mulVec3 transformation Vec3.Null
  let newXAxis := Vec3.sub (Mat4x4.mulVec3 transformation self.m_xAxis) offset
  let newYAxis := Vec3.sub (Mat4x4.mulVec3 transformation self.m_yAxis) offset
  let angleDelta := H.angleBetween self.m_xAxis newXAxis oldNormal
  let newAngle := H.correct (attribs.rotation + angleDelta) 4
  let m_xAxis := newXAxis
  let m_yAxis := newYAxis
  let newOriginTexCoords : Vec2 K :=
    ⟨Vec3.dot offset (safeScaleAxis H m_xAxis attribs.xScale),
     Vec3.dot offset (safeScaleAxis H m_yAxis attribs.yScale)⟩
  let newOffset := Vec2.sub oldOriginTexCoords newOriginTexCoords
  let newOffset := H.modOffset newOffset attribs.texture
  let newOffset := Vec2.correct H newOffset 4
  (⟨m_xAxis, m_yAxis⟩, { attribs with offset := newOffset, rotation := newAngle })

/-- The value of `newOffset` in `doTransform` right after the subtraction, before
`modOffset` and `correct`. -/
def newOffsetBeforeWrap {K : Type} [LinearOrderedField K] (H : TexCoordHelpers K)
    (self : ParallelTexCoordSystem K) (transformation : Mat4x4 K)
    (attribs : BrushFaceAttribs K) : Vec2 K :=
  let oldOriginTexCoords :=
    Vec2.add
      ⟨Vec3.dot Vec3.Null (safeScaleAxis H self.m_xAxis attribs.xScale),
       Vec3.dot Vec3.Null (safeScaleAxis H self.m_yAxis attribs.yScale)⟩
      attribs.offset
  let offset := Mat4x4.mulVec3 transformation Vec3.Null
  let newXAxis := Vec3.sub (Mat4x4.mulVec3 transformation self.m_xAxis) offset
  let newYAxis := Vec3.sub (Mat4x4.mulVec3 transformation self.m_yAxis) offset
  let newOriginTexCoords : Vec2 K :=
    ⟨Vec3.dot offset (safeScaleAxis H newXAxis attribs.xScale),
     Vec3.dot offset (safeScaleAxis H newYAxis attribs.yScale)⟩
  Vec2.sub oldOriginTexCoords newOriginTexCoords

end ParallelTexCoordSystem

/-- The rotation by `angle` about the unit vector `axis`, by Rodrigues' formula:
`v cos a + (axis × v) sin a + axis (axis · v) (1 - cos a)`. -/
def rotateAbout {K : Type} [LinearOrderedField K] (M : CMath K) (axis : Vec3 K) (angle : K)
    (v : Vec3 K) : Vec3 K :=
  Vec3.add
    (Vec3.add (Vec3.scale v (M.cos angle)) (Vec3.scale (crossed axis v) (M.sin angle)))
    (Vec3.scale axis (Vec3.dot axis v * (1 - M.cos angle)))

/-- The cosine of the angle between two vectors. -/
def cosAngle {K : Type} [LinearOrderedField K] (M : CMath K) (a b : Vec3 K) : K :=
  Vec3.dot a b / (Vec3.length M a * Vec3.length M b)

/-- What the claims assume of `modOffset`: it changes each coordinate of the offset
by a whole multiple of the texture's width resp. height. -/
def WrapsByTextureSize {K : Type} [LinearOrderedField K]
    (modOffset : Vec2 K → Option Texture → Vec2 K) : Prop :=
  ∀ (v : Vec2 K) (texture : Option Texture), ∃ i j : Int,
    (modOffset v texture).x = v.x - (i : K) * (textureWidth texture : K)
    ∧ (modOffset v texture).y = v.y - (j : K) * (textureHeight texture : K)

/-- Modelled from the spec: `fmod`, the remainder of the division truncated towards zero. -/
def fmod {K : Type} [LinearOrderedField K] [FloorRing K] (a w : K) : K :=
  a - w * ((if 0 ≤ a / w then Int.floor (a / w) else Int.ceil (a / w) : Int) : K)

/-- Modelled from the spec: `TexCoordSystem::modOffset`, each coordinate of the offset
wrapped by the texture's width resp. height. -/
def modOffsetByFmod {K : Type} [LinearOrderedField K] [FloorRing K]
    (offset : Vec2 K) (texture : Option Texture) : Vec2 K :=
  ⟨fmod offset.x (textureWidth texture : K), fmod offset.y (textureHeight texture : K)⟩

/-! ## EntityBrowserCanvas

A `String` of the source is a `StdString`.  The objects the canvas talks to
(string manager, entity renderer manager, layout) are declared outside the
sources at hand: their queries are the fields of `Services`, and the layout is
the sequence of `addGroup` and `addItem` calls made on it. -/

namespace StdString

/-- Position of the first `c` in `s` counted from `start`, `none` for `npos`. -/
def findFrom (c : Char) : List Char → Nat → Option Nat
  | [], _ => none
  | d :: rest, start => if d = c then some start else findFrom c rest (start + 1)

/-- `std::string::find_first_of(char)`; `none` stands for `String::npos`. -/
def find_first_of (s : StdString) (c : Char) : Option Nat := findFrom c s 0

/-- `std::string::substr(pos, n)` for `pos` within the string. -/
def substr (s : StdString) (pos n : Nat) : StdString := List.take n (List.drop pos s)

/-- `std::string::substr(pos)` for `pos` within the string. -/
def substrFrom (s : StdString) (pos : Nat) : StdString := List.drop pos s

end StdString

/-- The functions of `Utility` the canvas calls, declared outside the sources at hand:
`capitalize(str)` and `containsString(haystack, needle, caseSensitive)`. -/
structure Utility where
  capitalize : StdString → StdString
  containsString : StdString → StdString → Bool → Bool

/-- Modelled from the spec: `Utility::capitalize`, the first letter of every word in
upper case; `initial` tells whether the next character starts a word. -/
def capitalizeFrom : List Char → Bool → List Char
  | [], _ => []
  | c :: rest, initial =>
    if c = ' ' ∨ c = '\n' ∨ c = '\t' ∨ c = '\r' then c :: capitalizeFrom rest true
    else if initial then c.toUpper :: capitalizeFrom rest false
    else c :: capitalizeFrom rest false

/-- Modelled from the spec: whether `needle` is a prefix of `haystack`, letters compared
without regard to case unless `caseSensitive`. -/
def startsWithString (caseSensitive : Bool) : List Char → List Char → Bool
  | _, [] => true
  | [], _ :: _ => false
  | h :: hs, n :: ns =>
    (if caseSensitive then decide (h = n) else decide (h.toLower = n.toLower))
      && startsWithString caseSensitive hs ns

/-- Modelled from the spec: `Utility::containsString`, a search for `needle` in `haystack`
that succeeds when it is found before the end. -/
def containsStringModel (haystack needle : List Char) (caseSensitive : Bool) : Bool :=
  match haystack with
  | [] => false
  | _ :: rest =>
    startsWithString caseSensitive haystack needle
      || containsStringModel rest needle caseSensitive

/-- Modelled from the spec: the two functions of `Utility`. -/
def Utility.model : Utility :=
  ⟨fun s => capitalizeFrom s true, containsStringModel⟩

/-- Modelled from the spec: `Model::PointEntityDefinition`, as far as the canvas reads
it: its address, its name and its usage count. -/
structure PointEntityDefinition where
  ptr : Nat
  name : StdString
  usageCount : Nat
deriving DecidableEq, Repr

/-- Modelled from the spec: `Renderer::Text::FontDescriptor`, a font name and size. -/
structure FontDescriptor where
  name : StdString
  size : Int
deriving DecidableEq, Repr

/-- Modelled from the spec: `BBox`, given by its corners. -/
structure BBox (K : Type) where
  min : Vec3 K
  max : Vec3 K

/-- Modelled from the spec: `BBox::size`. -/
def BBox.size {K : Type} [LinearOrderedField K] (b : BBox K) : Vec3 K := Vec3.sub b.max b.min

/-- The string manager, the entity renderer manager and the document, as far as the
canvas queries them; `R` are string renderers and `E` entity renderers. -/
structure Services (R E K : Type) where
  selectFontSizeWithEllipses :
    FontDescriptor → StdString → Vec2 K → Nat → Vec2 K × FontDescriptor × StdString
  measureString : FontDescriptor → StdString → Vec2 K
  stringRenderer : FontDescriptor → StdString → R
  width : R → K
  height : R → K
  mods : List StdString
  entityRenderer : PointEntityDefinition → List StdString → Option E
  rendererBounds : E → BBox K
  definitionBounds : PointEntityDefinition → BBox K
  boundsAfterRotation : BBox K → Quat3 K → BBox K

/-- A call on the layout that adds to it. -/
inductive LayoutCall (R E K : Type) where
  | addGroup (groupName : StdString) (stringRenderer : R) (titleHeight : K)
  | addItem (definition : PointEntityDefinition) (entityRenderer : Option E)
      (stringRenderer : R) (itemWidth itemHeight titleWidth titleHeight : K)

/-- The layout: its fixed cell size and the calls that added to it, in order. -/
structure Layout (R E K : Type) where
  m_fixedCellSize : K
  calls : List (LayoutCall R E K)

namespace Layout

/-- `layout.fixedCellSize()`. -/
def fixedCellSize {R E K : Type} (layout : Layout R E K) : K := layout.m_fixedCellSize

/-- `layout.addGroup(EntityGroupData(groupName, stringRenderer), titleHeight)`. -/
def addGroup {R E K : Type} (layout : Layout R E K) (groupName : StdString)
    (stringRenderer : R) (titleHeight : K) : Layout R E K :=
  { layout with calls := layout.calls ++ [LayoutCall.addGroup groupName stringRenderer titleHeight] }

/-- `layout.addItem(EntityCellData(definition, entityRenderer, stringRenderer), ...)`. -/
def addItem {R E K : Type} (layout : Layout R E K) (definition : PointEntityDefinition)
    (entityRenderer : Option E) (stringRenderer : R)
    (itemWidth itemHeight titleWidth titleHeight : K) : Layout R E K :=
  { layout with calls := layout.calls ++
      [LayoutCall.addItem definition entityRenderer stringRenderer
        itemWidth itemHeight titleWidth titleHeight] }

end Layout

/-- The data members of `EntityBrowserCanvas` the code reads and writes. -/
structure EntityBrowserCanvas (R K : Type) where
  m_hideUnused : Bool
  m_filterText : StdString
  m_group : Bool
  m_rotation : Quat3 K
  m_stringRendererCache : StdMap Nat R

/-- `groupedDefinitions[groupName].push_back(&definition)` on a `std::map`, kept as the
sequence of its entries in ascending order of key. -/
def pushBackAt {Key V : Type} [LinearOrder Key] (groupName : Key) (definition : V) :
    List (Key × List V) → List (Key × List V)
  | [] => [(groupName, [definition])]
  | (k, ds) :: rest =>
    if groupName < k then (groupName, [definition]) :: (k, ds) :: rest
    else if groupName = k then (k, ds ++ [definition]) :: rest
    else (k, ds) :: pushBackAt groupName definition rest

namespace EntityBrowserCanvas

/-- `addEntityToLayout`; returns the canvas and the layout it leaves behind. -/
def addEntityToLayout {R E K : Type} [LinearOrderedField K] (U : Utility) (S : Services R E K)
    (self : EntityBrowserCanvas R K) (layout : Layout R E K)
    (definition : PointEntityDefinition) (font : FontDescriptor) :
    EntityBrowserCanvas R K × Layout R E K :=
  if (!self.m_hideUnused || decide (definition.usageCount > 0))
      && (self.m_filterText.isEmpty || U.containsString definition.name self.m_filterText false)
  then
    let actualFont := font
    let found : R × Vec2 K × EntityBrowserCanvas R K :=
      match self.m_stringRendererCache definition.ptr with
      | some stringRenderer =>
        (stringRenderer, ⟨S.width stringRenderer, S.height stringRenderer⟩, self)
      | none =>
        let definitionName := definition.name
        let shortName :=
          match StdString.find_first_of definitionName '_' with
          | some uscoreIndex => U.capitalize (StdString.substrFrom definitionName (uscoreIndex + 1))
          | none => definitionName
        let cellSize := layout.fixedCellSize
        let sized : Vec2 K × FontDescriptor × StdString :=
          if cellSize > 0 then
            S.selectFontSizeWithEllipses font shortName ⟨cellSize, (font.size : K)⟩ 9
          else
            (S.measureString font shortName, actualFont, shortName)
        let stringRenderer := S.stringRenderer sized.2.1 sized.2.2
        (stringRenderer, sized.1,
          { self with m_stringRendererCache :=
              StdMap.assign self.m_stringRendererCache definition.ptr stringRenderer })
    let stringRenderer := found.1
    let actualSize := found.2.1
    let entityRenderer := S.entityRenderer definition S.mods
    let bounds :=
      match entityRenderer with
      | some r => S.rendererBounds r
      | none => S.definitionBounds definition
    let bounds := S.boundsAfterRotation bounds self.m_rotation
    let size := bounds.size
    (found.2.2,
      layout.addItem definition entityRenderer stringRenderer size.x size.z actualSize.x
        ((font.size : K) + 2))
  else
    (self, layout)

/-- The group name the first loop of `doReloadLayout` computes for a definition name. -/
def groupNameOf (U : Utility) (definitionName : StdString) : StdString :=
  match StdString.find_first_of definitionName '_' with
  | some uscoreIndex => U.capitalize (StdString.substr definitionName 0 uscoreIndex)
  | none => "Misc".toList

/-- The first loop of `doReloadLayout`: the map from group name to definitions. -/
def groupDefinitions (U : Utility) (definitions : List PointEntityDefinition) :
    List (StdString × List PointEntityDefinition) :=
  definitions.foldl
    (fun groupedDefinitions definition =>
      pushBackAt (groupNameOf U definition.name) definition groupedDefinitions)
    []

/-- `doReloadLayout`; `definitions` is what the definition manager returns for point
entities, `font` the font read from the preferences. -/
def doReloadLayout {R E K : Type} [LinearOrderedField K] (U : Utility) (S : Services R E K)
    (self : EntityBrowserCanvas R K) (layout : Layout R E K)
    (definitions : List PointEntityDefinition) (font : FontDescriptor) :
    EntityBrowserCanvas R K × Layout R E K :=
  if self.m_group then
    let groupedDefinitions := groupDefinitions U definitions
    groupedDefinitions.foldl
      (fun st group =>
        let groupName := group.1
        let groupDefinitions := group.2
        let layout := st.2.addGroup groupName (S.stringRenderer font groupName)
          ((font.size : K) + 2)
        groupDefinitions.foldl
          (fun st definition => addEntityToLayout U S st.1 st.2 definition font)
          (st.1, layout))
      (self, layout)
  else
    definitions.foldl
      (fun st definition => addEntityToLayout U S st.1 st.2 definition font)
      (self, layout)

/-- The condition of the claims for a definition to be shown: hide-unused is off or the
definition is in use, and the filter text is empty or found in the name
without regard to case. -/
def isShown {R K : Type} (U : Utility) (self : EntityBrowserCanvas R K)
    (definition : PointEntityDefinition) : Bool :=
  (!self.m_hideUnused || decide (0 < definition.usageCount))
    && (decide (self.m_filterText = []) || U.containsString definition.name self.m_filterText false)

end EntityBrowserCanvas

/-- What a layout call names: the group of an `addGroup`, the definition of an `addItem`. -/
def LayoutCall.label {R E K : Type} : LayoutCall R E K → StdString ⊕ PointEntityDefinition
  | .addGroup groupName _ _ => Sum.inl groupName
  | .addItem definition _ _ _ _ _ _ => Sum.inr definition

/-! ## Lemmas on strings -/

namespace QString

theorem replaceEscapedSpace_cons_of_ne (c : Char) (l : QString) (hc : c ≠ '\\') :
    replaceEscapedSpace (c :: l) = c :: replaceEscapedSpace l := by
  cases l with
  | nil => simp [replaceEscapedSpace]
  | cons d rest => simp [replaceEscapedSpace, hc]

theorem replaceEscapedSpace_escape (l : QString) :
    replaceEscapedSpace ('\\' :: ' ' :: l) = ' ' :: replaceEscapedSpace l := by
  simp [replaceEscapedSpace]

/-- Unescaping distributes over an occurrence of backslash-space. -/
theorem replaceEscapedSpace_append_escape (a b : QString) :
    replaceEscapedSpace (a ++ '\\' :: ' ' :: b)
      = replaceEscapedSpace a ++ ' ' :: replaceEscapedSpace b := by
  induction a using replaceEscapedSpace.induct with
  | case1 => simp [replaceEscapedSpace]
  | case2 c =>
    by_cases hc : c = '\\'
    · subst hc
      simp [replaceEscapedSpace]
    · simp [replaceEscapedSpace, hc]
  | case3 c d rest h ih =>
    obtain ⟨rfl, rfl⟩ := h
    simp [replaceEscapedSpace, ih]
  | case4 c d rest h ih =>
    have h1 : replaceEscapedSpace (c :: d :: rest) = c :: replaceEscapedSpace (d :: rest) := by
      simp [replaceEscapedSpace, h]
    have h2 : replaceEscapedSpace (c :: d :: (rest ++ '\\' :: ' ' :: b))
        = c :: replaceEscapedSpace (d :: (rest ++ '\\' :: ' ' :: b)) := by
      simp [replaceEscapedSpace, h]
    simp only [List.cons_append] at ih ⊢
    rw [h2, ih, h1]
    rfl

/-- Unescaping keeps a final character other than a space in place. -/
theorem replaceEscapedSpace_append_singleton (l : QString) (c : Char) (hc : c ≠ ' ') :
    replaceEscapedSpace (l ++ [c]) = replaceEscapedSpace l ++ [c] := by
  induction l using replaceEscapedSpace.induct with
  | case1 => simp [replaceEscapedSpace]
  | case2 d => simp [replaceEscapedSpace, hc]
  | case3 d e rest h ih =>
    obtain ⟨rfl, rfl⟩ := h
    simp [replaceEscapedSpace, ih]
  | case4 d e rest h ih =>
    have h1 : replaceEscapedSpace (d :: e :: rest) = d :: replaceEscapedSpace (e :: rest) := by
      simp [replaceEscapedSpace, h]
    have h2 : replaceEscapedSpace (d :: e :: (rest ++ [c]))
        = d :: replaceEscapedSpace (e :: (rest ++ [c])) := by
      simp [replaceEscapedSpace, h]
    simp only [List.cons_append] at ih ⊢
    rw [h2, ih, h1]
    rfl

/-- Unescaping neither adds nor removes a character other than backslash and space. -/
theorem mem_replaceEscapedSpace (l : QString) (c : Char) (h1 : c ≠ '\\') (h2 : c ≠ ' ') :
    c ∈ replaceEscapedSpace l ↔ c ∈ l := by
  induction l using replaceEscapedSpace.induct with
  | case1 => simp [replaceEscapedSpace]
  | case2 d => simp [replaceEscapedSpace]
  | case3 d e rest h ih =>
    obtain ⟨rfl, rfl⟩ := h
    simp [replaceEscapedSpace, ih, h1, h2]
  | case4 d e rest h ih =>
    have h3 : replaceEscapedSpace (d :: e :: rest) = d :: replaceEscapedSpace (e :: rest) := by
      simp [replaceEscapedSpace, h]
    rw [h3, List.mem_cons, ih]
    simp

/-- Unescaping keeps the last character. -/
theorem getLast?_replaceEscapedSpace (l : QString) :
    (replaceEscapedSpace l).getLast? = l.getLast? := by
  induction l using replaceEscapedSpace.induct with
  | case1 => simp [replaceEscapedSpace]
  | case2 d => simp [replaceEscapedSpace]
  | case3 d e rest h ih =>
    obtain ⟨rfl, rfl⟩ := h
    rw [replaceEscapedSpace_escape]
    cases rest with
    | nil => simp [replaceEscapedSpace]
    | cons f rest2 =>
      have hne : replaceEscapedSpace (f :: rest2) ≠ [] := by
        cases rest2 with
        | nil => simp [replaceEscapedSpace]
        | cons g rest3 =>
          unfold replaceEscapedSpace
          split_ifs <;> simp
      obtain ⟨x, xs, hx⟩ := List.exists_cons_of_ne_nil hne
      rw [hx] at ih ⊢
      rw [List.getLast?_cons_cons, ih, List.getLast?_cons_cons, List.getLast?_cons_cons]
  | case4 d e rest h ih =>
    have h3 : replaceEscapedSpace (d :: e :: rest) = d :: replaceEscapedSpace (e :: rest) := by
      simp [replaceEscapedSpace, h]
    have hne : replaceEscapedSpace (e :: rest) ≠ [] := by
      cases rest with
      | nil => simp [replaceEscapedSpace]
      | cons g rest3 =>
        unfold replaceEscapedSpace
        split_ifs <;> simp
    obtain ⟨x, xs, hx⟩ := List.exists_cons_of_ne_nil hne
    rw [h3]
    rw [hx] at ih ⊢
    rw [List.getLast?_cons_cons, ih, List.getLast?_cons_cons]

theorem endsWith_replaceEscapedSpace (l : QString) (c : Char) :
    endsWith (replaceEscapedSpace l) c = endsWith l c := by
  unfold endsWith
  rw [getLast?_replaceEscapedSpace]

theorem startsWith_replaceEscapedSpace (l : QString) (c : Char) (h1 : c ≠ '\\') (h2 : c ≠ ' ') :
    startsWith (replaceEscapedSpace l) c = startsWith l c := by
  cases l with
  | nil => simp [replaceEscapedSpace]
  | cons d rest =>
    cases rest with
    | nil => simp [replaceEscapedSpace]
    | cons e rest2 =>
      unfold replaceEscapedSpace
      split_ifs with h
      · obtain ⟨rfl, rfl⟩ := h
        simp [startsWith, Ne.symm h1, Ne.symm h2]
      · simp [startsWith]

theorem indexOfFrom_of_not_mem (c : Char) (l : QString) (i : Int) (h : c ∉ l) :
    indexOfFrom c l i = -1 := by
  induction l generalizing i with
  | nil => simp [indexOfFrom]
  | cons d rest ih =>
    have hd : d ≠ c := fun e => h (by simp [e])
    have hr : c ∉ rest := fun e => h (List.mem_cons_of_mem _ e)
    simp [indexOfFrom, hd, ih (i + 1) hr]

theorem indexOfFrom_append (c : Char) (key value : List Char) (i : Int) (h : c ∉ key) :
    indexOfFrom c (key ++ c :: value) i = i + (List.length key : Int) := by
  induction key generalizing i with
  | nil => simp [indexOfFrom]
  | cons d rest ih =>
    have hd : d ≠ c := fun e => h (by simp [e])
    have hr : c ∉ rest := fun e => h (List.mem_cons_of_mem _ e)
    have e1 : indexOfFrom c (d :: rest ++ c :: value) i
        = indexOfFrom c (rest ++ c :: value) (i + 1) := by
      simp [indexOfFrom, hd]
    rw [e1, ih (i + 1) hr, List.length_cons]
    push_cast
    omega

/-- The index found by `indexOf` is where the text before the first `c` ends. -/
theorem indexOf_append (c : Char) (key value : List Char) (h : c ∉ key) :
    indexOf (key ++ c :: value) c = (List.length key : Int) := by
  unfold indexOf
  rw [indexOfFrom_append c key value 0 h]
  simp

theorem indexOf_of_not_mem (c : Char) (l : List Char) (h : c ∉ l) : indexOf l c = -1 :=
  indexOfFrom_of_not_mem c l 0 h

theorem left_append (key rest : List Char) :
    left (key ++ rest) (List.length key : Int) = key := by
  unfold left length
  split_ifs with h
  · rcases h with h | h
    · omega
    · have h0 : List.length rest = 0 := by
        rw [List.length_append] at h
        push_cast at h
        omega
      have : rest = [] := List.length_eq_zero.mp h0
      simp [this]
  · simp

theorem mid_append_cons (key value : List Char) (c : Char) :
    mid (key ++ c :: value) ((List.length key : Int) + 1) (-1) = value := by
  unfold mid length
  have h1 : ¬ ((List.length (key ++ c :: value) : Int) < (List.length key : Int) + 1) := by
    rw [List.length_append, List.length_cons]; push_cast; omega
  have h2 : ¬ ((List.length key : Int) + 1 < 0) := by omega
  rw [if_neg h1, if_neg h2, if_pos (Or.inl (by norm_num))]
  have h3 : ((List.length key : Int) + 1).toNat = List.length key + 1 := by omega
  rw [h3, List.drop_append_eq_append_drop]
  simp

theorem mid_between (m : List Char) (c d : Char) :
    mid (c :: (m ++ [d])) 1 (length (c :: (m ++ [d])) - 2) = m := by
  unfold mid length
  have hl : (List.length (c :: (m ++ [d])) : Int) = (List.length m : Int) + 2 := by
    simp only [List.length_cons, List.length_append, List.length_nil]
    push_cast
    omega
  rw [hl]
  have h1 : ¬ ((List.length m : Int) + 2 < 1) := by omega
  have h2 : ¬ ((1 : Int) < 0) := by omega
  have h3 : ¬ ((List.length m : Int) + 2 - 2 < 0
      ∨ (List.length m : Int) + 2 - 1 < (List.length m : Int) + 2 - 2) := by
    omega
  rw [if_neg h1, if_neg h2, if_neg h3]
  have h4 : ((List.length m : Int) + 2 - 2).toNat = List.length m := by omega
  rw [h4]
  simp

theorem startsWith_endsWith_iff (l : QString) (c d : Char) (hcd : c ≠ d) :
    (startsWith l c && endsWith l d) = true ↔ ∃ m, l = c :: (m ++ [d]) := by
  constructor
  · intro h
    rw [Bool.and_eq_true] at h
    obtain ⟨hs, he⟩ := h
    cases l with
    | nil => simp [startsWith] at hs
    | cons x rest =>
      have hx : x = c := by simpa [startsWith] using hs
      subst hx
      unfold endsWith at he
      cases hlast : (x :: rest).getLast? with
      | none => rw [hlast] at he; simp at he
      | some y =>
        rw [hlast] at he
        have hy : y = d := by simpa using he
        subst hy
        obtain ⟨ys, hys⟩ := List.getLast?_eq_some_iff.mp hlast
        cases ys with
        | nil =>
          simp at hys
          exact absurd hys.1 hcd
        | cons z zs =>
          simp at hys
          exact ⟨zs, by rw [hys.2]⟩
  · rintro ⟨m, rfl⟩
    simp [startsWith, endsWith, List.getLast?_cons_cons]
    rw [← List.cons_append, List.getLast?_append]
    simp

end QString

theorem QString.exists_first (c : Char) (l : List Char) (h : c ∈ l) :
    ∃ key value, l = key ++ c :: value ∧ c ∉ key := by
  induction l with
  | nil => simp at h
  | cons d rest ih =>
    by_cases hd : d = c
    · exact ⟨[], rest, by simp [hd], by simp⟩
    · have hr : c ∈ rest := by
        rcases List.mem_cons.mp h with e | e
        · exact absurd e.symm hd
        · exact e
      obtain ⟨key, value, e, hk⟩ := ih hr
      refine ⟨d :: key, value, by simp [e], ?_⟩
      intro hm
      rcases List.mem_cons.mp hm with e2 | e2
      · exact hd e2.symm
      · exact hk e2

theorem QString.mem_dropWhile_isSpace (c : Char) (l : List Char) (hc : QString.isSpace c = false) :
    c ∈ l.dropWhile QString.isSpace ↔ c ∈ l := by
  induction l with
  | nil => simp
  | cons d rest ih =>
    by_cases hd : QString.isSpace d = true
    · rw [List.dropWhile_cons_of_pos hd, ih, List.mem_cons]
      constructor
      · exact Or.inr
      · rintro (e | e)
        · rw [e, hd] at hc; cases hc
        · exact e
    · rw [List.dropWhile_cons_of_neg hd]

theorem QString.mem_trimmed (c : Char) (l : List Char) (hc : QString.isSpace c = false) :
    c ∈ QString.trimmed l ↔ c ∈ l := by
  unfold QString.trimmed
  rw [List.mem_reverse, QString.mem_dropWhile_isSpace c _ hc, List.mem_reverse,
    QString.mem_dropWhile_isSpace c _ hc]

/-- Trimming and unescaping neither add nor remove an `'='`. -/
theorem mem_lineText_eq (rawLine : List Char) : '=' ∈ lineText rawLine ↔ '=' ∈ rawLine := by
  unfold lineText
  rw [QString.mem_replaceEscapedSpace _ _ (by decide) (by decide),
    QString.mem_trimmed _ _ (by decide)]

/-- The heading test gives the same answer on the trimmed line and on the unescaped one. -/
theorem isHeading_lineText (rawLine : List Char) :
    isHeading (lineText rawLine) = isHeading (QString.trimmed rawLine) := by
  unfold isHeading lineText
  rw [QString.startsWith_replaceEscapedSpace _ _ (by decide) (by decide),
    QString.endsWith_replaceEscapedSpace]

theorem isHeading_iff (line : List Char) :
    isHeading line = true ↔ ∃ m, line = '[' :: (m ++ [']']) :=
  QString.startsWith_endsWith_iff line '[' ']' (by decide)

theorem lineText_of_trimmed_heading (rawLine m0 : List Char)
    (h : QString.trimmed rawLine = '[' :: (m0 ++ [']'])) :
    lineText rawLine = '[' :: (QString.replaceEscapedSpace m0 ++ [']']) := by
  unfold lineText
  rw [h, QString.replaceEscapedSpace_cons_of_ne _ _ (by decide),
    QString.replaceEscapedSpace_append_singleton _ _ (by decide)]

/-! ## Lemmas on the map -/

theorem INIMap.lookup_assign (m : INIMap) (sec key value sec' key' : List Char) :
    (INIMap.assign m sec key value).lookup sec' key'
      = if sec' = sec ∧ key' = key then some value else m.lookup sec' key' := by
  unfold INIMap.lookup INIMap.assign StdMap.assign
  by_cases hs : sec' = sec
  · subst hs
    by_cases hk : key' = key
    · simp [hk]
    · cases hm : m sec' <;> simp [hk, hm, StdMap.empty]
  · simp [hs]

theorem INIMap.lookup_empty (sec key : List Char) :
    INIMap.lookup (StdMap.empty : INIMap) sec key = none := by
  simp [INIMap.lookup, StdMap.empty]

/-! ## Lemmas on one loop iteration -/

theorem parseLine_heading (st : ParseState) (rawLine m : List Char)
    (h : lineText rawLine = '[' :: (m ++ [']'])) :
    parseLine st rawLine = { sec := m, result := st.result } := by
  have hh : isHeading (lineText rawLine) = true := (isHeading_iff _).mpr ⟨m, h⟩
  unfold isHeading lineText at hh
  unfold lineText at h
  unfold parseLine
  simp only [hh, if_true]
  rw [h, QString.mid_between]

theorem parseLine_entry (st : ParseState) (rawLine key value : List Char)
    (hh : isHeading (lineText rawLine) = false)
    (hl : lineText rawLine = key ++ '=' :: value) (hk : '=' ∉ key) :
    parseLine st rawLine
      = { sec := st.sec, result := INIMap.assign st.result st.sec key value } := by
  rw [hl] at hh
  unfold isHeading at hh
  unfold lineText at hl
  unfold parseLine
  simp only [hl, hh, QString.indexOf_append _ _ _ hk, QString.left_append,
    QString.mid_append_cons]
  have : ((List.length key : Int) ≠ -1) := by omega
  simp [this]

theorem parseLine_skip (st : ParseState) (rawLine : List Char)
    (hh : isHeading (lineText rawLine) = false) (hn : '=' ∉ lineText rawLine) :
    parseLine st rawLine = st := by
  unfold isHeading lineText at hh
  unfold lineText at hn
  unfold parseLine
  simp only [hh, QString.indexOf_of_not_mem _ _ hn]
  simp

theorem parseLines_snoc (pre : List QString) (rawLine : QString) :
    parseLines (pre ++ [rawLine]) = parseLine (parseLines pre) rawLine := by
  simp [parseLines, List.foldl_append]

theorem parseLines_append (pre post : List QString) :
    parseLines (pre ++ post) = post.foldl parseLine (parseLines pre) := by
  simp [parseLines, List.foldl_append]

/-- The three cases of one iteration, by the shape of the classified line. -/
theorem parseLine_cases (st : ParseState) (rawLine : List Char) :
    (∃ m, lineText rawLine = '[' :: (m ++ [']'])
        ∧ parseLine st rawLine = { sec := m, result := st.result })
    ∨ (isHeading (lineText rawLine) = false ∧ ∃ key value,
        lineText rawLine = key ++ '=' :: value ∧ '=' ∉ key
        ∧ parseLine st rawLine
            = { sec := st.sec, result := INIMap.assign st.result st.sec key value })
    ∨ (isHeading (lineText rawLine) = false ∧ '=' ∉ lineText rawLine
        ∧ parseLine st rawLine = st) := by
  cases hh : isHeading (lineText rawLine) with
  | true =>
    obtain ⟨m, hm⟩ := (isHeading_iff _).mp hh
    exact Or.inl ⟨m, hm, parseLine_heading st rawLine m hm⟩
  | false =>
    by_cases he : '=' ∈ lineText rawLine
    · obtain ⟨key, value, hl, hk⟩ := QString.exists_first _ _ he
      exact Or.inr (Or.inl ⟨rfl, key, value, hl, hk, parseLine_entry st rawLine key value hh hl hk⟩)
    · exact Or.inr (Or.inr ⟨rfl, he, parseLine_skip st rawLine hh he⟩)

/-! ## Lemmas on the whole loop -/

/-- Every entry of the map built from `ls` was written by an entry line of `ls`, under
the section current at that line. -/
theorem parseLines_lookup_origin (ls : List QString) (sec key value : List Char)
    (h : (parseLines ls).result.lookup sec key = some value) :
    ∃ pre rawLine post, ls = pre ++ rawLine :: post
      ∧ (parseLines pre).sec = sec ∧ isHeading (lineText rawLine) = false
      ∧ lineText rawLine = key ++ '=' :: value ∧ '=' ∉ key := by
  induction ls using List.reverseRecOn with
  | nil =>
    simp [parseLines, INIMap.lookup_empty] at h
  | append_singleton l a ih =>
    have extend : (∃ pre rawLine post, l = pre ++ rawLine :: post
        ∧ (parseLines pre).sec = sec ∧ isHeading (lineText rawLine) = false
        ∧ lineText rawLine = key ++ '=' :: value ∧ '=' ∉ key) →
        ∃ pre rawLine post, l ++ [a] = pre ++ rawLine :: post
        ∧ (parseLines pre).sec = sec ∧ isHeading (lineText rawLine) = false
        ∧ lineText rawLine = key ++ '=' :: value ∧ '=' ∉ key := by
      rintro ⟨pre, r, post, e, h1, h2, h3, h4⟩
      exact ⟨pre, r, post ++ [a], by simp [e], h1, h2, h3, h4⟩
    rw [parseLines_snoc] at h
    rcases parseLine_cases (parseLines l) a with ⟨m, _, e⟩ | ⟨hh, k, v, hl, hk, e⟩ | ⟨_, _, e⟩
    · rw [e] at h
      exact extend (ih h)
    · rw [e] at h
      simp only [INIMap.lookup_assign] at h
      split_ifs at h with hc
      · obtain ⟨hs, hkey⟩ := hc
        have hv : v = value := by simpa using h
        subst hv
        subst hkey
        exact ⟨l, a, [], rfl, hs.symm, hh, hl, hk⟩
      · exact extend (ih h)
    · rw [e] at h
      exact extend (ih h)

/-- An entry, once written, is never removed by later lines. -/
theorem foldl_parseLine_lookup_isSome (post : List QString) (st : ParseState)
    (sec key : List Char) (h : (st.result.lookup sec key).isSome = true) :
    ((post.foldl parseLine st).result.lookup sec key).isSome = true := by
  induction post generalizing st with
  | nil => exact h
  | cons a rest ih =>
    rw [List.foldl_cons]
    apply ih
    rcases parseLine_cases st a with ⟨m, _, e⟩ | ⟨hh, k, v, hl, hk, e⟩ | ⟨_, _, e⟩
    · rw [e]; exact h
    · rw [e]
      simp only [INIMap.lookup_assign]
      split_ifs
      · rfl
      · exact h
    · rw [e]; exact h

/-- Lines none of which writes `key` in `sec` leave that entry as it is. -/
theorem foldl_parseLine_lookup_of_no_write (post : List QString) (st : ParseState)
    (sec key : List Char)
    (h : ∀ post1 raw2 post2, post = post1 ++ raw2 :: post2 →
      ¬ (isHeading (lineText raw2) = false ∧ (post1.foldl parseLine st).sec = sec
          ∧ ∃ value2, lineText raw2 = key ++ '=' :: value2)) :
    (post.foldl parseLine st).result.lookup sec key = st.result.lookup sec key := by
  induction post using List.reverseRecOn with
  | nil => rfl
  | append_singleton l a ih =>
    have hprev : (l.foldl parseLine st).result.lookup sec key = st.result.lookup sec key := by
      apply ih
      intro post1 raw2 post2 e
      exact h post1 raw2 (post2 ++ [a]) (by simp [e])
    rw [List.foldl_append, List.foldl_cons, List.foldl_nil]
    rcases parseLine_cases (l.foldl parseLine st) a with
      ⟨m, _, e⟩ | ⟨hh, k, v, hl, hk2, e⟩ | ⟨_, _, e⟩
    · rw [e]; exact hprev
    · rw [e]
      simp only [INIMap.lookup_assign]
      split_ifs with hc
      · obtain ⟨hs, hkey⟩ := hc
        exact absurd ⟨hh, hs.symm, v, by rw [hl, hkey]⟩ (h l a [] rfl)
      · exact hprev
    · rw [e]; exact hprev

/-- Lines that are no heading leave the current section as it is. -/
theorem foldl_parseLine_sec_of_no_heading (post : List QString) (st : ParseState)
    (h : ∀ r ∈ post, isHeading (lineText r) = false) :
    (post.foldl parseLine st).sec = st.sec := by
  induction post generalizing st with
  | nil => rfl
  | cons a rest ih =>
    rw [List.foldl_cons, ih _ (fun r hr => h r (List.mem_cons_of_mem _ hr))]
    have ha := h a (List.mem_cons_self _ _)
    rcases parseLine_cases st a with ⟨m, hm, _⟩ | ⟨_, k, v, _, _, e⟩ | ⟨_, _, e⟩
    · rw [(isHeading_iff _).mpr ⟨m, hm⟩] at ha
      cases ha
    · rw [e]
    · rw [e]

/-- Dropping the lines the loop ignores does not change the loop's final state. -/
theorem foldl_parseLine_filter (ls : List QString) (st : ParseState) :
    (ls.filter (fun raw => !isSkipped raw)).foldl parseLine st = ls.foldl parseLine st := by
  induction ls generalizing st with
  | nil => rfl
  | cons a rest ih =>
    rw [List.filter_cons]
    split_ifs with hkeep
    · rw [List.foldl_cons, List.foldl_cons, ih]
    · rw [List.foldl_cons, ih]
      have hs : isSkipped a = true := by simpa using hkeep
      unfold isSkipped at hs
      rw [Bool.and_eq_true] at hs
      have h1 : isHeading (lineText a) = false := by
        rw [isHeading_lineText]
        simpa using hs.1
      have h2 : '=' ∉ lineText a := by
        rw [mem_lineText_eq]
        simpa using hs.2
      rw [parseLine_skip st a h1 h2]

/-! ## parseINI: the claims -/

/-- C1. `parseINI`, key=value entries.  For every input stream:
(1) a line whose classified text (trimmed, unescaped) is not a heading and contains
an `'='` splits as `key ++ "=" ++ value` with no `'='` in `key`; `key` and `value`
may be empty and `value` may contain further `'='`;
(2) when such a line is read, after the lines `pre`, the loop stores `value` under
`key` in the current section and changes no other entry and not the section; the
returned map still has an entry for that key, and it is `value` unless a later
line writes the same key in the same section;
(3) every entry of the returned map was written by such a line of the stream. -/
theorem parseINI_key_value_entries (iniStream : QTextStream) :
    (∀ rawLine : List Char, isHeading (lineText rawLine) = false → '=' ∈ lineText rawLine →
        ∃ key value, lineText rawLine = key ++ '=' :: value ∧ '=' ∉ key)
    ∧ (∀ (pre : List QString) (rawLine : List Char) (post : List QString)
        (key value : List Char),
        iniStream.lines = pre ++ rawLine :: post →
        isHeading (lineText rawLine) = false →
        lineText rawLine = key ++ '=' :: value → '=' ∉ key →
          (parseLines (pre ++ [rawLine])).sec = (parseLines pre).sec
          ∧ (parseLines (pre ++ [rawLine])).result.lookup (parseLines pre).sec key = some value
          ∧ (∀ sec2 key2 : List Char, ¬ (sec2 = (parseLines pre).sec ∧ key2 = key) →
              (parseLines (pre ++ [rawLine])).result.lookup sec2 key2
                = (parseLines pre).result.lookup sec2 key2)
          ∧ ((parseINI iniStream).lookup (parseLines pre).sec key).isSome = true
          ∧ ((∀ (post1 : List QString) (raw2 : List Char) (post2 : List QString),
                post = post1 ++ raw2 :: post2 →
                ¬ (isHeading (lineText raw2) = false
                    ∧ (parseLines (pre ++ rawLine :: post1)).sec = (parseLines pre).sec
                    ∧ ∃ value2, lineText raw2 = key ++ '=' :: value2)) →
              (parseINI iniStream).lookup (parseLines pre).sec key = some value))
    ∧ (∀ sec key value : List Char, (parseINI iniStream).lookup sec key = some value →
        ∃ pre rawLine post, iniStream.lines = pre ++ rawLine :: post
          ∧ (parseLines pre).sec = sec ∧ isHeading (lineText rawLine) = false
          ∧ lineText rawLine = key ++ '=' :: value ∧ '=' ∉ key) := by
  refine ⟨fun rawLine _ he => QString.exists_first _ _ he, ?_, ?_⟩
  · intro pre rawLine post key value hlines hh hl hk
    have hstep : parseLines (pre ++ [rawLine])
        = { sec := (parseLines pre).sec,
            result := INIMap.assign (parseLines pre).result (parseLines pre).sec key value } := by
      rw [parseLines_snoc, parseLine_entry _ _ _ _ hh hl hk]
    have hstored : (parseLines (pre ++ [rawLine])).result.lookup (parseLines pre).sec key
        = some value := by
      rw [hstep]
      simp [INIMap.lookup_assign]
    have hfinal : parseINI iniStream
        = (post.foldl parseLine (parseLines (pre ++ [rawLine]))).result := by
      unfold parseINI
      rw [hlines, ← parseLines_append]
      simp
    refine ⟨by rw [hstep], hstored, ?_, ?_, ?_⟩
    · intro sec2 key2 hne
      rw [hstep]
      simp only [INIMap.lookup_assign, if_neg hne]
    · rw [hfinal]
      apply foldl_parseLine_lookup_isSome
      rw [hstored]
      rfl
    · intro hlater
      rw [hfinal, foldl_parseLine_lookup_of_no_write, hstored]
      intro post1 raw2 post2 e hw
      apply hlater post1 raw2 post2 e
      refine ⟨hw.1, ?_, hw.2.2⟩
      have : pre ++ rawLine :: post1 = (pre ++ [rawLine]) ++ post1 := by simp
      rw [this, parseLines_append]
      exact hw.2.1
  · intro sec key value h
    exact parseLines_lookup_origin _ sec key value h

/-- C1, at the stream of the lines `[s]`, `k=a=b` and `=x`: the line `k=a=b` is stored
in section `s` as key `k` with value `a=b`. -/
theorem parseINI_key_value_entries_witness :
    (parseLines ["[s]".toList, "k=a=b".toList]).result.lookup "s".toList "k".toList
      = some "a=b".toList :=
  ((parseINI_key_value_entries ⟨"[s]\nk=a=b\n=x\n".toList⟩).2.1
    ["[s]".toList] "k=a=b".toList ["=x".toList] "k".toList "a=b".toList
    (by decide) (by decide) (by decide) (by decide)).2.1

/-- C2 as stated fails at the stream made of the lines `[a\ b]` and `k=v`: the first
line, trimmed, starts with `'['` and ends with `']'`, and the text strictly between
its first and last character is `a\ b`; yet the entry of the second line is stored
under the section `a b`, and the map has no section `a\ b`. -/
theorem parseINI_section_name_is_unescaped :
    QString.trimmed "[a\\ b]".toList = '[' :: ("a\\ b".toList ++ [']'])
    ∧ (parseLines ["[a\\ b]".toList]).sec = "a b".toList
    ∧ (parseINI ⟨"[a\\ b]\nk=v\n".toList⟩).lookup "a b".toList "k".toList = some "v".toList
    ∧ (parseINI ⟨"[a\\ b]\nk=v\n".toList⟩).lookup "a\\ b".toList "k".toList = none := by
  decide

/-- C2, amended. `parseINI`, sections.
(1) The heading test gives the same answer on the trimmed line as on the line the
loop tests (trimmed, then unescaped).
(2) A line that after trimming starts with `'['` and ends with `']'`, whatever lies
between (an `'='` included), leaves `result` as it is and sets the current section
to the text strictly between its first and last character, with each
backslash-space in it decoded to a space like everywhere else in the line.
(3) The current section is empty as long as no heading was read, and after a
heading followed by lines that are no headings it is that heading's section.
(4) An entry line read after the lines `pre` is stored under the section current
after `pre`, and no other section changes. -/
theorem parseINI_sections (iniStream : QTextStream) :
    (∀ rawLine : List Char,
        isHeading (lineText rawLine)
          = (QString.startsWith (QString.trimmed rawLine) '['
              && QString.endsWith (QString.trimmed rawLine) ']'))
    ∧ (∀ (st : ParseState) (rawLine : List Char),
        (QString.startsWith (QString.trimmed rawLine) '['
            && QString.endsWith (QString.trimmed rawLine) ']') = true →
        ∃ between, QString.trimmed rawLine = '[' :: (between ++ [']'])
          ∧ lineText rawLine = '[' :: (QString.replaceEscapedSpace between ++ [']'])
          ∧ parseLine st rawLine
              = { sec := QString.replaceEscapedSpace between, result := st.result })
    ∧ (∀ pre : List QString, (∀ r ∈ pre, isHeading (lineText r) = false) →
        (parseLines pre).sec = [])
    ∧ (∀ (pre1 : List QString) (heading : List Char) (pre2 : List QString) (name : List Char),
        lineText heading = '[' :: (name ++ [']']) →
        (∀ r ∈ pre2, isHeading (lineText r) = false) →
        (parseLines (pre1 ++ heading :: pre2)).sec = name)
    ∧ (∀ (pre : List QString) (rawLine : List Char) (post : List QString)
        (key value : List Char),
        iniStream.lines = pre ++ rawLine :: post →
        isHeading (lineText rawLine) = false →
        lineText rawLine = key ++ '=' :: value → '=' ∉ key →
          (parseLines (pre ++ [rawLine])).result.lookup (parseLines pre).sec key = some value
          ∧ (∀ sec2 key2 : List Char, sec2 ≠ (parseLines pre).sec →
              (parseLines (pre ++ [rawLine])).result.lookup sec2 key2
                = (parseLines pre).result.lookup sec2 key2)) := by
  refine ⟨fun rawLine => isHeading_lineText rawLine, ?_, ?_, ?_, ?_⟩
  · intro st rawLine hh
    obtain ⟨between, hb⟩ := (isHeading_iff (QString.trimmed rawLine)).mp hh
    have hl := lineText_of_trimmed_heading rawLine between hb
    exact ⟨between, hb, hl, parseLine_heading st rawLine _ hl⟩
  · intro pre hpre
    unfold parseLines
    rw [foldl_parseLine_sec_of_no_heading pre _ hpre]
  · intro pre1 heading pre2 name hl hpre2
    have e : pre1 ++ heading :: pre2 = (pre1 ++ [heading]) ++ pre2 := by simp
    rw [e, parseLines_append, foldl_parseLine_sec_of_no_heading pre2 _ hpre2, parseLines_snoc,
      parseLine_heading _ _ _ hl]
  · intro pre rawLine post key value _ hh hl hk
    have hstep : parseLines (pre ++ [rawLine])
        = { sec := (parseLines pre).sec,
            result := INIMap.assign (parseLines pre).result (parseLines pre).sec key value } := by
      rw [parseLines_snoc, parseLine_entry _ _ _ _ hh hl hk]
    rw [hstep]
    refine ⟨by simp [INIMap.lookup_assign], ?_⟩
    intro sec2 key2 hne
    simp [INIMap.lookup_assign, hne]

/-- C2 amended, at the line `  [a=\ b] `: it is a heading although it contains `'='`,
the map stays as it is and the section becomes `a= b`. -/
theorem parseINI_sections_witness :
    ∃ between, QString.trimmed "  [a=\\ b] ".toList = '[' :: (between ++ [']'])
      ∧ lineText "  [a=\\ b] ".toList = '[' :: (QString.replaceEscapedSpace between ++ [']'])
      ∧ parseLine ⟨"old".toList, StdMap.empty⟩ "  [a=\\ b] ".toList
          = { sec := QString.replaceEscapedSpace between, result := StdMap.empty } :=
  (parseINI_sections ⟨[]⟩).2.1 ⟨"old".toList, StdMap.empty⟩ "  [a=\\ b] ".toList (by decide)

/-- C3. `parseINI` passes over malformed lines.  When the lines of `iniStream2` are the
lines of `iniStream` without those that are neither a heading nor contain an
`'='`, both streams give the same map.  A line of white space only is such a line.
The loop cannot fail: `parseINI` is a total function, and the string operations
it performs get arguments in range (a heading has at least two characters, so
`mid(1, length - 2)` asks for a non-negative count; the index of `'='` lies inside
the line). -/
theorem parseINI_skips_malformed_lines (iniStream iniStream2 : QTextStream)
    (h : iniStream2.lines = iniStream.lines.filter (fun raw => !isSkipped raw)) :
    parseINI iniStream2 = parseINI iniStream
    ∧ (∀ rawLine : List Char, (∀ c ∈ rawLine, QString.isSpace c = true) →
        isSkipped rawLine = true)
    ∧ (∀ line : List Char, isHeading line = true → 0 ≤ QString.length line - 2)
    ∧ (∀ line : List Char, '=' ∈ line →
        0 ≤ QString.indexOf line '=' ∧ QString.indexOf line '=' < QString.length line) := by
  refine ⟨?_, ?_, ?_, ?_⟩
  · unfold parseINI parseLines
    rw [h, foldl_parseLine_filter]
  · intro rawLine hall
    have hd : rawLine.dropWhile QString.isSpace = [] := by
      rw [List.dropWhile_eq_nil_iff]
      exact hall
    have ht : QString.trimmed rawLine = [] := by
      unfold QString.trimmed
      rw [hd]
      rfl
    have hne : '=' ∉ rawLine := by
      intro hm
      have := hall _ hm
      revert this
      decide
    unfold isSkipped
    rw [ht]
    simp [hne, isHeading, QString.startsWith]
  · intro line hh
    obtain ⟨m, rfl⟩ := (isHeading_iff line).mp hh
    unfold QString.length
    simp only [List.length_cons, List.length_append, List.length_nil]
    push_cast
    omega
  · intro line he
    obtain ⟨key, value, rfl, hk⟩ := QString.exists_first _ _ he
    rw [QString.indexOf_append _ _ _ hk]
    unfold QString.length
    simp only [List.length_cons, List.length_append]
    push_cast
    omega

/-- C3, at the stream of the lines `junk`, `[a]`, a blank line and `k=v`, whose kept
lines are those of the stream of `[a]` and `k=v`. -/
theorem parseINI_skips_malformed_lines_witness :
    parseINI ⟨"[a]\nk=v\n".toList⟩ = parseINI ⟨"junk\n[a]\n \nk=v\n".toList⟩ :=
  (parseINI_skips_malformed_lines ⟨"junk\n[a]\n \nk=v\n".toList⟩ ⟨"[a]\nk=v\n".toList⟩
    (by decide)).1

/-- Every backslash-space that is still in the line after trimming is decoded as a
single space: when the trimmed text of a key=value line is `a ++ "\\ " ++ b`, the
stored key and value satisfy `key ++ "=" ++ value = unescaped a ++ " " ++ unescaped b`,
with no `'='` in `key`. -/
theorem parseLine_unescapes_trimmed_line (st : ParseState) (rawLine a b : List Char)
    (htrim : QString.trimmed rawLine = a ++ '\\' :: ' ' :: b)
    (hh : isHeading (QString.trimmed rawLine) = false) (he : '=' ∈ rawLine) :
    ∃ key value, '=' ∉ key
      ∧ key ++ '=' :: value
          = QString.replaceEscapedSpace a ++ ' ' :: QString.replaceEscapedSpace b
      ∧ parseLine st rawLine
          = { sec := st.sec, result := INIMap.assign st.result st.sec key value }
      ∧ (parseLine st rawLine).result.lookup st.sec key = some value := by
  have hh2 : isHeading (lineText rawLine) = false := by rw [isHeading_lineText]; exact hh
  have he2 : '=' ∈ lineText rawLine := (mem_lineText_eq rawLine).mpr he
  obtain ⟨key, value, hl, hk⟩ := QString.exists_first _ _ he2
  have hstep := parseLine_entry st rawLine key value hh2 hl hk
  refine ⟨key, value, hk, ?_, hstep, ?_⟩
  · rw [← hl]
    unfold lineText
    rw [htrim, QString.replaceEscapedSpace_append_escape]
  · rw [hstep]
    simp [INIMap.lookup_assign]

/-- C4 on the code.  At the line `k=v\ `, whose value ends in backslash-space, the
trimming removes the final space before the unescaping looks at the line: the
value stored is `v\`, not `v` followed by a space.  The same escape at the start
of a line, `\ k=v`, is decoded: the key stored is a space followed by `k`. -/
theorem parseINI_escape_at_line_end :
    lineText "k=v\\ ".toList = "k=v\\".toList
    ∧ (parseINI ⟨"k=v\\ \n".toList⟩).lookup [] "k".toList = some "v\\".toList
    ∧ (parseINI ⟨"k=v\\ \n".toList⟩).lookup [] "k".toList ≠ some "v ".toList
    ∧ (parseINI ⟨"\\ k=v\n".toList⟩).lookup [] " k".toList = some "v".toList := by
  decide

/-! ## PreferenceSerializerV1: the claims -/

namespace PreferenceSerializerV1

/-- C5. `readFromString` for `bool`: it returns true exactly when the string is `"1"` or
is `"0"`; on `"1"` the output becomes true, on `"0"` false; on every other string,
among them `""`, `"true"`, `" 1"` and `"01"`, it returns false and the output keeps
the value it had. -/
theorem readFromString_bool_spec (input : List Char) (out : Bool) :
    ((readFromString_bool input out).ok = true ↔ input = "1".toList ∨ input = "0".toList)
    ∧ (input = "1".toList → readFromString_bool input out = ⟨true, true⟩)
    ∧ (input = "0".toList → readFromString_bool input out = ⟨true, false⟩)
    ∧ (input ≠ "1".toList → input ≠ "0".toList → readFromString_bool input out = ⟨false, out⟩)
    ∧ readFromString_bool "".toList out = ⟨false, out⟩
    ∧ readFromString_bool "true".toList out = ⟨false, out⟩
    ∧ readFromString_bool " 1".toList out = ⟨false, out⟩
    ∧ readFromString_bool "01".toList out = ⟨false, out⟩ := by
  refine ⟨?_, ?_, ?_, ?_, ?_, ?_, ?_, ?_⟩
  · unfold readFromString_bool
    split_ifs with h1 h0
    · simp [h1]
    · simp [h0]
    · constructor
      · intro h; cases h
      · rintro (h | h)
        · exact absurd h h1
        · exact absurd h h0
  · intro h
    simp [readFromString_bool, h]
  · intro h
    subst h
    unfold readFromString_bool
    rw [if_neg (by decide), if_pos rfl]
  · intro h1 h0
    unfold readFromString_bool
    rw [if_neg h1, if_neg h0]
  · unfold readFromString_bool
    rw [if_neg (by decide), if_neg (by decide)]
  · unfold readFromString_bool
    rw [if_neg (by decide), if_neg (by decide)]
  · unfold readFromString_bool
    rw [if_neg (by decide), if_neg (by decide)]
  · unfold readFromString_bool
    rw [if_neg (by decide), if_neg (by decide)]

/-- C5, at the string `"0"` with the output holding true beforehand. -/
theorem readFromString_bool_spec_witness :
    readFromString_bool "0".toList true = ⟨true, false⟩ :=
  (readFromString_bool_spec "0".toList true).2.2.1 rfl

/-- C6. `readFromString` for `Color`: the flag returned is the answer of
`Color::canParse` on the string; when it is false the output keeps its value, and
when it is true the output is `Color::parse` of the string. -/
theorem readFromString_Color_spec {Color : Type} (canParse : StdString → Bool)
    (parse : StdString → Color) (input : List Char) (out : Color) :
    ((readFromString_Color canParse parse input out).ok = true
        ↔ canParse (QString.toStdString input) = true)
    ∧ ((readFromString_Color canParse parse input out).ok = false →
        (readFromString_Color canParse parse input out).out = out)
    ∧ ((readFromString_Color canParse parse input out).ok = true →
        (readFromString_Color canParse parse input out).out
          = parse (QString.toStdString input)) := by
  unfold readFromString_Color
  cases h : canParse (QString.toStdString input) <;> simp [h]

/-- C6, with colours as one number, a parser that accepts only `"7"`, and the
unparsable string `"red"`: the output keeps its value 3. -/
theorem readFromString_Color_spec_witness :
    (readFromString_Color (fun s => decide (s = "7".toList)) (fun _ => (7 : Nat))
      "red".toList 3).out = 3 :=
  (readFromString_Color_spec (fun s => decide (s = "7".toList)) (fun _ => (7 : Nat))
    "red".toList 3).2.1 (by decide)

/-- When no number is detected, both numeric overloads return false and leave 0 in
the output, whatever it held. -/
theorem readFromString_number_not_detected {F : Type} [Zero F]
    (scanF : List Char → Option (F × List Char)) (scanI : List Char → Option (Int × List Char))
    (input : List Char) (outF : F) (outI : Int)
    (hF : scanF input = none) (hI : scanI input = none) :
    readFromString_float scanF input outF = ⟨false, 0⟩
    ∧ readFromString_int scanI input outI = ⟨false, 0⟩ := by
  unfold readFromString_float readFromString_int QTextStream.extract
  simp only [hF, hI]
  constructor <;> split_ifs <;> simp

/-- C7 on the code: for the string `"abc"`, in which no number is detected, and an
output holding 7, the `int` overload returns false and the output holds 0. -/
theorem readFromString_int_overwrites_on_failure :
    scanDecimal "abc".toList = none
    ∧ readFromString_int scanDecimal "abc".toList 7 = ⟨false, 0⟩
    ∧ (readFromString_int scanDecimal "abc".toList 7).out ≠ 7 := by
  decide

/-- C8. Bool round trip: `writeToString` appends exactly `"1"` for true and `"0"` for
false to the stream, and `readFromString` on the text so emitted returns true
and yields the same bool, whatever the output held. -/
theorem bool_roundtrip (b : Bool) (stream : List Char) (out : Bool) :
    writeToString_bool stream b = stream ++ (if b then "1".toList else "0".toList)
    ∧ writeToString_bool [] true = "1".toList
    ∧ writeToString_bool [] false = "0".toList
    ∧ readFromString_bool (writeToString_bool [] b) out = ⟨true, b⟩ := by
  cases b <;> cases out <;> simp [writeToString_bool] <;> decide

end PreferenceSerializerV1

/-! ## PreferenceManager: lemmas -/

theorem mem_insertAscending (p x : Nat) (l : List Nat) :
    x ∈ insertAscending p l ↔ x = p ∨ x ∈ l := by
  induction l with
  | nil => simp [insertAscending]
  | cons q rest ih =>
    unfold insertAscending
    split_ifs with h1 h2
    · simp
    · subst h2; simp
    · simp only [List.mem_cons, ih]; tauto

theorem PreferenceSet.eq_of_elems (s t : PreferenceSet) (h : s.elems = t.elems) : s = t := by
  cases s
  cases t
  simp only at h
  subst h
  rfl

theorem insertAscending_of_lt (p : Nat) (l : List Nat) (h : ∀ x ∈ l, x < p) :
    insertAscending p l = l ++ [p] := by
  induction l with
  | nil => rfl
  | cons q rest ih =>
    have hq : q < p := h q (List.mem_cons_self _ _)
    unfold insertAscending
    rw [if_neg (by omega), if_neg (by omega), ih (fun x hx => h x (List.mem_cons_of_mem _ hx))]
    rfl

/-- Re-inserting the elements of a set in iteration order builds the same sequence. -/
theorem foldl_insertAscending (l acc : List Nat) (h : (acc ++ l).Pairwise (· < ·)) :
    l.foldl (fun e p => insertAscending p e) acc = acc ++ l := by
  induction l generalizing acc with
  | nil => simp
  | cons p rest ih =>
    have hlt : ∀ x ∈ acc, x < p := by
      intro x hx
      exact (List.pairwise_append.mp h).2.2 x hx p (List.mem_cons_self _ _)
    have e : acc ++ p :: rest = (acc ++ [p]) ++ rest := by simp
    rw [List.foldl_cons, insertAscending_of_lt p acc hlt, ih (acc ++ [p]) (by rw [← e]; exact h), e]

theorem PreferenceSet.nodup (s : PreferenceSet) : s.elems.Nodup :=
  List.Pairwise.imp (fun hab => Nat.ne_of_lt hab) s.ordered

namespace PreferenceManager

theorem foldl_saveStep {Path : Type} (path : Nat → Path) (l : List Nat)
    (acc : PreferenceSet × List (Call Path)) :
    ((l.foldl (saveStep path) acc).1.elems
        = l.foldl (fun e p => insertAscending p e) acc.1.elems)
    ∧ (l.foldl (saveStep path) acc).2
        = acc.2 ++ l.flatMap
            (fun p => [Call.save p, Call.preferenceDidChangeNotifier (path p)]) := by
  induction l generalizing acc with
  | nil => simp
  | cons p rest ih =>
    rw [List.foldl_cons, List.foldl_cons, List.flatMap_cons]
    obtain ⟨h1, h2⟩ := ih (saveStep path acc p)
    refine ⟨h1, ?_⟩
    rw [h2]
    simp [saveStep]

theorem foldl_discardStep {Path : Type} (l : List Nat)
    (acc : PreferenceSet × List (Call Path)) :
    ((l.foldl discardStep acc).1.elems
        = l.foldl (fun e p => insertAscending p e) acc.1.elems)
    ∧ (l.foldl discardStep acc).2 = acc.2 ++ l.map Call.resetToPrevious := by
  induction l generalizing acc with
  | nil => simp
  | cons p rest ih =>
    rw [List.foldl_cons, List.foldl_cons, List.map_cons]
    obtain ⟨h1, h2⟩ := ih (discardStep acc p)
    refine ⟨h1, ?_⟩
    rw [h2]
    simp [discardStep]

theorem saveChanges_returned {Path : Type} (path : Nat → Path) (self : PreferenceManager) :
    (saveChanges path self).returned = self.m_unsavedPreferences := by
  apply PreferenceSet.eq_of_elems
  unfold saveChanges
  simp only
  rw [(foldl_saveStep path _ _).1]
  exact foldl_insertAscending _ [] (by simpa using self.m_unsavedPreferences.ordered)

theorem saveChanges_calls {Path : Type} (path : Nat → Path) (self : PreferenceManager) :
    (saveChanges path self).calls
      = self.m_unsavedPreferences.elems.flatMap
          (fun p => [Call.save p, Call.preferenceDidChangeNotifier (path p)]) := by
  unfold saveChanges
  simp only
  rw [(foldl_saveStep path _ _).2]
  rfl

theorem discardChanges_returned (Path : Type) (self : PreferenceManager) :
    (discardChanges Path self).returned = self.m_unsavedPreferences := by
  apply PreferenceSet.eq_of_elems
  unfold discardChanges
  simp only
  rw [(foldl_discardStep _ _).1]
  exact foldl_insertAscending _ [] (by simpa using self.m_unsavedPreferences.ordered)

theorem discardChanges_calls (Path : Type) (self : PreferenceManager) :
    (discardChanges Path self).calls
      = self.m_unsavedPreferences.elems.map Call.resetToPrevious := by
  unfold discardChanges
  simp only
  rw [(foldl_discardStep _ _).2]
  rfl

theorem filterMap_saved_save_calls {Path : Type} (path : Nat → Path) (l : List Nat) :
    (l.flatMap (fun p => [Call.save p, Call.preferenceDidChangeNotifier (path p)])).filterMap
        Call.saved = l
    ∧ (l.flatMap (fun p => [Call.save p, Call.preferenceDidChangeNotifier (path p)])).filterMap
        Call.notified = l.map path
    ∧ (l.flatMap (fun p => [Call.save p, Call.preferenceDidChangeNotifier (path p)])).filterMap
        Call.reset = [] := by
  induction l with
  | nil => simp
  | cons p rest ih =>
    obtain ⟨h1, h2, h3⟩ := ih
    rw [List.flatMap_cons]
    simp only [List.filterMap_append, h1, h2, h3]
    simp [Call.saved, Call.notified, Call.reset]

theorem filterMap_reset_calls (Path : Type) (l : List Nat) :
    (l.map (Call.resetToPrevious : Nat → Call Path)).filterMap Call.reset = l
    ∧ (l.map (Call.resetToPrevious : Nat → Call Path)).filterMap Call.saved = []
    ∧ (l.map (Call.resetToPrevious : Nat → Call Path)).filterMap Call.notified = [] := by
  induction l with
  | nil => simp
  | cons p rest ih =>
    obtain ⟨h1, h2, h3⟩ := ih
    simp [Call.saved, Call.notified, Call.reset, h1, h2, h3]

/-- The unsaved set of a manager that started with none and marked `marks`. -/
theorem mem_marked (marks : List Nat) (self : PreferenceManager) (p : Nat) :
    p ∈ (marks.foldl markAsUnsaved self).m_unsavedPreferences.elems
      ↔ p ∈ marks ∨ p ∈ self.m_unsavedPreferences.elems := by
  induction marks generalizing self with
  | nil => simp
  | cons q rest ih =>
    rw [List.foldl_cons, ih, List.mem_cons]
    simp only [markAsUnsaved, PreferenceSet.insert, mem_insertAscending]
    tauto

theorem count_of_nodup (l : List Nat) (h : l.Nodup) (p : Nat) :
    l.count p = if p ∈ l then 1 else 0 := by
  split_ifs with hm
  · exact List.count_eq_one_of_mem h hm
  · exact List.count_eq_zero_of_not_mem hm

end PreferenceManager

/-! ## PreferenceManager: the claims -/

namespace PreferenceManager

/-- C9. `saveChanges`, for every manager state and every assignment of paths:
the calls made are, for each preference of the unsaved set in iteration order,
`save()` on it followed by `preferenceDidChangeNotifier` with its path, and
nothing else; so each preference of the set is saved exactly once, others never,
and there is one notification per preference of the set; the set returned equals
the unsaved set before the call; afterwards the unsaved set is empty and an
immediately following `saveChanges` or `discardChanges` returns the empty set and
makes no call.  After marking the preferences `marks` in a manager with nothing
unsaved, the set returned holds exactly those. -/
theorem saveChanges_spec {Path : Type} (path : Nat → Path) (self : PreferenceManager) :
    (saveChanges path self).calls
      = self.m_unsavedPreferences.elems.flatMap
          (fun p => [Call.save p, Call.preferenceDidChangeNotifier (path p)])
    ∧ (∀ p : Nat, ((saveChanges path self).calls.filterMap Call.saved).count p
        = if self.m_unsavedPreferences.contains p = true then 1 else 0)
    ∧ (saveChanges path self).calls.filterMap Call.notified
        = self.m_unsavedPreferences.elems.map path
    ∧ (saveChanges path self).calls.filterMap Call.reset = []
    ∧ (saveChanges path self).returned = self.m_unsavedPreferences
    ∧ (saveChanges path self).manager.m_unsavedPreferences = PreferenceSet.empty
    ∧ (saveChanges path self).manager.m_saveInstantly = self.m_saveInstantly
    ∧ (saveChanges path (saveChanges path self).manager).returned = PreferenceSet.empty
    ∧ (saveChanges path (saveChanges path self).manager).calls = []
    ∧ (discardChanges Path (saveChanges path self).manager).returned = PreferenceSet.empty
    ∧ (discardChanges Path (saveChanges path self).manager).calls = []
    ∧ (∀ (marks : List Nat) (p : Nat),
        self.m_unsavedPreferences = PreferenceSet.empty →
        ((saveChanges path (marks.foldl markAsUnsaved self)).returned.contains p = true
          ↔ p ∈ marks)) := by
  have hcalls := saveChanges_calls path self
  have hfm := filterMap_saved_save_calls path self.m_unsavedPreferences.elems
  have hempty : (saveChanges path self).manager.m_unsavedPreferences = PreferenceSet.empty := rfl
  refine ⟨hcalls, ?_, ?_, ?_, saveChanges_returned path self, hempty, rfl, ?_, ?_, ?_, ?_, ?_⟩
  · intro p
    rw [hcalls, hfm.1, count_of_nodup _ self.m_unsavedPreferences.nodup]
    simp [PreferenceSet.contains]
  · rw [hcalls, hfm.2.1]
  · rw [hcalls, hfm.2.2]
  · rw [saveChanges_returned, hempty]
  · rw [saveChanges_calls, hempty]
    rfl
  · rw [discardChanges_returned, hempty]
  · rw [discardChanges_calls, hempty]
    rfl
  · intro marks p h0
    rw [saveChanges_returned]
    unfold PreferenceSet.contains
    rw [decide_eq_true_iff, mem_marked, h0]
    simp [PreferenceSet.empty]

/-- C9, for a manager in which 5, 2 and 5 again were marked, with `path p = p + 100`:
the set returned holds 2 and holds 5. -/
theorem saveChanges_spec_witness :
    ((saveChanges (fun p => p + 100)
        ([5, 2, 5].foldl markAsUnsaved ⟨PreferenceSet.empty, false⟩)).returned.contains 2
      = true ↔ 2 ∈ [5, 2, 5])
    ∧ (saveChanges (fun p => p + 100)
        ([5, 2, 5].foldl markAsUnsaved ⟨PreferenceSet.empty, false⟩)).calls
      = [Call.save 2, Call.preferenceDidChangeNotifier 102,
         Call.save 5, Call.preferenceDidChangeNotifier 105] :=
  ⟨(saveChanges_spec (fun p => p + 100) ⟨PreferenceSet.empty, false⟩).2.2.2.2.2.2.2.2.2.2.2
      [5, 2, 5] 2 rfl,
   by decide⟩

/-- C10. `discardChanges`, for every manager state: the calls made are
`resetToPrevious()` on each preference of the unsaved set, in iteration order, and
nothing else; so each preference of the set is reset exactly once, no `save()` is
called and no notification fired; the set returned equals the unsaved set before
the call; afterwards the unsaved set is empty; a preference outside the unsaved
set, in particular one never marked since the set was empty, receives no call. -/
theorem discardChanges_spec (Path : Type) (self : PreferenceManager) :
    (discardChanges Path self).calls
      = self.m_unsavedPreferences.elems.map Call.resetToPrevious
    ∧ (∀ p : Nat, ((discardChanges Path self).calls.filterMap Call.reset).count p
        = if self.m_unsavedPreferences.contains p = true then 1 else 0)
    ∧ (discardChanges Path self).calls.filterMap Call.saved = []
    ∧ (discardChanges Path self).calls.filterMap Call.notified = []
    ∧ (discardChanges Path self).returned = self.m_unsavedPreferences
    ∧ (discardChanges Path self).manager.m_unsavedPreferences = PreferenceSet.empty
    ∧ (discardChanges Path self).manager.m_saveInstantly = self.m_saveInstantly
    ∧ (∀ p : Nat, self.m_unsavedPreferences.contains p = false →
        Call.resetToPrevious p ∉ (discardChanges Path self).calls
        ∧ Call.save p ∉ (discardChanges Path self).calls)
    ∧ (∀ (marks : List Nat) (p : Nat),
        self.m_unsavedPreferences = PreferenceSet.empty → p ∉ marks →
        Call.resetToPrevious p ∉ (discardChanges Path (marks.foldl markAsUnsaved self)).calls
        ∧ Call.save p ∉ (discardChanges Path (marks.foldl markAsUnsaved self)).calls) := by
  have hcalls := discardChanges_calls Path self
  have hfm := filterMap_reset_calls Path self.m_unsavedPreferences.elems
  have untouched : ∀ (m : PreferenceManager) (p : Nat), p ∉ m.m_unsavedPreferences.elems →
      Call.resetToPrevious p ∉ (discardChanges Path m).calls
      ∧ Call.save p ∉ (discardChanges Path m).calls := by
    intro m p hp
    rw [discardChanges_calls]
    constructor
    · intro hm
      obtain ⟨q, hq, e⟩ := List.mem_map.mp hm
      cases e
      exact hp hq
    · intro hm
      obtain ⟨q, _, e⟩ := List.mem_map.mp hm
      cases e
  refine ⟨hcalls, ?_, ?_, ?_, discardChanges_returned Path self, rfl, rfl, ?_, ?_⟩
  · intro p
    rw [hcalls, hfm.1, count_of_nodup _ self.m_unsavedPreferences.nodup]
    simp [PreferenceSet.contains]
  · rw [hcalls, hfm.2.1]
  · rw [hcalls, hfm.2.2]
  · intro p hp
    apply untouched
    simpa [PreferenceSet.contains] using hp
  · intro marks p h0 hp
    apply untouched
    rw [mem_marked, h0]
    simp [PreferenceSet.empty, hp]

/-- C10, for a manager in which 5 and 2 were marked: preference 3, never marked,
receives neither `resetToPrevious()` nor `save()`. -/
theorem discardChanges_spec_witness :
    Call.resetToPrevious 3
        ∉ (discardChanges Nat ([5, 2].foldl markAsUnsaved ⟨PreferenceSet.empty, false⟩)).calls
    ∧ Call.save 3
        ∉ (discardChanges Nat ([5, 2].foldl markAsUnsaved ⟨PreferenceSet.empty, false⟩)).calls :=
  (discardChanges_spec Nat ⟨PreferenceSet.empty, false⟩).2.2.2.2.2.2.2.2 [5, 2] 3 rfl (by decide)

end PreferenceManager

/-! ## parseINI: duplicate keys and empty sections -/

theorem INIMap.assign_isSome (m : INIMap) (sec key value sec2 : List Char) :
    ((INIMap.assign m sec key value) sec2).isSome = true
      ↔ sec2 = sec ∨ (m sec2).isSome = true := by
  unfold INIMap.assign StdMap.assign
  by_cases hs : sec2 = sec
  · simp [hs]
  · simp [hs]

/-- A section of the map built from `ls` exists exactly when an entry line of `ls` was
read while that section was current. -/
theorem parseLines_section_isSome (ls : List QString) (sec : List Char) :
    ((parseLines ls).result sec).isSome = true
      ↔ ∃ pre rawLine post, ls = pre ++ rawLine :: post
          ∧ (parseLines pre).sec = sec ∧ isHeading (lineText rawLine) = false
          ∧ '=' ∈ lineText rawLine := by
  induction ls using List.reverseRecOn with
  | nil =>
    constructor
    · intro h
      simp [parseLines, StdMap.empty] at h
    · rintro ⟨pre, r, post, e, _⟩
      simp at e
  | append_singleton l a ih =>
    have split : (∃ pre rawLine post, l ++ [a] = pre ++ rawLine :: post
          ∧ (parseLines pre).sec = sec ∧ isHeading (lineText rawLine) = false
          ∧ '=' ∈ lineText rawLine)
        ↔ ((∃ pre rawLine post, l = pre ++ rawLine :: post
            ∧ (parseLines pre).sec = sec ∧ isHeading (lineText rawLine) = false
            ∧ '=' ∈ lineText rawLine)
          ∨ ((parseLines l).sec = sec ∧ isHeading (lineText a) = false
            ∧ '=' ∈ lineText a)) := by
      constructor
      · rintro ⟨pre, r, post, e, h1, h2, h3⟩
        rcases List.eq_nil_or_concat post with hp | ⟨post0, b, hp⟩
        · subst hp
          have e2 : l ++ [a] = pre ++ [r] := e
          obtain ⟨e3, e4⟩ := List.append_inj' e2 rfl
          have e5 : a = r := by simpa using e4
          subst e3
          subst e5
          exact Or.inr ⟨h1, h2, h3⟩
        · subst hp
          have e2 : l ++ [a] = (pre ++ r :: post0) ++ [b] := by
            rw [e]
            simp
          obtain ⟨e3, _⟩ := List.append_inj' e2 rfl
          exact Or.inl ⟨pre, r, post0, e3, h1, h2, h3⟩
      · rintro (⟨pre, r, post, e, h1, h2, h3⟩ | ⟨h1, h2, h3⟩)
        · exact ⟨pre, r, post ++ [a], by simp [e], h1, h2, h3⟩
        · exact ⟨l, a, [], rfl, h1, h2, h3⟩
    rw [split, parseLines_snoc, ← ih]
    rcases parseLine_cases (parseLines l) a with ⟨m, hm, e⟩ | ⟨hh, k, v, hl, hk, e⟩ | ⟨hh, hn, e⟩
    · rw [e]
      have hhead : isHeading (lineText a) = true := (isHeading_iff _).mpr ⟨m, hm⟩
      simp [hhead]
    · rw [e]
      have hmem : '=' ∈ lineText a := by rw [hl]; simp
      simp only [INIMap.assign_isSome, hh, hmem, and_true, true_and]
      constructor
      · rintro (h | h)
        · exact Or.inr h.symm
        · exact Or.inl h
      · rintro (h | h)
        · exact Or.inr h
        · exact Or.inl h.symm
    · rw [e]
      simp [hn]

/-- C16. `parseINI`, duplicate keys and empty sections.  For every input stream:
(1) when an entry line writes `key` in the section current at that line, and no
later line writes the same key in a section of the same name (the section may
have been left and entered again by a repeated heading in between, and earlier
lines may have written the same key), the returned map holds the value of
that last line;
(2) a heading line leaves the map as it is;
(3) a section exists in the returned map exactly when some entry line was read
while it was current, so a section under whose headings no entry line
follows is not in the map. -/
theorem parseINI_last_occurrence_wins (iniStream : QTextStream) :
    (∀ (pre : List QString) (rawLine : List Char) (post : List QString)
        (key value : List Char),
        iniStream.lines = pre ++ rawLine :: post →
        isHeading (lineText rawLine) = false →
        lineText rawLine = key ++ '=' :: value → '=' ∉ key →
        (∀ (post1 : List QString) (raw2 : List Char) (post2 : List QString),
            post = post1 ++ raw2 :: post2 →
            ¬ (isHeading (lineText raw2) = false
                ∧ (parseLines (pre ++ rawLine :: post1)).sec = (parseLines pre).sec
                ∧ ∃ value2, lineText raw2 = key ++ '=' :: value2)) →
        (parseINI iniStream).lookup (parseLines pre).sec key = some value)
    ∧ (∀ (st : ParseState) (rawLine : List Char), isHeading (lineText rawLine) = true →
        (parseLine st rawLine).result = st.result)
    ∧ (∀ sec : List Char, ((parseINI iniStream) sec).isSome = true
        ↔ ∃ pre rawLine post, iniStream.lines = pre ++ rawLine :: post
            ∧ (parseLines pre).sec = sec ∧ isHeading (lineText rawLine) = false
            ∧ '=' ∈ lineText rawLine)
    ∧ (∀ sec : List Char,
        (∀ pre rawLine post, iniStream.lines = pre ++ rawLine :: post →
            (parseLines pre).sec = sec →
            isHeading (lineText rawLine) = true ∨ '=' ∉ lineText rawLine) →
        (parseINI iniStream) sec = none) := by
  refine ⟨?_, ?_, fun sec => parseLines_section_isSome _ sec, ?_⟩
  · intro pre rawLine post key value hlines hh hl hk hlater
    have hstep : parseLines (pre ++ [rawLine])
        = { sec := (parseLines pre).sec,
            result := INIMap.assign (parseLines pre).result (parseLines pre).sec key value } := by
      rw [parseLines_snoc, parseLine_entry _ _ _ _ hh hl hk]
    have hfinal : parseINI iniStream
        = (post.foldl parseLine (parseLines (pre ++ [rawLine]))).result := by
      unfold parseINI
      rw [hlines, ← parseLines_append]
      simp
    rw [hfinal, foldl_parseLine_lookup_of_no_write]
    · rw [hstep]
      simp [INIMap.lookup_assign]
    · intro post1 raw2 post2 e hw
      apply hlater post1 raw2 post2 e
      refine ⟨hw.1, ?_, hw.2.2⟩
      have : pre ++ rawLine :: post1 = (pre ++ [rawLine]) ++ post1 := by simp
      rw [this, parseLines_append]
      exact hw.2.1
  · intro st rawLine hh
    obtain ⟨m, hm⟩ := (isHeading_iff _).mp hh
    rw [parseLine_heading st rawLine m hm]
  · intro sec hnone
    have hiff := parseLines_section_isSome iniStream.lines sec
    cases hsec : (parseINI iniStream) sec with
    | none => rfl
    | some inner =>
      have hs : ((parseLines iniStream.lines).result sec).isSome = true := by
        have : (parseLines iniStream.lines).result sec = some inner := hsec
        rw [this]
        rfl
      obtain ⟨pre, r, post, e, h1, h2, h3⟩ := hiff.mp hs
      rcases hnone pre r post e h1 with h | h
      · rw [h2] at h
        cases h
      · exact absurd h3 h

/-- C16, at the stream of the lines `[s]`, `k=1`, `[t]`, `k=9`, `[s]`, `k=2`: the key `k`
of section `s`, written twice with the heading repeated, holds the last value `2`;
and in the stream of `[s]`, `k=1`, `[u]` the heading `[u]` creates no section. -/
theorem parseINI_last_occurrence_wins_witness :
    (parseINI ⟨"[s]\nk=1\n[t]\nk=9\n[s]\nk=2\n".toList⟩).lookup "s".toList "k".toList
        = some "2".toList
    ∧ ((parseINI ⟨"[s]\nk=1\n[u]\n".toList⟩) "u".toList).isSome = false :=
  ⟨(parseINI_last_occurrence_wins ⟨"[s]\nk=1\n[t]\nk=9\n[s]\nk=2\n".toList⟩).1
      ["[s]".toList, "k=1".toList, "[t]".toList, "k=9".toList, "[s]".toList]
      "k=2".toList [] "k".toList "2".toList (by decide) (by decide) (by decide) (by decide)
      (fun post1 raw2 post2 e => by simp at e),
   by decide⟩

/-! ## Lemmas on vectors -/

namespace Vec3

theorem ext_iff3 {K : Type} (a b : Vec3 K) : a = b ↔ a.x = b.x ∧ a.y = b.y ∧ a.z = b.z := by
  constructor
  · rintro rfl
    exact ⟨rfl, rfl, rfl⟩
  · rintro ⟨h1, h2, h3⟩
    cases a
    cases b
    simp only at h1 h2 h3
    subst h1
    subst h2
    subst h3
    rfl

theorem dot_comm {K : Type} [LinearOrderedField K] (a b : Vec3 K) : dot a b = dot b a := by
  simp only [dot]
  ring

theorem dot_self_nonneg {K : Type} [LinearOrderedField K] (a : Vec3 K) : 0 ≤ dot a a := by
  unfold dot
  nlinarith [mul_self_nonneg a.x, mul_self_nonneg a.y, mul_self_nonneg a.z]

theorem eq_Null_of_dot_self {K : Type} [LinearOrderedField K] (a : Vec3 K)
    (h : dot a a = 0) : a = Null := by
  unfold dot at h
  have hx : a.x = 0 := by
    nlinarith [mul_self_nonneg a.x, mul_self_nonneg a.y, mul_self_nonneg a.z]
  have hy : a.y = 0 := by
    nlinarith [mul_self_nonneg a.x, mul_self_nonneg a.y, mul_self_nonneg a.z]
  have hz : a.z = 0 := by
    nlinarith [mul_self_nonneg a.x, mul_self_nonneg a.y, mul_self_nonneg a.z]
  exact (ext_iff3 a Null).mpr ⟨hx, hy, hz⟩

theorem dot_Null_self {K : Type} [LinearOrderedField K] :
    dot (Null : Vec3 K) (Null : Vec3 K) = 0 := by
  simp [dot, Null]

theorem ne_Null_of_dot_self {K : Type} [LinearOrderedField K] (a : Vec3 K)
    (h : dot a a ≠ 0) : a ≠ Null := by
  intro e
  rw [e, dot_Null_self] at h
  exact h rfl

theorem length_mul_self {K : Type} [LinearOrderedField K] (M : CMath K) (hM : M.Exact)
    (a : Vec3 K) : length M a * length M a = dot a a :=
  hM.sqrt_mul_self (dot a a) (dot_self_nonneg a)

theorem length_pos {K : Type} [LinearOrderedField K] (M : CMath K) (hM : M.Exact)
    (a : Vec3 K) (h : a ≠ Null) : 0 < length M a := by
  have h1 : 0 ≤ length M a := hM.sqrt_nonneg (dot a a)
  have h2 := length_mul_self M hM a
  rcases lt_or_eq_of_le h1 with h3 | h3
  · exact h3
  · exfalso
    rw [← h3] at h2
    simp at h2
    exact h (eq_Null_of_dot_self a h2.symm)

/-- A vector whose scalar square is 1 has length 1. -/
theorem length_of_dot_self {K : Type} [LinearOrderedField K] (M : CMath K) (hM : M.Exact)
    (a : Vec3 K) (h : dot a a = 1) : length M a = 1 := by
  have h1 : 0 ≤ length M a := hM.sqrt_nonneg (dot a a)
  have h2 := length_mul_self M hM a
  rw [h] at h2
  nlinarith

theorem dot_normalized_left {K : Type} [LinearOrderedField K] (M : CMath K) (a b : Vec3 K) :
    dot (normalized M a) b = dot a b / length M a := by
  simp only [normalized, dot, Vec3.div]
  ring

theorem dot_normalized_right {K : Type} [LinearOrderedField K] (M : CMath K) (a b : Vec3 K) :
    dot a (normalized M b) = dot a b / length M b := by
  rw [dot_comm, dot_normalized_left, dot_comm]

/-- Normalising a vector other than zero gives a unit vector. -/
theorem dot_normalized_self {K : Type} [LinearOrderedField K] (M : CMath K) (hM : M.Exact)
    (a : Vec3 K) (h : a ≠ Null) : dot (normalized M a) (normalized M a) = 1 := by
  have hp := length_pos M hM a h
  have h2 := length_mul_self M hM a
  have e : dot (normalized M a) (normalized M a) = dot a a / (length M a * length M a) := by
    simp only [normalized, dot, Vec3.div]
    field_simp
  rw [e, h2]
  have : dot a a ≠ 0 := by
    rw [← h2]
    positivity
  field_simp

end Vec3

theorem dot_crossed_self_left {K : Type} [LinearOrderedField K] (a b : Vec3 K) :
    Vec3.dot (crossed a b) a = 0 := by
  simp only [Vec3.dot, crossed]
  ring

theorem dot_crossed_self_right {K : Type} [LinearOrderedField K] (a b : Vec3 K) :
    Vec3.dot (crossed a b) b = 0 := by
  simp only [Vec3.dot, crossed]
  ring

/-- Lagrange's identity. -/
theorem dot_crossed_crossed {K : Type} [LinearOrderedField K] (a b : Vec3 K) :
    Vec3.dot (crossed a b) (crossed a b)
      = Vec3.dot a a * Vec3.dot b b - Vec3.dot a b * Vec3.dot a b := by
  simp only [Vec3.dot, crossed]
  ring

/-- The axes the constructor derives from a unit normal `n` and a vector `w` other than
zero that is orthogonal to it. -/
theorem axes_of_orthogonal {K : Type} [LinearOrderedField K] (M : CMath K) (hM : M.Exact)
    (n w : Vec3 K) (hn : Vec3.dot n n = 1) (hw : w ≠ Vec3.Null) (hwn : Vec3.dot w n = 0) :
    Vec3.dot (Vec3.normalized M w) n = 0
    ∧ Vec3.dot (Vec3.normalized M (crossed (Vec3.normalized M w) n)) n = 0
    ∧ Vec3.dot (Vec3.normalized M w)
        (Vec3.normalized M (crossed (Vec3.normalized M w) n)) = 0
    ∧ Vec3.dot (Vec3.normalized M w) (Vec3.normalized M w) = 1
    ∧ Vec3.dot (Vec3.normalized M (crossed (Vec3.normalized M w) n))
        (Vec3.normalized M (crossed (Vec3.normalized M w) n)) = 1 := by
  have hx1 : Vec3.dot (Vec3.normalized M w) (Vec3.normalized M w) = 1 :=
    Vec3.dot_normalized_self M hM w hw
  have hxn : Vec3.dot (Vec3.normalized M w) n = 0 := by
    rw [Vec3.dot_normalized_left, hwn, zero_div]
  have hcc : Vec3.dot (crossed (Vec3.normalized M w) n) (crossed (Vec3.normalized M w) n) = 1 := by
    rw [dot_crossed_crossed, hx1, hn, hxn]
    ring
  have hc : crossed (Vec3.normalized M w) n ≠ Vec3.Null :=
    Vec3.ne_Null_of_dot_self _ (by rw [hcc]; exact one_ne_zero)
  refine ⟨hxn, ?_, ?_, hx1, Vec3.dot_normalized_self M hM _ hc⟩
  · rw [Vec3.dot_normalized_left, dot_crossed_self_right, zero_div]
  · rw [Vec3.dot_normalized_right, Vec3.dot_comm, dot_crossed_self_left, zero_div]

/-- The reference vector the constructor picks is not parallel to a unit normal. -/
theorem reference_not_parallel {K : Type} [LinearOrderedField K]
    (firstComponent : Vec3 K → Math.Axis)
    (hfirst : ∀ (v : Vec3 K) (a : Math.Axis),
      |Vec3.component v a| ≤ |Vec3.component v (firstComponent v)|)
    (n : Vec3 K) (hn : Vec3.dot n n = 1) :
    (firstComponent n = Math.Axis.AX ∨ firstComponent n = Math.Axis.AY →
        crossed Vec3.PosZ n ≠ Vec3.Null)
    ∧ (firstComponent n = Math.Axis.AZ → crossed Vec3.PosY n ≠ Vec3.Null) := by
  have hx := hfirst n Math.Axis.AX
  have hy := hfirst n Math.Axis.AY
  have hz := hfirst n Math.Axis.AZ
  have zero_of : ∀ a b : K, |a| ≤ |b| → b = 0 → a = 0 := by
    intro a b hab hb
    rw [hb, abs_zero] at hab
    exact abs_eq_zero.mp (le_antisymm hab (abs_nonneg a))
  have contra : n.x = 0 → n.y = 0 → n.z = 0 → False := by
    intro h1 h2 h3
    simp only [Vec3.dot, h1, h2, h3] at hn
    simp at hn
  constructor
  · intro hf e
    have e2 := (Vec3.ext_iff3 _ _).mp e
    simp only [crossed, Vec3.PosZ, Vec3.Null] at e2
    obtain ⟨e21, e22, _⟩ := e2
    have hnx : n.x = 0 := by linarith
    have hny : n.y = 0 := by linarith
    rcases hf with hf | hf
    · rw [hf] at hz
      exact contra hnx hny (zero_of _ _ hz hnx)
    · rw [hf] at hz
      exact contra hnx hny (zero_of _ _ hz hny)
  · intro hf e
    have e2 := (Vec3.ext_iff3 _ _).mp e
    simp only [crossed, Vec3.PosY, Vec3.Null] at e2
    obtain ⟨e21, _, e23⟩ := e2
    have hnz : n.z = 0 := by linarith
    rw [hf] at hx hy
    exact contra (zero_of _ _ hx hnz) (zero_of _ _ hy hnz) hnz

/-! ## ParallelTexCoordSystem: the constructor from three points -/

/-- The real numbers with their square root, cosine, sine and pi are exact. -/
theorem real_exact : CMath.Exact (CMath.mk Real.sqrt Real.cos Real.sin Real.pi) where
  sqrt_nonneg := fun a => Real.sqrt_nonneg a
  sqrt_mul_self := fun a ha => Real.mul_self_sqrt ha
  cos_sq_add_sin_sq := fun a => by
    have h := Real.cos_sq_add_sin_sq a
    simp only [pow_two] at h
    exact h
  cos_zero := Real.cos_zero
  sin_zero := Real.sin_zero
  cos_of_half := fun a => by
    have h := Real.cos_two_mul (a / 2)
    have h2 := Real.cos_sq_add_sin_sq (a / 2)
    have e : 2 * (a / 2) = a := by ring
    rw [e] at h
    simp only []
    rw [h]
    nlinarith
  sin_of_half := fun a => by
    have h := Real.sin_two_mul (a / 2)
    have e : 2 * (a / 2) = a := by ring
    rw [e] at h
    exact h

/-- The modelled `firstComponent` returns an axis of largest magnitude. -/
theorem Vec3.firstComponent_dominant {K : Type} [LinearOrderedField K] (v : Vec3 K)
    (a : Math.Axis) : |Vec3.component v a| ≤ |Vec3.component v (Vec3.firstComponent v)| := by
  unfold Vec3.firstComponent
  by_cases h1 : |v.x| < |v.y|
  · by_cases h2 : |v.y| < |v.z|
    · simp only [h1, if_true, Vec3.component, h2]
      cases a
      · simp only [Vec3.component]; exact le_of_lt (lt_trans h1 h2)
      · simp only [Vec3.component]; exact le_of_lt h2
      · simp only [Vec3.component]; exact le_refl _
    · simp only [h1, if_true, Vec3.component, h2, if_false]
      cases a
      · simp only [Vec3.component]; exact le_of_lt h1
      · simp only [Vec3.component]; exact le_refl _
      · simp only [Vec3.component]; exact not_lt.mp h2
  · by_cases h2 : |v.x| < |v.z|
    · simp only [h1, if_false, Vec3.component, h2, if_true]
      cases a
      · simp only [Vec3.component]; exact le_of_lt h2
      · simp only [Vec3.component]; exact le_trans (not_lt.mp h1) (le_of_lt h2)
      · simp only [Vec3.component]; exact le_refl _
    · simp only [h1, if_false, Vec3.component, h2]
      cases a
      · simp only [Vec3.component]; exact le_refl _
      · simp only [Vec3.component]; exact not_lt.mp h1
      · simp only [Vec3.component]; exact not_lt.mp h2

namespace ParallelTexCoordSystem

/-- The constructor, by the case of the dominant component of the normal. -/
theorem ofPoints_eq {K : Type} [LinearOrderedField K] (M : CMath K)
    (firstComponent : Vec3 K → Math.Axis) (point0 point1 point2 : Vec3 K) :
    (firstComponent (Vec3.normalized M (crossed (Vec3.sub point2 point0)
          (Vec3.sub point1 point0))) = Math.Axis.AX
        ∨ firstComponent (Vec3.normalized M (crossed (Vec3.sub point2 point0)
          (Vec3.sub point1 point0))) = Math.Axis.AY →
      ofPoints M firstComponent point0 point1 point2
        = ⟨Vec3.normalized M (crossed Vec3.PosZ (Vec3.normalized M
              (crossed (Vec3.sub point2 point0) (Vec3.sub point1 point0)))),
           Vec3.normalized M (crossed (Vec3.normalized M (crossed Vec3.PosZ (Vec3.normalized M
              (crossed (Vec3.sub point2 point0) (Vec3.sub point1 point0)))))
              (Vec3.normalized M (crossed (Vec3.sub point2 point0)
                (Vec3.sub point1 point0))))⟩)
    ∧ (firstComponent (Vec3.normalized M (crossed (Vec3.sub point2 point0)
          (Vec3.sub point1 point0))) = Math.Axis.AZ →
      ofPoints M firstComponent point0 point1 point2
        = ⟨Vec3.normalized M (crossed Vec3.PosY (Vec3.normalized M
              (crossed (Vec3.sub point2 point0) (Vec3.sub point1 point0)))),
           Vec3.normalized M (crossed (Vec3.normalized M (crossed Vec3.PosY (Vec3.normalized M
              (crossed (Vec3.sub point2 point0) (Vec3.sub point1 point0)))))
              (Vec3.normalized M (crossed (Vec3.sub point2 point0)
                (Vec3.sub point1 point0))))⟩) := by
  constructor
  · rintro (h | h)
    · simp only [ofPoints, h]
    · simp only [ofPoints, h]
  · intro h
    simp only [ofPoints, h]

/-- The scalar products of the constructed axes with the normal and with each other. -/
theorem ofPoints_dots {K : Type} [LinearOrderedField K] (M : CMath K) (hM : M.Exact)
    (firstComponent : Vec3 K → Math.Axis)
    (hfirst : ∀ (v : Vec3 K) (a : Math.Axis),
      |Vec3.component v a| ≤ |Vec3.component v (firstComponent v)|)
    (point0 point1 point2 : Vec3 K)
    (hpoints : crossed (Vec3.sub point2 point0) (Vec3.sub point1 point0) ≠ Vec3.Null) :
    Vec3.dot (ofPoints M firstComponent point0 point1 point2).m_xAxis
        (Vec3.normalized M (crossed (Vec3.sub point2 point0) (Vec3.sub point1 point0))) = 0
    ∧ Vec3.dot (ofPoints M firstComponent point0 point1 point2).m_yAxis
        (Vec3.normalized M (crossed (Vec3.sub point2 point0) (Vec3.sub point1 point0))) = 0
    ∧ Vec3.dot (ofPoints M firstComponent point0 point1 point2).m_xAxis
        (ofPoints M firstComponent point0 point1 point2).m_yAxis = 0
    ∧ Vec3.dot (ofPoints M firstComponent point0 point1 point2).m_xAxis
        (ofPoints M firstComponent point0 point1 point2).m_xAxis = 1
    ∧ Vec3.dot (ofPoints M firstComponent point0 point1 point2).m_yAxis
        (ofPoints M firstComponent point0 point1 point2).m_yAxis = 1 := by
  have hn := Vec3.dot_normalized_self M hM _ hpoints
  obtain ⟨hrefZ, hrefY⟩ := reference_not_parallel firstComponent hfirst _ hn
  obtain ⟨hxy, hz⟩ := ofPoints_eq M firstComponent point0 point1 point2
  cases hfc : firstComponent (Vec3.normalized M (crossed (Vec3.sub point2 point0)
      (Vec3.sub point1 point0))) with
  | AX =>
    rw [hxy (Or.inl hfc)]
    exact axes_of_orthogonal M hM _ _ hn (hrefZ (Or.inl hfc)) (dot_crossed_self_right _ _)
  | AY =>
    rw [hxy (Or.inr hfc)]
    exact axes_of_orthogonal M hM _ _ hn (hrefZ (Or.inr hfc)) (dot_crossed_self_right _ _)
  | AZ =>
    rw [hz hfc]
    exact axes_of_orthogonal M hM _ _ hn (hrefY hfc) (dot_crossed_self_right _ _)

/-- C11. The constructor from three points.  In exact arithmetic, for every three
points that are not on one line (the cross product of the two edge vectors is
not zero), and whichever axis of largest magnitude `firstComponent` returns:
with `n` the normalised cross product `(p2 - p0) x (p1 - p0)`, the X axis and the
Y axis constructed are orthogonal to `n` and to each other, and both have
length 1. -/
theorem ofPoints_axes_orthonormal {K : Type} [LinearOrderedField K] (M : CMath K) (hM : M.Exact)
    (firstComponent : Vec3 K → Math.Axis)
    (hfirst : ∀ (v : Vec3 K) (a : Math.Axis),
      |Vec3.component v a| ≤ |Vec3.component v (firstComponent v)|)
    (point0 point1 point2 : Vec3 K)
    (hpoints : crossed (Vec3.sub point2 point0) (Vec3.sub point1 point0) ≠ Vec3.Null) :
    Vec3.dot (ofPoints M firstComponent point0 point1 point2).m_xAxis
        (Vec3.normalized M (crossed (Vec3.sub point2 point0) (Vec3.sub point1 point0))) = 0
    ∧ Vec3.dot (ofPoints M firstComponent point0 point1 point2).m_yAxis
        (Vec3.normalized M (crossed (Vec3.sub point2 point0) (Vec3.sub point1 point0))) = 0
    ∧ Vec3.dot (ofPoints M firstComponent point0 point1 point2).m_xAxis
        (ofPoints M firstComponent point0 point1 point2).m_yAxis = 0
    ∧ Vec3.length M (ofPoints M firstComponent point0 point1 point2).m_xAxis = 1
    ∧ Vec3.length M (ofPoints M firstComponent point0 point1 point2).m_yAxis = 1 := by
  obtain ⟨h1, h2, h3, h4, h5⟩ :=
    ofPoints_dots M hM firstComponent hfirst point0 point1 point2 hpoints
  exact ⟨h1, h2, h3, Vec3.length_of_dot_self M hM _ h4, Vec3.length_of_dot_self M hM _ h5⟩

/-- The points `(0,0,0)`, `(0,1,0)`, `(1,0,0)` over the reals are not on one line. -/
theorem sample_points_not_collinear :
    crossed (Vec3.sub (⟨1, 0, 0⟩ : Vec3 ℝ) ⟨0, 0, 0⟩) (Vec3.sub ⟨0, 1, 0⟩ ⟨0, 0, 0⟩)
      ≠ Vec3.Null := by
  intro h
  have hz := congrArg Vec3.z h
  simp [crossed, Vec3.sub, Vec3.Null] at hz

/-- C11, over the reals, for the points `(0,0,0)`, `(0,1,0)`, `(1,0,0)`: the axes
constructed are orthogonal to each other and have length 1. -/
theorem ofPoints_axes_orthonormal_witness :
    Vec3.dot
        (ofPoints (CMath.mk Real.sqrt Real.cos Real.sin Real.pi) Vec3.firstComponent
          ⟨0, 0, 0⟩ ⟨0, 1, 0⟩ ⟨1, 0, 0⟩).m_xAxis
        (ofPoints (CMath.mk Real.sqrt Real.cos Real.sin Real.pi) Vec3.firstComponent
          ⟨0, 0, 0⟩ ⟨0, 1, 0⟩ ⟨1, 0, 0⟩).m_yAxis = 0
    ∧ Vec3.length (CMath.mk Real.sqrt Real.cos Real.sin Real.pi)
        (ofPoints (CMath.mk Real.sqrt Real.cos Real.sin Real.pi) Vec3.firstComponent
          ⟨0, 0, 0⟩ ⟨0, 1, 0⟩ ⟨1, 0, 0⟩).m_xAxis = 1
    ∧ Vec3.length (CMath.mk Real.sqrt Real.cos Real.sin Real.pi)
        (ofPoints (CMath.mk Real.sqrt Real.cos Real.sin Real.pi) Vec3.firstComponent
          ⟨0, 0, 0⟩ ⟨0, 1, 0⟩ ⟨1, 0, 0⟩).m_yAxis = 1 :=
  (ofPoints_axes_orthonormal (CMath.mk Real.sqrt Real.cos Real.sin Real.pi) real_exact
    Vec3.firstComponent Vec3.firstComponent_dominant ⟨0, 0, 0⟩ ⟨0, 1, 0⟩ ⟨1, 0, 0⟩
    sample_points_not_collinear).2.2

/-- C12. The constructor from three points is never degenerate.  In exact arithmetic,
for every three points not on one line and whichever axis of largest magnitude
`firstComponent` returns for the normal `n`: when that axis is X or Y the X axis
is the normalised `PosZ x n`, when it is Z the normalised `PosY x n`, and in both
cases this cross product is not zero (the reference vector is not parallel to
`n`); the X axis and the Y axis are not zero, and their cross product is not
zero (they are not parallel). -/
theorem ofPoints_not_degenerate {K : Type} [LinearOrderedField K] (M : CMath K) (hM : M.Exact)
    (firstComponent : Vec3 K → Math.Axis)
    (hfirst : ∀ (v : Vec3 K) (a : Math.Axis),
      |Vec3.component v a| ≤ |Vec3.component v (firstComponent v)|)
    (point0 point1 point2 : Vec3 K)
    (hpoints : crossed (Vec3.sub point2 point0) (Vec3.sub point1 point0) ≠ Vec3.Null) :
    (firstComponent (Vec3.normalized M (crossed (Vec3.sub point2 point0)
          (Vec3.sub point1 point0))) = Math.Axis.AX
        ∨ firstComponent (Vec3.normalized M (crossed (Vec3.sub point2 point0)
          (Vec3.sub point1 point0))) = Math.Axis.AY →
      crossed Vec3.PosZ (Vec3.normalized M (crossed (Vec3.sub point2 point0)
          (Vec3.sub point1 point0))) ≠ Vec3.Null
      ∧ (ofPoints M firstComponent point0 point1 point2).m_xAxis
          = Vec3.normalized M (crossed Vec3.PosZ (Vec3.normalized M
              (crossed (Vec3.sub point2 point0) (Vec3.sub point1 point0)))))
    ∧ (firstComponent (Vec3.normalized M (crossed (Vec3.sub point2 point0)
          (Vec3.sub point1 point0))) = Math.Axis.AZ →
      crossed Vec3.PosY (Vec3.normalized M (crossed (Vec3.sub point2 point0)
          (Vec3.sub point1 point0))) ≠ Vec3.Null
      ∧ (ofPoints M firstComponent point0 point1 point2).m_xAxis
          = Vec3.normalized M (crossed Vec3.PosY (Vec3.normalized M
              (crossed (Vec3.sub point2 point0) (Vec3.sub point1 point0)))))
    ∧ (ofPoints M firstComponent point0 point1 point2).m_xAxis ≠ Vec3.Null
    ∧ (ofPoints M firstComponent point0 point1 point2).m_yAxis ≠ Vec3.Null
    ∧ crossed (ofPoints M firstComponent point0 point1 point2).m_xAxis
        (ofPoints M firstComponent point0 point1 point2).m_yAxis ≠ Vec3.Null := by
  have hn := Vec3.dot_normalized_self M hM _ hpoints
  obtain ⟨hrefZ, hrefY⟩ := reference_not_parallel firstComponent hfirst _ hn
  obtain ⟨hxy, hz⟩ := ofPoints_eq M firstComponent point0 point1 point2
  obtain ⟨_, _, h3, h4, h5⟩ :=
    ofPoints_dots M hM firstComponent hfirst point0 point1 point2 hpoints
  refine ⟨fun hf => ⟨hrefZ hf, by rw [hxy hf]⟩, fun hf => ⟨hrefY hf, by rw [hz hf]⟩,
    Vec3.ne_Null_of_dot_self _ (by rw [h4]; exact one_ne_zero),
    Vec3.ne_Null_of_dot_self _ (by rw [h5]; exact one_ne_zero),
    Vec3.ne_Null_of_dot_self _ ?_⟩
  rw [dot_crossed_crossed, h3, h4, h5]
  norm_num

/-- C12, over the reals, for the points `(0,0,0)`, `(0,1,0)`, `(1,0,0)`: the axes
constructed are not parallel. -/
theorem ofPoints_not_degenerate_witness :
    crossed
        (ofPoints (CMath.mk Real.sqrt Real.cos Real.sin Real.pi) Vec3.firstComponent
          ⟨0, 0, 0⟩ ⟨0, 1, 0⟩ ⟨1, 0, 0⟩).m_xAxis
        (ofPoints (CMath.mk Real.sqrt Real.cos Real.sin Real.pi) Vec3.firstComponent
          ⟨0, 0, 0⟩ ⟨0, 1, 0⟩ ⟨1, 0, 0⟩).m_yAxis ≠ Vec3.Null :=
  (ofPoints_not_degenerate (CMath.mk Real.sqrt Real.cos Real.sin Real.pi) real_exact
    Vec3.firstComponent Vec3.firstComponent_dominant ⟨0, 0, 0⟩ ⟨0, 1, 0⟩ ⟨1, 0, 0⟩
    sample_points_not_collinear).2.2.2.2

end ParallelTexCoordSystem

/-! ## ParallelTexCoordSystem: doSetRotation -/

/-- Rotating two vectors by a quaternion scales their scalar product by the square of
the quaternion's norm. -/
theorem Quat3.dot_mulVec {K : Type} [LinearOrderedField K] (q : Quat3 K) (a b : Vec3 K) :
    Vec3.dot (Quat3.mulVec q a) (Quat3.mulVec q b)
      = (q.r * q.r + Vec3.dot q.v q.v) * (q.r * q.r + Vec3.dot q.v q.v) * Vec3.dot a b := by
  simp only [Quat3.mulVec, Quat3.mul, Quat3.conjugated, Vec3.dot]
  ring

/-- A quaternion built from an axis maps the axis to a multiple of itself. -/
theorem Quat3.mulVec_axis {K : Type} [LinearOrderedField K] (c s : K) (n : Vec3 K) :
    Quat3.mulVec ⟨c, Vec3.scale n s⟩ n = Vec3.scale n (c * c + s * s * Vec3.dot n n) := by
  rw [Vec3.ext_iff3]
  simp only [Quat3.mulVec, Quat3.mul, Quat3.conjugated, Vec3.dot, Vec3.scale]
  refine ⟨?_, ?_, ?_⟩ <;> ring

theorem Quat3.norm_setRotation {K : Type} [LinearOrderedField K] (M : CMath K) (hM : M.Exact)
    (n : Vec3 K) (hn : Vec3.dot n n = 1) (angle : K) :
    (Quat3.setRotation M n angle).r * (Quat3.setRotation M n angle).r
      + Vec3.dot (Quat3.setRotation M n angle).v (Quat3.setRotation M n angle).v = 1 := by
  have h := hM.cos_sq_add_sin_sq (angle / 2)
  have e : Vec3.dot (Vec3.scale n (M.sin (angle / 2))) (Vec3.scale n (M.sin (angle / 2)))
      = M.sin (angle / 2) * M.sin (angle / 2) * Vec3.dot n n := by
    simp only [Vec3.dot, Vec3.scale]
    ring
  simp only [Quat3.setRotation]
  rw [e, hn]
  linarith

/-- The quaternion of an angle about a unit axis acts as the rotation by that angle
about the axis. -/
theorem Quat3.mulVec_setRotation {K : Type} [LinearOrderedField K] (M : CMath K) (hM : M.Exact)
    (n : Vec3 K) (hn : Vec3.dot n n = 1) (angle : K) (v : Vec3 K) :
    Quat3.mulVec (Quat3.setRotation M n angle) v = rotateAbout M n angle v := by
  have h1 := hM.cos_sq_add_sin_sq (angle / 2)
  have hc := hM.cos_of_half angle
  have hs := hM.sin_of_half angle
  simp only [Vec3.dot] at hn
  rw [Vec3.ext_iff3]
  simp only [Quat3.mulVec, Quat3.mul, Quat3.conjugated, Quat3.setRotation, rotateAbout,
    Vec3.dot, Vec3.scale, Vec3.add, crossed]
  rw [hc, hs]
  refine ⟨?_, ?_, ?_⟩
  · linear_combination
      (n.x * (n.x * v.x + n.y * v.y + n.z * v.z)) * h1
        - (M.sin (angle / 2) * M.sin (angle / 2) * v.x) * hn
  · linear_combination
      (n.y * (n.x * v.x + n.y * v.y + n.z * v.z)) * h1
        - (M.sin (angle / 2) * M.sin (angle / 2) * v.y) * hn
  · linear_combination
      (n.z * (n.x * v.x + n.y * v.y + n.z * v.z)) * h1
        - (M.sin (angle / 2) * M.sin (angle / 2) * v.z) * hn

theorem rotateAbout_zero {K : Type} [LinearOrderedField K] (M : CMath K) (hM : M.Exact)
    (n v : Vec3 K) : rotateAbout M n 0 v = v := by
  rw [Vec3.ext_iff3]
  simp only [rotateAbout, Vec3.add, Vec3.scale, hM.cos_zero, hM.sin_zero]
  refine ⟨?_, ?_, ?_⟩ <;> ring

theorem Math.radians_zero {K : Type} [LinearOrderedField K] (M : CMath K) :
    Math.radians M 0 = 0 := by
  simp [Math.radians]

/-- A quaternion of norm 1 keeps scalar products. -/
theorem Quat3.dot_mulVec_setRotation {K : Type} [LinearOrderedField K] (M : CMath K)
    (hM : M.Exact) (n : Vec3 K) (hn : Vec3.dot n n = 1) (angle : K) (a b : Vec3 K) :
    Vec3.dot (Quat3.mulVec (Quat3.setRotation M n angle) a)
        (Quat3.mulVec (Quat3.setRotation M n angle) b) = Vec3.dot a b := by
  rw [Quat3.dot_mulVec, Quat3.norm_setRotation M hM n hn angle]
  ring

/-- The quaternion of an angle about a unit axis leaves the axis in place. -/
theorem Quat3.mulVec_setRotation_axis {K : Type} [LinearOrderedField K] (M : CMath K)
    (hM : M.Exact) (n : Vec3 K) (hn : Vec3.dot n n = 1) (angle : K) :
    Quat3.mulVec (Quat3.setRotation M n angle) n = n := by
  have h := hM.cos_sq_add_sin_sq (angle / 2)
  unfold Quat3.setRotation
  rw [Quat3.mulVec_axis, hn, Vec3.ext_iff3]
  simp only [Vec3.scale]
  have e : M.cos (angle / 2) * M.cos (angle / 2)
      + M.sin (angle / 2) * M.sin (angle / 2) * 1 = 1 := by linarith
  rw [e]
  refine ⟨?_, ?_, ?_⟩ <;> ring

namespace ParallelTexCoordSystem

/-- Both branches of `doSetRotation` apply the quaternion of the angle difference. -/
theorem doSetRotation_eq {K : Type} [LinearOrderedField K] (M : CMath K) (hM : M.Exact)
    (self : ParallelTexCoordSystem K) (normal : Vec3 K) (hn : Vec3.dot normal normal = 1)
    (oldAngle newAngle : K) :
    doSetRotation M self normal oldAngle newAngle
      = ⟨Quat3.mulVec
            (Quat3.setRotation M normal (Math.radians M (oldAngle - newAngle))) self.m_xAxis,
         Quat3.mulVec
            (Quat3.setRotation M normal (Math.radians M (oldAngle - newAngle))) self.m_yAxis⟩ := by
  unfold doSetRotation
  by_cases h : oldAngle - newAngle = 0
  · simp only [h, if_true]
    rw [Math.radians_zero, Quat3.mulVec_setRotation M hM normal hn,
      Quat3.mulVec_setRotation M hM normal hn, rotateAbout_zero M hM, rotateAbout_zero M hM]
  · simp only [h, if_false]

/-- C13. `doSetRotation` keeps the axis invariant.  In exact arithmetic, for every unit
normal `n` and all angles: both axes are rotated by the rotation about `n` by
`oldAngle - newAngle` degrees; their scalar products with `n` are unchanged, so
axes orthogonal to `n` and not parallel stay orthogonal to `n` and not parallel;
their lengths, their scalar product and the cosine of the angle between them
are unchanged; when `oldAngle = newAngle` the axes are unchanged. -/
theorem doSetRotation_spec {K : Type} [LinearOrderedField K] (M : CMath K) (hM : M.Exact)
    (self : ParallelTexCoordSystem K) (normal : Vec3 K) (hn : Vec3.dot normal normal = 1)
    (oldAngle newAngle : K) :
    (doSetRotation M self normal oldAngle newAngle).m_xAxis
        = rotateAbout M normal (Math.radians M (oldAngle - newAngle)) self.m_xAxis
    ∧ (doSetRotation M self normal oldAngle newAngle).m_yAxis
        = rotateAbout M normal (Math.radians M (oldAngle - newAngle)) self.m_yAxis
    ∧ Vec3.dot (doSetRotation M self normal oldAngle newAngle).m_xAxis normal
        = Vec3.dot self.m_xAxis normal
    ∧ Vec3.dot (doSetRotation M self normal oldAngle newAngle).m_yAxis normal
        = Vec3.dot self.m_yAxis normal
    ∧ (Vec3.dot self.m_xAxis normal = 0 → Vec3.dot self.m_yAxis normal = 0 →
        crossed self.m_xAxis self.m_yAxis ≠ Vec3.Null →
        Vec3.dot (doSetRotation M self normal oldAngle newAngle).m_xAxis normal = 0
        ∧ Vec3.dot (doSetRotation M self normal oldAngle newAngle).m_yAxis normal = 0
        ∧ crossed (doSetRotation M self normal oldAngle newAngle).m_xAxis
            (doSetRotation M self normal oldAngle newAngle).m_yAxis ≠ Vec3.Null)
    ∧ Vec3.length M (doSetRotation M self normal oldAngle newAngle).m_xAxis
        = Vec3.length M self.m_xAxis
    ∧ Vec3.length M (doSetRotation M self normal oldAngle newAngle).m_yAxis
        = Vec3.length M self.m_yAxis
    ∧ Vec3.dot (doSetRotation M self normal oldAngle newAngle).m_xAxis
        (doSetRotation M self normal oldAngle newAngle).m_yAxis
        = Vec3.dot self.m_xAxis self.m_yAxis
    ∧ cosAngle M (doSetRotation M self normal oldAngle newAngle).m_xAxis
        (doSetRotation M self normal oldAngle newAngle).m_yAxis
        = cosAngle M self.m_xAxis self.m_yAxis
    ∧ (oldAngle = newAngle → doSetRotation M self normal oldAngle newAngle = self) := by
  have hdot := Quat3.dot_mulVec_setRotation M hM normal hn
    (Math.radians M (oldAngle - newAngle))
  have haxis := Quat3.mulVec_setRotation_axis M hM normal hn
    (Math.radians M (oldAngle - newAngle))
  have hxn : Vec3.dot (doSetRotation M self normal oldAngle newAngle).m_xAxis normal
      = Vec3.dot self.m_xAxis normal := by
    rw [doSetRotation_eq M hM self normal hn]
    simp only []
    nth_rewrite 2 [← haxis]
    exact hdot _ _
  have hyn : Vec3.dot (doSetRotation M self normal oldAngle newAngle).m_yAxis normal
      = Vec3.dot self.m_yAxis normal := by
    rw [doSetRotation_eq M hM self normal hn]
    simp only []
    nth_rewrite 2 [← haxis]
    exact hdot _ _
  have hxx : Vec3.dot (doSetRotation M self normal oldAngle newAngle).m_xAxis
      (doSetRotation M self normal oldAngle newAngle).m_xAxis
      = Vec3.dot self.m_xAxis self.m_xAxis := by
    rw [doSetRotation_eq M hM self normal hn]
    exact hdot _ _
  have hyy : Vec3.dot (doSetRotation M self normal oldAngle newAngle).m_yAxis
      (doSetRotation M self normal oldAngle newAngle).m_yAxis
      = Vec3.dot self.m_yAxis self.m_yAxis := by
    rw [doSetRotation_eq M hM self normal hn]
    exact hdot _ _
  have hxy : Vec3.dot (doSetRotation M self normal oldAngle newAngle).m_xAxis
      (doSetRotation M self normal oldAngle newAngle).m_yAxis
      = Vec3.dot self.m_xAxis self.m_yAxis := by
    rw [doSetRotation_eq M hM self normal hn]
    exact hdot _ _
  have hlx : Vec3.length M (doSetRotation M self normal oldAngle newAngle).m_xAxis
      = Vec3.length M self.m_xAxis := by
    unfold Vec3.length
    rw [hxx]
  have hly : Vec3.length M (doSetRotation M self normal oldAngle newAngle).m_yAxis
      = Vec3.length M self.m_yAxis := by
    unfold Vec3.length
    rw [hyy]
  refine ⟨?_, ?_, hxn, hyn, ?_, hlx, hly, hxy, ?_, ?_⟩
  · rw [doSetRotation_eq M hM self normal hn]
    exact Quat3.mulVec_setRotation M hM normal hn _ _
  · rw [doSetRotation_eq M hM self normal hn]
    exact Quat3.mulVec_setRotation M hM normal hn _ _
  · intro h1 h2 h3
    refine ⟨by rw [hxn, h1], by rw [hyn, h2], ?_⟩
    apply Vec3.ne_Null_of_dot_self
    rw [dot_crossed_crossed, hxx, hyy, hxy, ← dot_crossed_crossed]
    intro h0
    exact h3 (Vec3.eq_Null_of_dot_self _ h0)
  · unfold cosAngle
    rw [hxy, hlx, hly]
  · intro h
    unfold doSetRotation
    simp [h]

/-- C13, over the reals: the axes `(1,0,0)` and `(0,1,0)`, orthogonal to the normal
`(0,0,1)` and not parallel, rotated from 90 to 0 degrees, are still orthogonal to
the normal and not parallel. -/
theorem doSetRotation_spec_witness :
    Vec3.dot (doSetRotation (CMath.mk Real.sqrt Real.cos Real.sin Real.pi)
        ⟨⟨1, 0, 0⟩, ⟨0, 1, 0⟩⟩ ⟨0, 0, 1⟩ 90 0).m_xAxis ⟨0, 0, 1⟩ = 0
    ∧ Vec3.dot (doSetRotation (CMath.mk Real.sqrt Real.cos Real.sin Real.pi)
        ⟨⟨1, 0, 0⟩, ⟨0, 1, 0⟩⟩ ⟨0, 0, 1⟩ 90 0).m_yAxis ⟨0, 0, 1⟩ = 0
    ∧ crossed (doSetRotation (CMath.mk Real.sqrt Real.cos Real.sin Real.pi)
          ⟨⟨1, 0, 0⟩, ⟨0, 1, 0⟩⟩ ⟨0, 0, 1⟩ 90 0).m_xAxis
        (doSetRotation (CMath.mk Real.sqrt Real.cos Real.sin Real.pi)
          ⟨⟨1, 0, 0⟩, ⟨0, 1, 0⟩⟩ ⟨0, 0, 1⟩ 90 0).m_yAxis ≠ Vec3.Null :=
  (doSetRotation_spec (CMath.mk Real.sqrt Real.cos Real.sin Real.pi) real_exact
    ⟨⟨1, 0, 0⟩, ⟨0, 1, 0⟩⟩ ⟨0, 0, 1⟩ (by simp [Vec3.dot]) 90 0).2.2.2.2.1
    (by simp [Vec3.dot]) (by simp [Vec3.dot])
    (by
      intro h
      have hz := congrArg Vec3.z h
      simp [crossed, Vec3.Null] at hz)

end ParallelTexCoordSystem

/-! ## ParallelTexCoordSystem: doTransform -/

theorem Mat4x4.mulVec3_of_affine {K : Type} [LinearOrderedField K] (m : Mat4x4 K)
    (hm : m.IsAffine) (v : Vec3 K) :
    Mat4x4.mulVec3 m v = Vec3.add (Mat4x4.linear m v) (Mat4x4.translation m) := by
  obtain ⟨h1, h2, h3, h4⟩ := hm
  rw [Vec3.ext_iff3]
  simp only [Mat4x4.mulVec3, Mat4x4.mulVec4, Mat4x4.rowDot, Mat4x4.linear, Mat4x4.translation,
    Vec3.add, h1, h2, h3, h4]
  refine ⟨?_, ?_, ?_⟩ <;> ring

theorem Mat4x4.mulVec3_Null {K : Type} [LinearOrderedField K] (m : Mat4x4 K)
    (hm : m.IsAffine) : Mat4x4.mulVec3 m Vec3.Null = Mat4x4.translation m := by
  rw [Mat4x4.mulVec3_of_affine m hm, Vec3.ext_iff3]
  simp only [Mat4x4.linear, Mat4x4.translation, Vec3.add, Vec3.Null]
  refine ⟨?_, ?_, ?_⟩ <;> ring

/-- Under an affine transformation the difference `T v - T 0` is the linear part at `v`. -/
theorem Mat4x4.mulVec3_sub_origin {K : Type} [LinearOrderedField K] (m : Mat4x4 K)
    (hm : m.IsAffine) (v : Vec3 K) :
    Vec3.sub (Mat4x4.mulVec3 m v) (Mat4x4.mulVec3 m Vec3.Null) = Mat4x4.linear m v := by
  rw [Mat4x4.mulVec3_Null m hm, Mat4x4.mulVec3_of_affine m hm, Vec3.ext_iff3]
  simp only [Vec3.add, Vec3.sub]
  refine ⟨?_, ?_, ?_⟩ <;> ring

theorem Vec3.dot_Null_left {K : Type} [LinearOrderedField K] (v : Vec3 K) :
    Vec3.dot Vec3.Null v = 0 := by
  simp [Vec3.dot, Vec3.Null]

theorem Vec2.ext_iff2 {K : Type} (a b : Vec2 K) : a = b ↔ a.x = b.x ∧ a.y = b.y := by
  constructor
  · rintro rfl
    exact ⟨rfl, rfl⟩
  · rintro ⟨h1, h2⟩
    cases a
    cases b
    simp only at h1 h2
    subst h1
    subst h2
    rfl

/-- The modelled `modOffset` changes the offset by whole multiples of the texture size. -/
theorem modOffsetByFmod_wraps {K : Type} [LinearOrderedField K] [FloorRing K] :
    WrapsByTextureSize (modOffsetByFmod : Vec2 K → Option Texture → Vec2 K) := by
  intro v texture
  refine ⟨(if 0 ≤ v.x / (textureWidth texture : K) then Int.floor (v.x / (textureWidth texture : K))
      else Int.ceil (v.x / (textureWidth texture : K))),
    (if 0 ≤ v.y / (textureHeight texture : K) then Int.floor (v.y / (textureHeight texture : K))
      else Int.ceil (v.y / (textureHeight texture : K))), ?_, ?_⟩
  · simp only [modOffsetByFmod, fmod]
    ring
  · simp only [modOffsetByFmod, fmod]
    ring

namespace ParallelTexCoordSystem

theorem doTransform_axes {K : Type} [LinearOrderedField K] (H : TexCoordHelpers K)
    (self : ParallelTexCoordSystem K) (oldNormal : Vec3 K) (transformation : Mat4x4 K)
    (hT : transformation.IsAffine) (attribs : BrushFaceAttribs K) (lockTexture : Bool) :
    (doTransform H self oldNormal transformation attribs lockTexture).1
      = ⟨Mat4x4.linear transformation self.m_xAxis, Mat4x4.linear transformation self.m_yAxis⟩ := by
  simp only [doTransform, Mat4x4.mulVec3_sub_origin transformation hT]

theorem newOffsetBeforeWrap_eq {K : Type} [LinearOrderedField K] (H : TexCoordHelpers K)
    (self : ParallelTexCoordSystem K) (transformation : Mat4x4 K)
    (hT : transformation.IsAffine) (attribs : BrushFaceAttribs K) :
    newOffsetBeforeWrap H self transformation attribs
      = Vec2.sub attribs.offset
          ⟨Vec3.dot (Mat4x4.translation transformation)
              (safeScaleAxis H (Mat4x4.linear transformation self.m_xAxis) attribs.xScale),
           Vec3.dot (Mat4x4.translation transformation)
              (safeScaleAxis H (Mat4x4.linear transformation self.m_yAxis) attribs.yScale)⟩ := by
  simp only [newOffsetBeforeWrap, Mat4x4.mulVec3_sub_origin transformation hT]
  simp only [Mat4x4.mulVec3_Null transformation hT, Vec3.dot_Null_left]
  rw [Vec2.ext_iff2]
  simp only [Vec2.sub, Vec2.add]
  constructor <;> ring

/-- C14. `doTransform` keeps the texture coordinates of the origin.  In exact arithmetic,
for every affine transformation `T`, with `t = T(0)` its translation part:
(1) the new axes are the linear part of `T` applied to the old axes;
(2) the offset computed before `modOffset` and rounding is the old offset minus
`(t . scaled x', t . scaled y')`, and the offset stored is that value passed
through `modOffset` and `correct(4)`;
(3) with that offset the un-normalised texture coordinates of `t` under the new
axes equal those of the origin under the old axes and old offset, namely the old
offset, and so do the texture coordinates `doGetTexCoords` returns;
(4) when `modOffset` changes an offset by whole multiples of the texture's width
and height, the equality of (3) holds after `modOffset` up to such multiples. -/
theorem doTransform_origin_invariant {K : Type} [LinearOrderedField K] (H : TexCoordHelpers K)
    (self : ParallelTexCoordSystem K) (oldNormal : Vec3 K) (transformation : Mat4x4 K)
    (hT : transformation.IsAffine) (attribs : BrushFaceAttribs K) (lockTexture : Bool) :
    Mat4x4.mulVec3 transformation Vec3.Null = Mat4x4.translation transformation
    ∧ (doTransform H self oldNormal transformation attribs lockTexture).1.m_xAxis
        = Mat4x4.linear transformation self.m_xAxis
    ∧ (doTransform H self oldNormal transformation attribs lockTexture).1.m_yAxis
        = Mat4x4.linear transformation self.m_yAxis
    ∧ newOffsetBeforeWrap H self transformation attribs
        = Vec2.sub attribs.offset
            ⟨Vec3.dot (Mat4x4.translation transformation)
                (safeScaleAxis H (Mat4x4.linear transformation self.m_xAxis) attribs.xScale),
             Vec3.dot (Mat4x4.translation transformation)
                (safeScaleAxis H (Mat4x4.linear transformation self.m_yAxis) attribs.yScale)⟩
    ∧ (doTransform H self oldNormal transformation attribs lockTexture).2.offset
        = Vec2.correct H
            (H.modOffset (newOffsetBeforeWrap H self transformation attribs) attribs.texture) 4
    ∧ Vec3.dot (Mat4x4.translation transformation)
          (Vec3.div (doTransform H self oldNormal transformation attribs lockTexture).1.m_xAxis
            (safeScale H attribs.xScale))
        + (newOffsetBeforeWrap H self transformation attribs).x
        = Vec3.dot Vec3.Null (Vec3.div self.m_xAxis (safeScale H attribs.xScale))
          + attribs.offset.x
    ∧ Vec3.dot (Mat4x4.translation transformation)
          (Vec3.div (doTransform H self oldNormal transformation attribs lockTexture).1.m_yAxis
            (safeScale H attribs.yScale))
        + (newOffsetBeforeWrap H self transformation attribs).y
        = Vec3.dot Vec3.Null (Vec3.div self.m_yAxis (safeScale H attribs.yScale))
          + attribs.offset.y
    ∧ Vec3.dot Vec3.Null (Vec3.div self.m_xAxis (safeScale H attribs.xScale))
          + attribs.offset.x = attribs.offset.x
    ∧ Vec3.dot Vec3.Null (Vec3.div self.m_yAxis (safeScale H attribs.yScale))
          + attribs.offset.y = attribs.offset.y
    ∧ doGetTexCoords H (doTransform H self oldNormal transformation attribs lockTexture).1
          (Mat4x4.mulVec3 transformation Vec3.Null)
          { attribs with offset := newOffsetBeforeWrap H self transformation attribs }
        = doGetTexCoords H self Vec3.Null attribs
    ∧ (WrapsByTextureSize H.modOffset → ∃ i j : Int,
        Vec3.dot (Mat4x4.translation transformation)
            (Vec3.div (doTransform H self oldNormal transformation attribs lockTexture).1.m_xAxis
              (safeScale H attribs.xScale))
          + (H.modOffset (newOffsetBeforeWrap H self transformation attribs) attribs.texture).x
          = attribs.offset.x - (i : K) * (textureWidth attribs.texture : K)
        ∧ Vec3.dot (Mat4x4.translation transformation)
            (Vec3.div (doTransform H self oldNormal transformation attribs lockTexture).1.m_yAxis
              (safeScale H attribs.yScale))
          + (H.modOffset (newOffsetBeforeWrap H self transformation attribs) attribs.texture).y
          = attribs.offset.y - (j : K) * (textureHeight attribs.texture : K)) := by
  have haxes := doTransform_axes H self oldNormal transformation hT attribs lockTexture
  have hraw := newOffsetBeforeWrap_eq H self transformation hT attribs
  have hx : Vec3.dot (Mat4x4.translation transformation)
        (Vec3.div (doTransform H self oldNormal transformation attribs lockTexture).1.m_xAxis
          (safeScale H attribs.xScale))
      + (newOffsetBeforeWrap H self transformation attribs).x = attribs.offset.x := by
    rw [haxes, hraw]
    simp only [Vec2.sub, safeScaleAxis]
    ring
  have hy : Vec3.dot (Mat4x4.translation transformation)
        (Vec3.div (doTransform H self oldNormal transformation attribs lockTexture).1.m_yAxis
          (safeScale H attribs.yScale))
      + (newOffsetBeforeWrap H self transformation attribs).y = attribs.offset.y := by
    rw [haxes, hraw]
    simp only [Vec2.sub, safeScaleAxis]
    ring
  have h0x : Vec3.dot Vec3.Null (Vec3.div self.m_xAxis (safeScale H attribs.xScale))
      + attribs.offset.x = attribs.offset.x := by
    rw [Vec3.dot_Null_left, zero_add]
  have h0y : Vec3.dot Vec3.Null (Vec3.div self.m_yAxis (safeScale H attribs.yScale))
      + attribs.offset.y = attribs.offset.y := by
    rw [Vec3.dot_Null_left, zero_add]
  refine ⟨Mat4x4.mulVec3_Null transformation hT, by rw [haxes], by rw [haxes], hraw, rfl,
    by rw [hx, h0x], by rw [hy, h0y], h0x, h0y, ?_, ?_⟩
  · rw [Mat4x4.mulVec3_Null transformation hT, Vec2.ext_iff2]
    simp only [doGetTexCoords, getXAxis, getYAxis]
    rw [hx, hy, h0x, h0y]
    exact ⟨rfl, rfl⟩
  · intro hwrap
    obtain ⟨i, j, hi, hj⟩ :=
      hwrap (newOffsetBeforeWrap H self transformation attribs) attribs.texture
    refine ⟨i, j, ?_, ?_⟩
    · rw [hi, ← hx]
      ring
    · rw [hj, ← hy]
      ring

/-- C17. `doTransform` ignores its `lockTexture` argument: the axes and the attributes
(offset and rotation among them) it leaves behind are the same for true and for
false. -/
theorem doTransform_ignores_lockTexture {K : Type} [LinearOrderedField K]
    (H : TexCoordHelpers K) (self : ParallelTexCoordSystem K) (oldNormal : Vec3 K)
    (transformation : Mat4x4 K) (attribs : BrushFaceAttribs K) :
    doTransform H self oldNormal transformation attribs true
      = doTransform H self oldNormal transformation attribs false
    ∧ (doTransform H self oldNormal transformation attribs true).1.m_xAxis
        = (doTransform H self oldNormal transformation attribs false).1.m_xAxis
    ∧ (doTransform H self oldNormal transformation attribs true).1.m_yAxis
        = (doTransform H self oldNormal transformation attribs false).1.m_yAxis
    ∧ (doTransform H self oldNormal transformation attribs true).2.offset
        = (doTransform H self oldNormal transformation attribs false).2.offset
    ∧ (doTransform H self oldNormal transformation attribs true).2.rotation
        = (doTransform H self oldNormal transformation attribs false).2.rotation :=
  ⟨rfl, rfl, rfl, rfl, rfl⟩

end ParallelTexCoordSystem

namespace ParallelTexCoordSystem

/-- C14, over the rationals, for the translation by `(1,2,3)`, the axes `(1,0,0)` and
`(0,1,0)`, the offset `(5,7)`, scale 1, a 64 by 32 texture and the modelled
`modOffset`: after `modOffset` the texture coordinates of the moved origin are
the old offset up to whole multiples of 64 and 32. -/
theorem doTransform_origin_invariant_witness :
    ∃ i j : Int,
      Vec3.dot (Mat4x4.translation
            (⟨⟨1, 0, 0, 1⟩, ⟨0, 1, 0, 2⟩, ⟨0, 0, 1, 3⟩, ⟨0, 0, 0, 1⟩⟩ : Mat4x4 ℚ))
          (Vec3.div
            (doTransform ⟨fun v => decide (v = 0), fun _ _ _ => 0, fun v _ => v, modOffsetByFmod⟩
              ⟨⟨1, 0, 0⟩, ⟨0, 1, 0⟩⟩ ⟨0, 0, 1⟩
              ⟨⟨1, 0, 0, 1⟩, ⟨0, 1, 0, 2⟩, ⟨0, 0, 1, 3⟩, ⟨0, 0, 0, 1⟩⟩
              ⟨some ⟨64, 32⟩, ⟨5, 7⟩, 0, 1, 1⟩ true).1.m_xAxis
            (safeScale ⟨fun v => decide (v = 0), fun _ _ _ => 0, fun v _ => v, modOffsetByFmod⟩
              (1 : ℚ)))
        + (modOffsetByFmod
            (newOffsetBeforeWrap
              ⟨fun v => decide (v = 0), fun _ _ _ => 0, fun v _ => v, modOffsetByFmod⟩
              ⟨⟨1, 0, 0⟩, ⟨0, 1, 0⟩⟩
              ⟨⟨1, 0, 0, 1⟩, ⟨0, 1, 0, 2⟩, ⟨0, 0, 1, 3⟩, ⟨0, 0, 0, 1⟩⟩
              ⟨some ⟨64, 32⟩, ⟨5, 7⟩, 0, 1, 1⟩) (some ⟨64, 32⟩)).x
        = (5 : ℚ) - (i : ℚ) * (textureWidth (some ⟨64, 32⟩) : ℚ)
      ∧ Vec3.dot (Mat4x4.translation
            (⟨⟨1, 0, 0, 1⟩, ⟨0, 1, 0, 2⟩, ⟨0, 0, 1, 3⟩, ⟨0, 0, 0, 1⟩⟩ : Mat4x4 ℚ))
          (Vec3.div
            (doTransform ⟨fun v => decide (v = 0), fun _ _ _ => 0, fun v _ => v, modOffsetByFmod⟩
              ⟨⟨1, 0, 0⟩, ⟨0, 1, 0⟩⟩ ⟨0, 0, 1⟩
              ⟨⟨1, 0, 0, 1⟩, ⟨0, 1, 0, 2⟩, ⟨0, 0, 1, 3⟩, ⟨0, 0, 0, 1⟩⟩
              ⟨some ⟨64, 32⟩, ⟨5, 7⟩, 0, 1, 1⟩ true).1.m_yAxis
            (safeScale ⟨fun v => decide (v = 0), fun _ _ _ => 0, fun v _ => v, modOffsetByFmod⟩
              (1 : ℚ)))
        + (modOffsetByFmod
            (newOffsetBeforeWrap
              ⟨fun v => decide (v = 0), fun _ _ _ => 0, fun v _ => v, modOffsetByFmod⟩
              ⟨⟨1, 0, 0⟩, ⟨0, 1, 0⟩⟩
              ⟨⟨1, 0, 0, 1⟩, ⟨0, 1, 0, 2⟩, ⟨0, 0, 1, 3⟩, ⟨0, 0, 0, 1⟩⟩
              ⟨some ⟨64, 32⟩, ⟨5, 7⟩, 0, 1, 1⟩) (some ⟨64, 32⟩)).y
        = (7 : ℚ) - (j : ℚ) * (textureHeight (some ⟨64, 32⟩) : ℚ) :=
  (doTransform_origin_invariant
    ⟨fun v => decide (v = 0), fun _ _ _ => 0, fun v _ => v, modOffsetByFmod⟩
    ⟨⟨1, 0, 0⟩, ⟨0, 1, 0⟩⟩ ⟨0, 0, 1⟩
    ⟨⟨1, 0, 0, 1⟩, ⟨0, 1, 0, 2⟩, ⟨0, 0, 1, 3⟩, ⟨0, 0, 0, 1⟩⟩
    ⟨rfl, rfl, rfl, rfl⟩
    ⟨some ⟨64, 32⟩, ⟨5, 7⟩, 0, 1, 1⟩ true).2.2.2.2.2.2.2.2.2.2 modOffsetByFmod_wraps

end ParallelTexCoordSystem

/-- The square root of a product of non-negative numbers. -/
theorem CMath.Exact.sqrt_mul {K : Type} [LinearOrderedField K] {M : CMath K} (hM : M.Exact)
    (a b : K) (ha : 0 ≤ a) (hb : 0 ≤ b) : M.sqrt (a * b) = M.sqrt a * M.sqrt b := by
  have h1 := hM.sqrt_mul_self (a * b) (mul_nonneg ha hb)
  have h2 := hM.sqrt_mul_self a ha
  have h3 := hM.sqrt_mul_self b hb
  have n1 := hM.sqrt_nonneg (a * b)
  have n2 := hM.sqrt_nonneg a
  have n3 := hM.sqrt_nonneg b
  have hsq : M.sqrt (a * b) * M.sqrt (a * b) = (M.sqrt a * M.sqrt b) * (M.sqrt a * M.sqrt b) := by
    rw [h1]
    calc a * b = (M.sqrt a * M.sqrt a) * (M.sqrt b * M.sqrt b) := by rw [h2, h3]
      _ = (M.sqrt a * M.sqrt b) * (M.sqrt a * M.sqrt b) := by ring
  have n4 : 0 ≤ M.sqrt a * M.sqrt b := mul_nonneg n2 n3
  nlinarith [sq_nonneg (M.sqrt (a * b) - M.sqrt a * M.sqrt b),
    sq_nonneg (M.sqrt (a * b) + M.sqrt a * M.sqrt b)]

namespace ParallelTexCoordSystem

/-- C15 as stated fails for a shear.  Over the reals, for the affine transformation
`(x, y, z) -> (x + y, y, z)` and the axes `(1,0,0)` and `(0,1,0)`: before the
call the axes are at a right angle (cosine 0); after it they are `(1,0,0)` and
`(1,1,0)`, with scalar product 1 and a cosine other than 0. -/
theorem doTransform_shear_changes_angle :
    Mat4x4.IsAffine (⟨⟨1, 1, 0, 0⟩, ⟨0, 1, 0, 0⟩, ⟨0, 0, 1, 0⟩, ⟨0, 0, 0, 1⟩⟩ : Mat4x4 ℝ)
    ∧ cosAngle (CMath.mk Real.sqrt Real.cos Real.sin Real.pi)
        (⟨1, 0, 0⟩ : Vec3 ℝ) ⟨0, 1, 0⟩ = 0
    ∧ (∀ (H : TexCoordHelpers ℝ) (oldNormal : Vec3 ℝ) (attribs : BrushFaceAttribs ℝ)
        (lockTexture : Bool),
        (doTransform H ⟨⟨1, 0, 0⟩, ⟨0, 1, 0⟩⟩ oldNormal
            ⟨⟨1, 1, 0, 0⟩, ⟨0, 1, 0, 0⟩, ⟨0, 0, 1, 0⟩, ⟨0, 0, 0, 1⟩⟩ attribs lockTexture).1
          = ⟨⟨1, 0, 0⟩, ⟨1, 1, 0⟩⟩
        ∧ Vec3.dot
            (doTransform H ⟨⟨1, 0, 0⟩, ⟨0, 1, 0⟩⟩ oldNormal
              ⟨⟨1, 1, 0, 0⟩, ⟨0, 1, 0, 0⟩, ⟨0, 0, 1, 0⟩, ⟨0, 0, 0, 1⟩⟩ attribs
              lockTexture).1.m_xAxis
            (doTransform H ⟨⟨1, 0, 0⟩, ⟨0, 1, 0⟩⟩ oldNormal
              ⟨⟨1, 1, 0, 0⟩, ⟨0, 1, 0, 0⟩, ⟨0, 0, 1, 0⟩, ⟨0, 0, 0, 1⟩⟩ attribs
              lockTexture).1.m_yAxis = 1
        ∧ cosAngle (CMath.mk Real.sqrt Real.cos Real.sin Real.pi)
            (doTransform H ⟨⟨1, 0, 0⟩, ⟨0, 1, 0⟩⟩ oldNormal
              ⟨⟨1, 1, 0, 0⟩, ⟨0, 1, 0, 0⟩, ⟨0, 0, 1, 0⟩, ⟨0, 0, 0, 1⟩⟩ attribs
              lockTexture).1.m_xAxis
            (doTransform H ⟨⟨1, 0, 0⟩, ⟨0, 1, 0⟩⟩ oldNormal
              ⟨⟨1, 1, 0, 0⟩, ⟨0, 1, 0, 0⟩, ⟨0, 0, 1, 0⟩, ⟨0, 0, 0, 1⟩⟩ attribs
              lockTexture).1.m_yAxis ≠ 0) := by
  refine ⟨⟨rfl, rfl, rfl, rfl⟩, ?_, ?_⟩
  · simp [cosAngle, Vec3.dot]
  · intro H oldNormal attribs lockTexture
    have haxes : (doTransform H ⟨⟨1, 0, 0⟩, ⟨0, 1, 0⟩⟩ oldNormal
        (⟨⟨1, 1, 0, 0⟩, ⟨0, 1, 0, 0⟩, ⟨0, 0, 1, 0⟩, ⟨0, 0, 0, 1⟩⟩ : Mat4x4 ℝ) attribs
        lockTexture).1 = ⟨⟨1, 0, 0⟩, ⟨1, 1, 0⟩⟩ := by
      rw [doTransform_axes H _ oldNormal _ ⟨rfl, rfl, rfl, rfl⟩ attribs lockTexture]
      simp [Mat4x4.linear]
    refine ⟨haxes, ?_, ?_⟩
    · rw [haxes]
      simp [Vec3.dot]
    · rw [haxes]
      have h1 : Vec3.dot (⟨1, 0, 0⟩ : Vec3 ℝ) ⟨1, 1, 0⟩ = 1 := by simp [Vec3.dot]
      have h2 : Vec3.dot (⟨1, 0, 0⟩ : Vec3 ℝ) ⟨1, 0, 0⟩ = 1 := by simp [Vec3.dot]
      have h3 : Vec3.dot (⟨1, 1, 0⟩ : Vec3 ℝ) ⟨1, 1, 0⟩ = 2 := by
        simp [Vec3.dot]
        norm_num
      simp only [cosAngle, Vec3.length, h1, h2, h3]
      have p1 : 0 < Real.sqrt 1 := Real.sqrt_pos.mpr one_pos
      have p2 : 0 < Real.sqrt 2 := Real.sqrt_pos.mpr two_pos
      exact div_ne_zero one_ne_zero (mul_ne_zero (ne_of_gt p1) (ne_of_gt p2))

/-- C15, amended.  In exact arithmetic, for every affine transformation whose linear
part `L` multiplies all scalar products by one positive factor `k`
(`L u . L v = k (u . v)`: rotations, reflections and uniform scalings, together
with any translation), the cosine of the angle between the X axis and the Y
axis after `doTransform` equals the cosine of the angle between them before it,
and so does the angle. -/
theorem doTransform_similarity_preserves_angle {K : Type} [LinearOrderedField K]
    (M : CMath K) (hM : M.Exact) (H : TexCoordHelpers K) (self : ParallelTexCoordSystem K)
    (oldNormal : Vec3 K) (transformation : Mat4x4 K) (hT : transformation.IsAffine)
    (k : K) (hk : 0 < k)
    (hsim : ∀ u v : Vec3 K,
      Vec3.dot (Mat4x4.linear transformation u) (Mat4x4.linear transformation v)
        = k * Vec3.dot u v)
    (attribs : BrushFaceAttribs K) (lockTexture : Bool) :
    cosAngle M (doTransform H self oldNormal transformation attribs lockTexture).1.m_xAxis
        (doTransform H self oldNormal transformation attribs lockTexture).1.m_yAxis
      = cosAngle M self.m_xAxis self.m_yAxis := by
  rw [doTransform_axes H self oldNormal transformation hT attribs lockTexture]
  simp only [cosAngle, Vec3.length, hsim]
  rw [hM.sqrt_mul k _ (le_of_lt hk) (Vec3.dot_self_nonneg _),
    hM.sqrt_mul k _ (le_of_lt hk) (Vec3.dot_self_nonneg _)]
  have hkk : M.sqrt k * M.sqrt k = k := hM.sqrt_mul_self k (le_of_lt hk)
  have e : M.sqrt k * M.sqrt (Vec3.dot self.m_xAxis self.m_xAxis)
        * (M.sqrt k * M.sqrt (Vec3.dot self.m_yAxis self.m_yAxis))
      = k * (M.sqrt (Vec3.dot self.m_xAxis self.m_xAxis)
          * M.sqrt (Vec3.dot self.m_yAxis self.m_yAxis)) := by
    have e0 : M.sqrt k * M.sqrt (Vec3.dot self.m_xAxis self.m_xAxis)
          * (M.sqrt k * M.sqrt (Vec3.dot self.m_yAxis self.m_yAxis))
        = (M.sqrt k * M.sqrt k) * (M.sqrt (Vec3.dot self.m_xAxis self.m_xAxis)
            * M.sqrt (Vec3.dot self.m_yAxis self.m_yAxis)) := by
      ring
    rw [e0, hkk]
  rw [e]
  exact mul_div_mul_left _ _ (ne_of_gt hk)

/-- C15 amended, over the reals, for the uniform scaling by 2 followed by the
translation by `(1,2,3)` and the axes `(1,0,0)` and `(1,1,0)`. -/
theorem doTransform_similarity_preserves_angle_witness :
    cosAngle (CMath.mk Real.sqrt Real.cos Real.sin Real.pi)
        (doTransform ⟨fun v => decide (v = 0), fun _ _ _ => 0, fun v _ => v, fun v _ => v⟩
          ⟨⟨1, 0, 0⟩, ⟨1, 1, 0⟩⟩ ⟨0, 0, 1⟩
          (⟨⟨2, 0, 0, 1⟩, ⟨0, 2, 0, 2⟩, ⟨0, 0, 2, 3⟩, ⟨0, 0, 0, 1⟩⟩ : Mat4x4 ℝ)
          ⟨none, ⟨0, 0⟩, 0, 1, 1⟩ false).1.m_xAxis
        (doTransform ⟨fun v => decide (v = 0), fun _ _ _ => 0, fun v _ => v, fun v _ => v⟩
          ⟨⟨1, 0, 0⟩, ⟨1, 1, 0⟩⟩ ⟨0, 0, 1⟩
          (⟨⟨2, 0, 0, 1⟩, ⟨0, 2, 0, 2⟩, ⟨0, 0, 2, 3⟩, ⟨0, 0, 0, 1⟩⟩ : Mat4x4 ℝ)
          ⟨none, ⟨0, 0⟩, 0, 1, 1⟩ false).1.m_yAxis
      = cosAngle (CMath.mk Real.sqrt Real.cos Real.sin Real.pi)
          (⟨1, 0, 0⟩ : Vec3 ℝ) ⟨1, 1, 0⟩ :=
  doTransform_similarity_preserves_angle (CMath.mk Real.sqrt Real.cos Real.sin Real.pi)
    real_exact ⟨fun v => decide (v = 0), fun _ _ _ => 0, fun v _ => v, fun v _ => v⟩
    ⟨⟨1, 0, 0⟩, ⟨1, 1, 0⟩⟩ ⟨0, 0, 1⟩
    ⟨⟨2, 0, 0, 1⟩, ⟨0, 2, 0, 2⟩, ⟨0, 0, 2, 3⟩, ⟨0, 0, 0, 1⟩⟩ ⟨rfl, rfl, rfl, rfl⟩
    4 (by norm_num)
    (fun u v => by
      simp only [Mat4x4.linear, Vec3.dot]
      ring)
    ⟨none, ⟨0, 0⟩, 0, 1, 1⟩ false

end ParallelTexCoordSystem

/-! ## EntityBrowserCanvas: addEntityToLayout -/

namespace EntityBrowserCanvas

/-- The condition tested by `addEntityToLayout` is the condition of the claims. -/
theorem condition_eq_isShown {R K : Type} (U : Utility) (self : EntityBrowserCanvas R K)
    (definition : PointEntityDefinition) :
    ((!self.m_hideUnused || decide (definition.usageCount > 0))
      && (self.m_filterText.isEmpty
          || U.containsString definition.name self.m_filterText false))
      = isShown U self definition := by
  unfold isShown
  have e : self.m_filterText.isEmpty = decide (self.m_filterText = []) := by
    cases self.m_filterText <;> simp [List.isEmpty]
  rw [e]

/-- The two outcomes of `addEntityToLayout`: one `addItem` for the definition, the
fields the filter reads unchanged; or nothing at all. -/
theorem addEntityToLayout_cases {R E K : Type} [LinearOrderedField K] (U : Utility)
    (S : Services R E K) (self : EntityBrowserCanvas R K) (layout : Layout R E K)
    (definition : PointEntityDefinition) (font : FontDescriptor) :
    (isShown U self definition = true
      ∧ (∃ entityRenderer stringRenderer itemWidth itemHeight titleWidth titleHeight,
          (addEntityToLayout U S self layout definition font).2
            = layout.addItem definition entityRenderer stringRenderer
                itemWidth itemHeight titleWidth titleHeight)
      ∧ (addEntityToLayout U S self layout definition font).1.m_hideUnused = self.m_hideUnused
      ∧ (addEntityToLayout U S self layout definition font).1.m_filterText = self.m_filterText
      ∧ (addEntityToLayout U S self layout definition font).1.m_group = self.m_group
      ∧ (addEntityToLayout U S self layout definition font).1.m_rotation = self.m_rotation
      ∧ (∀ stringRenderer, self.m_stringRendererCache definition.ptr = some stringRenderer →
          (addEntityToLayout U S self layout definition font).1 = self)
      ∧ (self.m_stringRendererCache definition.ptr = none →
          ∃ stringRenderer,
            (addEntityToLayout U S self layout definition font).1.m_stringRendererCache
              = StdMap.assign self.m_stringRendererCache definition.ptr stringRenderer))
    ∨ (isShown U self definition = false
      ∧ addEntityToLayout U S self layout definition font = (self, layout)) := by
  have hc := condition_eq_isShown U self definition
  cases hs : isShown U self definition with
  | false =>
    right
    refine ⟨rfl, ?_⟩
    rw [hs] at hc
    unfold addEntityToLayout
    rw [hc]
    rfl
  | true =>
    left
    refine ⟨rfl, ?_⟩
    rw [hs] at hc
    unfold addEntityToLayout
    rw [hc]
    simp only [if_true]
    cases hcache : self.m_stringRendererCache definition.ptr with
    | some sr =>
      refine ⟨⟨_, _, _, _, _, _, rfl⟩, rfl, rfl, rfl, rfl, ?_, ?_⟩
      · intro sr2 _
        rfl
      · intro h
        cases h
    | none =>
      refine ⟨⟨_, _, _, _, _, _, rfl⟩, rfl, rfl, rfl, rfl, ?_, ?_⟩
      · intro sr2 h
        cases h
      · intro _
        exact ⟨_, rfl⟩

/-- C19. The filter of `addEntityToLayout`.  For every canvas, layout, definition and
font: when the definition is shown (hide-unused is off or its usage count is
greater than 0, and the filter text is empty or `containsString(name, filter,
false)` holds) exactly one `addItem` call, for that definition, is made on the
layout; otherwise the canvas, its string-renderer cache included, and the layout
are left as they are.  So one item is added exactly when the definition is
shown. -/
theorem addEntityToLayout_filter {R E K : Type} [LinearOrderedField K] (U : Utility)
    (S : Services R E K) (self : EntityBrowserCanvas R K) (layout : Layout R E K)
    (definition : PointEntityDefinition) (font : FontDescriptor) :
    (isShown U self definition
        = ((!self.m_hideUnused || decide (0 < definition.usageCount))
            && (decide (self.m_filterText = [])
                || U.containsString definition.name self.m_filterText false)))
    ∧ (isShown U self definition = true →
        ∃ entityRenderer stringRenderer itemWidth itemHeight titleWidth titleHeight,
          (addEntityToLayout U S self layout definition font).2.calls
            = layout.calls ++ [LayoutCall.addItem definition entityRenderer stringRenderer
                itemWidth itemHeight titleWidth titleHeight])
    ∧ (isShown U self definition = false →
        addEntityToLayout U S self layout definition font = (self, layout))
    ∧ (isShown U self definition = false →
        (addEntityToLayout U S self layout definition font).2.calls = layout.calls
        ∧ (addEntityToLayout U S self layout definition font).1.m_stringRendererCache
            = self.m_stringRendererCache)
    ∧ ((addEntityToLayout U S self layout definition font).2.calls.length
          = layout.calls.length + 1 ↔ isShown U self definition = true)
    ∧ ((addEntityToLayout U S self layout definition font).2.calls.length
          = layout.calls.length ↔ isShown U self definition = false) := by
  rcases addEntityToLayout_cases U S self layout definition font with
    ⟨hs, ⟨er, sr, w, h, tw, th, hitem⟩, _⟩ | ⟨hs, hsame⟩
  · have hcalls : (addEntityToLayout U S self layout definition font).2.calls
        = layout.calls ++ [LayoutCall.addItem definition er sr w h tw th] := by
      rw [hitem]
      rfl
    refine ⟨rfl, fun _ => ⟨er, sr, w, h, tw, th, hcalls⟩, ?_, ?_, ?_, ?_⟩
    · intro h0
      rw [hs] at h0
      cases h0
    · intro h0
      rw [hs] at h0
      cases h0
    · rw [hcalls]
      simp [hs]
    · rw [hcalls]
      simp [hs]
  · refine ⟨rfl, ?_, fun _ => hsame, fun _ => by rw [hsame]; exact ⟨rfl, rfl⟩, ?_, ?_⟩
    · intro h1
      rw [hs] at h1
      cases h1
    · rw [hsame]
      simp [hs]
    · rw [hsame]
      simp [hs]

/-- C19, for a canvas that hides unused definitions and filters by `LIGHT`, with the
modelled `containsString`: the unused definition `light_torch` adds nothing. -/
theorem addEntityToLayout_filter_witness :
    addEntityToLayout Utility.model
        (⟨fun f s _ _ => (⟨0, 0⟩, f, s), fun _ _ => ⟨0, 0⟩, fun _ s => s, fun _ => 0,
          fun _ => 0, [], fun _ _ => none, fun e => e, fun _ => ⟨⟨0, 0, 0⟩, ⟨1, 1, 1⟩⟩,
          fun b _ => b⟩ : Services StdString (BBox ℚ) ℚ)
        ⟨true, "LIGHT".toList, true, ⟨1, ⟨0, 0, 0⟩⟩, StdMap.empty⟩ ⟨64, []⟩
        ⟨1, "light_torch".toList, 0⟩ ⟨"Arial".toList, 12⟩
      = (⟨true, "LIGHT".toList, true, ⟨1, ⟨0, 0, 0⟩⟩, StdMap.empty⟩, ⟨64, []⟩) :=
  (addEntityToLayout_filter Utility.model
    (⟨fun f s _ _ => (⟨0, 0⟩, f, s), fun _ _ => ⟨0, 0⟩, fun _ s => s, fun _ => 0,
      fun _ => 0, [], fun _ _ => none, fun e => e, fun _ => ⟨⟨0, 0, 0⟩, ⟨1, 1, 1⟩⟩,
      fun b _ => b⟩ : Services StdString (BBox ℚ) ℚ)
    ⟨true, "LIGHT".toList, true, ⟨1, ⟨0, 0, 0⟩⟩, StdMap.empty⟩ ⟨64, []⟩
    ⟨1, "light_torch".toList, 0⟩ ⟨"Arial".toList, 12⟩).2.2.1 (by decide)

end EntityBrowserCanvas

/-! ## EntityBrowserCanvas: grouping -/

theorem pushBackAt_keys_of_lt {Key V : Type} [LinearOrder Key] (k : Key) (d : V)
    (l : List (Key × List V)) (lo : Key) (hlo : lo < k) (hl : ∀ e ∈ l, lo < e.1) :
    ∀ e ∈ pushBackAt k d l, lo < e.1 := by
  induction l with
  | nil =>
    intro e he
    simp only [pushBackAt, List.mem_singleton] at he
    rw [he]
    exact hlo
  | cons hd rest ih =>
    obtain ⟨k2, ds2⟩ := hd
    intro e he
    unfold pushBackAt at he
    split_ifs at he with h1 h2
    · rcases List.mem_cons.mp he with rfl | he
      · exact hlo
      · exact hl e he
    · rcases List.mem_cons.mp he with rfl | he
      · exact hl (k2, ds2) (List.mem_cons_self _ _)
      · exact hl e (List.mem_cons_of_mem _ he)
    · rcases List.mem_cons.mp he with rfl | he
      · exact hl (k2, ds2) (List.mem_cons_self _ _)
      · exact ih (fun e he => hl e (List.mem_cons_of_mem _ he)) e he

/-- `pushBackAt` keeps the keys in strictly ascending order. -/
theorem pushBackAt_sorted {Key V : Type} [LinearOrder Key] (k : Key) (d : V)
    (l : List (Key × List V)) (hl : l.Pairwise (fun a b => a.1 < b.1)) :
    (pushBackAt k d l).Pairwise (fun a b => a.1 < b.1) := by
  induction l with
  | nil => simp [pushBackAt]
  | cons hd rest ih =>
    obtain ⟨k2, ds2⟩ := hd
    have hp := List.pairwise_cons.mp hl
    unfold pushBackAt
    split_ifs with h1 h2
    · refine List.pairwise_cons.mpr ⟨?_, hl⟩
      intro e he
      rcases List.mem_cons.mp he with rfl | he
      · exact h1
      · exact lt_trans h1 (hp.1 e he)
    · exact List.pairwise_cons.mpr ⟨hp.1, hp.2⟩
    · refine List.pairwise_cons.mpr ⟨?_, ih hp.2⟩
      have hlt : k2 < k := lt_of_le_of_ne (not_lt.mp h1) (fun e => h2 e.symm)
      exact pushBackAt_keys_of_lt k d rest k2 hlt hp.1

/-- The entries of the map after `groupedDefinitions[k].push_back(d)`. -/
theorem mem_pushBackAt {Key V : Type} [LinearOrder Key] (k : Key) (d : V)
    (l : List (Key × List V)) (hl : l.Pairwise (fun a b => a.1 < b.1))
    (g : Key) (ds : List V) :
    (g, ds) ∈ pushBackAt k d l
      ↔ (g ≠ k ∧ (g, ds) ∈ l)
        ∨ (g = k ∧ ((∃ ds0, (k, ds0) ∈ l ∧ ds = ds0 ++ [d])
            ∨ ((∀ ds0, (k, ds0) ∉ l) ∧ ds = [d]))) := by
  induction l with
  | nil =>
    simp only [pushBackAt, List.mem_singleton, Prod.mk.injEq, List.not_mem_nil, and_false,
      false_or, exists_false, not_false_eq_true, implies_true, true_and, false_and]
  | cons hd rest ih =>
    obtain ⟨k2, ds2⟩ := hd
    have hp := List.pairwise_cons.mp hl
    have hrest : ∀ ds0, (k2, ds0) ∉ rest := by
      intro ds0 hm
      exact lt_irrefl k2 (hp.1 (k2, ds0) hm)
    unfold pushBackAt
    split_ifs with h1 h2
    · have hnot : ∀ ds0, (k, ds0) ∉ (k2, ds2) :: rest := by
        intro ds0 hm
        rcases List.mem_cons.mp hm with e | hm
        · have : k = k2 := (Prod.mk.inj e).1
          rw [this] at h1
          exact lt_irrefl _ h1
        · exact lt_asymm h1 (hp.1 (k, ds0) hm)
      constructor
      · intro hm
        rcases List.mem_cons.mp hm with e | hm1
        · obtain ⟨e1, e2⟩ := Prod.mk.inj e
          exact Or.inr ⟨e1, Or.inr ⟨hnot, e2⟩⟩
        · by_cases hg : g = k
          · rw [hg] at hm1
            exact absurd hm1 (hnot ds)
          · exact Or.inl ⟨hg, hm1⟩
      · rintro (⟨_, hm⟩ | ⟨hg, (⟨ds0, hm, _⟩ | ⟨_, hds⟩)⟩)
        · exact List.mem_cons_of_mem _ hm
        · exact absurd hm (hnot ds0)
        · rw [hg, hds]
          exact List.mem_cons_self _ _
    · subst h2
      constructor
      · intro hm
        rcases List.mem_cons.mp hm with e | hm1
        · obtain ⟨e1, e2⟩ := Prod.mk.inj e
          exact Or.inr ⟨e1, Or.inl ⟨ds2, List.mem_cons_self _ _, e2⟩⟩
        · have hg : g ≠ k := by
            intro e
            rw [e] at hm1
            exact hrest ds hm1
          exact Or.inl ⟨hg, List.mem_cons_of_mem _ hm1⟩
      · rintro (⟨hg, hm⟩ | ⟨hg, (⟨ds0, hm, hds⟩ | ⟨hno, _⟩)⟩)
        · rcases List.mem_cons.mp hm with e | hm
          · exact absurd (Prod.mk.inj e).1 hg
          · exact List.mem_cons_of_mem _ hm
        · rcases List.mem_cons.mp hm with e | hm
          · have e2 : ds0 = ds2 := (Prod.mk.inj e).2
            rw [hg, hds, e2]
            exact List.mem_cons_self _ _
          · exact absurd hm (hrest ds0)
        · exact absurd (List.mem_cons_self _ _) (hno ds2)
    · have hne : k2 ≠ k := fun e => h2 e.symm
      have ih2 := ih hp.2
      constructor
      · intro hm
        rcases List.mem_cons.mp hm with e | hm
        · obtain ⟨e1, e2⟩ := Prod.mk.inj e
          refine Or.inl ⟨by rw [e1]; exact hne, ?_⟩
          rw [e1, e2]
          exact List.mem_cons_self _ _
        · rcases ih2.mp hm with ⟨hg, hm2⟩ | ⟨hg, (⟨ds0, hm2, hds⟩ | ⟨hno, hds⟩)⟩
          · exact Or.inl ⟨hg, List.mem_cons_of_mem _ hm2⟩
          · exact Or.inr ⟨hg, Or.inl ⟨ds0, List.mem_cons_of_mem _ hm2, hds⟩⟩
          · refine Or.inr ⟨hg, Or.inr ⟨?_, hds⟩⟩
            intro ds0 hm3
            rcases List.mem_cons.mp hm3 with e | hm3
            · exact hne (Prod.mk.inj e).1.symm
            · exact hno ds0 hm3
      · rintro (⟨hg, hm⟩ | ⟨hg, (⟨ds0, hm, hds⟩ | ⟨hno, hds⟩)⟩)
        · rcases List.mem_cons.mp hm with e | hm
          · rw [e]
            exact List.mem_cons_self _ _
          · exact List.mem_cons_of_mem _ (ih2.mpr (Or.inl ⟨hg, hm⟩))
        · rcases List.mem_cons.mp hm with e | hm
          · exact absurd (Prod.mk.inj e).1.symm hne
          · exact List.mem_cons_of_mem _ (ih2.mpr (Or.inr ⟨hg, Or.inl ⟨ds0, hm, hds⟩⟩))
        · refine List.mem_cons_of_mem _ (ih2.mpr (Or.inr ⟨hg, Or.inr ⟨?_, hds⟩⟩))
          intro ds0 hm
          exact hno ds0 (List.mem_cons_of_mem _ hm)

/-- Folding `push_back` over a list groups it by key: the keys ascend strictly, and the
entry of a key is the sub-list of the elements with that key, in list order;
`p g d` decides whether `d` has the key `g`. -/
theorem foldl_pushBackAt {Key V : Type} [LinearOrder Key] (f : V → Key)
    (p : Key → V → Bool) (hp : ∀ g d, p g d = true ↔ f d = g) (defs : List V) :
    (defs.foldl (fun acc d => pushBackAt (f d) d acc) []).Pairwise (fun a b => a.1 < b.1)
    ∧ ∀ (g : Key) (ds : List V),
        (g, ds) ∈ defs.foldl (fun acc d => pushBackAt (f d) d acc) []
          ↔ ds ≠ [] ∧ ds = defs.filter (p g) := by
  induction defs using List.reverseRecOn with
  | nil =>
    refine ⟨List.Pairwise.nil, ?_⟩
    intro g ds
    simp only [List.foldl_nil, List.not_mem_nil, List.filter_nil, false_iff, not_and]
    intro h1 h2
    exact h1 h2
  | append_singleton l d ih =>
    obtain ⟨hsorted, hmem⟩ := ih
    rw [List.foldl_append, List.foldl_cons, List.foldl_nil]
    refine ⟨pushBackAt_sorted _ _ _ hsorted, ?_⟩
    intro g ds
    rw [mem_pushBackAt _ _ _ hsorted, List.filter_append]
    by_cases hg : g = f d
    · subst hg
      have hpd : p (f d) d = true := (hp (f d) d).mpr rfl
      have hfd : List.filter (p (f d)) [d] = [d] := by
        rw [List.filter_cons_of_pos hpd, List.filter_nil]
      rw [hfd]
      constructor
      · rintro (⟨hne, _⟩ | ⟨_, (⟨ds0, hm, hds⟩ | ⟨hno, hds⟩)⟩)
        · exact absurd rfl hne
        · obtain ⟨_, e⟩ := (hmem (f d) ds0).mp hm
          rw [hds, ← e]
          exact ⟨by simp, rfl⟩
        · have hnil : l.filter (p (f d)) = [] := by
            by_contra hne
            exact hno _ ((hmem (f d) _).mpr ⟨hne, rfl⟩)
          rw [hds, hnil]
          exact ⟨by simp, rfl⟩
      · rintro ⟨_, hds⟩
        refine Or.inr ⟨rfl, ?_⟩
        by_cases hnil : l.filter (p (f d)) = []
        · right
          refine ⟨?_, by rw [hds, hnil]; rfl⟩
          intro ds0 hm
          obtain ⟨h1, h2⟩ := (hmem (f d) ds0).mp hm
          rw [h2] at h1
          exact h1 hnil
        · left
          exact ⟨_, (hmem (f d) _).mpr ⟨hnil, rfl⟩, hds⟩
    · have hpd : ¬ p g d = true := fun e => hg ((hp g d).mp e).symm
      have hfd : List.filter (p g) [d] = [] := by
        rw [List.filter_cons_of_neg hpd, List.filter_nil]
      rw [hfd, List.append_nil]
      constructor
      · rintro (⟨_, hm⟩ | ⟨he, _⟩)
        · exact (hmem g ds).mp hm
        · exact absurd he hg
      · intro h
        exact Or.inl ⟨hg, (hmem g ds).mpr h⟩

namespace StdString

theorem findFrom_append (c : Char) (pre post : List Char) (start : Nat) (h : c ∉ pre) :
    findFrom c (pre ++ c :: post) start = some (start + List.length pre) := by
  induction pre generalizing start with
  | nil => simp [findFrom]
  | cons d rest ih =>
    have hd : d ≠ c := fun e => h (by simp [e])
    have hr : c ∉ rest := fun e => h (List.mem_cons_of_mem _ e)
    have e1 : findFrom c (d :: rest ++ c :: post) start
        = findFrom c (rest ++ c :: post) (start + 1) := by
      simp [findFrom, hd]
    rw [e1, ih (start + 1) hr, List.length_cons]
    congr 1
    omega

theorem findFrom_of_not_mem (c : Char) (s : List Char) (start : Nat) (h : c ∉ s) :
    findFrom c s start = none := by
  induction s generalizing start with
  | nil => rfl
  | cons d rest ih =>
    have hd : d ≠ c := fun e => h (by simp [e])
    have hr : c ∉ rest := fun e => h (List.mem_cons_of_mem _ e)
    simp [findFrom, hd, ih (start + 1) hr]

end StdString

namespace EntityBrowserCanvas

/-- The group name is the capitalised text before the first underscore. -/
theorem groupNameOf_underscore (U : Utility) (pre post : List Char) (h : '_' ∉ pre) :
    groupNameOf U (pre ++ '_' :: post) = U.capitalize pre := by
  unfold groupNameOf StdString.find_first_of
  rw [StdString.findFrom_append '_' pre post 0 h]
  simp [StdString.substr]

/-- Without an underscore the group name is `Misc`. -/
theorem groupNameOf_plain (U : Utility) (name : List Char) (h : '_' ∉ name) :
    groupNameOf U name = "Misc".toList := by
  unfold groupNameOf StdString.find_first_of
  rw [StdString.findFrom_of_not_mem '_' name 0 h]

theorem isShown_congr {R K : Type} (U : Utility) (a b : EntityBrowserCanvas R K)
    (h1 : a.m_hideUnused = b.m_hideUnused) (h2 : a.m_filterText = b.m_filterText)
    (definition : PointEntityDefinition) : isShown U a definition = isShown U b definition := by
  unfold isShown
  rw [h1, h2]

/-- The inner loop of `doReloadLayout`: one `addItem` for each shown definition, in order. -/
theorem foldl_addEntityToLayout {R E K : Type} [LinearOrderedField K] (U : Utility)
    (S : Services R E K) (font : FontDescriptor) (ds : List PointEntityDefinition)
    (self : EntityBrowserCanvas R K) (layout : Layout R E K) :
    ∃ added : List (LayoutCall R E K),
      (ds.foldl (fun st definition => addEntityToLayout U S st.1 st.2 definition font)
          (self, layout)).2.calls = layout.calls ++ added
      ∧ added.map LayoutCall.label
          = (ds.filter (fun d => isShown U self d)).map Sum.inr
      ∧ (ds.foldl (fun st definition => addEntityToLayout U S st.1 st.2 definition font)
          (self, layout)).1.m_hideUnused = self.m_hideUnused
      ∧ (ds.foldl (fun st definition => addEntityToLayout U S st.1 st.2 definition font)
          (self, layout)).1.m_filterText = self.m_filterText := by
  induction ds generalizing self layout with
  | nil => exact ⟨[], by simp, by simp, rfl, rfl⟩
  | cons d rest ih =>
    rw [List.foldl_cons]
    rcases addEntityToLayout_cases U S self layout d font with
      ⟨hs, ⟨er, sr, w, h, tw, th, hitem⟩, hh, hf, _⟩ | ⟨hs, hsame⟩
    · obtain ⟨added, h1, h2, h3, h4⟩ := ih (addEntityToLayout U S self layout d font).1
        (addEntityToLayout U S self layout d font).2
      refine ⟨LayoutCall.addItem d er sr w h tw th :: added, ?_, ?_, ?_, ?_⟩
      · rw [h1, hitem]
        simp [Layout.addItem]
      · have hcongr : (fun d2 => isShown U (addEntityToLayout U S self layout d font).1 d2)
            = (fun d2 => isShown U self d2) := by
          funext d2
          exact isShown_congr U _ _ hh hf d2
        rw [hcongr] at h2
        rw [List.filter_cons_of_pos (by simpa using hs), List.map_cons, List.map_cons, h2]
        rfl
      · rw [h3, hh]
      · rw [h4, hf]
    · rw [hsame]
      obtain ⟨added, h1, h2, h3, h4⟩ := ih self layout
      refine ⟨added, h1, ?_, h3, h4⟩
      rw [List.filter_cons_of_neg (by simp [hs]), h2]

/-- The outer loop of `doReloadLayout`: per group one `addGroup`, then its items. -/
theorem foldl_groups {R E K : Type} [LinearOrderedField K] (U : Utility)
    (S : Services R E K) (font : FontDescriptor)
    (groups : List (StdString × List PointEntityDefinition))
    (self : EntityBrowserCanvas R K) (layout : Layout R E K) :
    ∃ added : List (LayoutCall R E K),
      (groups.foldl
          (fun st group =>
            group.2.foldl
              (fun st definition => addEntityToLayout U S st.1 st.2 definition font)
              (st.1, st.2.addGroup group.1 (S.stringRenderer font group.1)
                ((font.size : K) + 2)))
          (self, layout)).2.calls = layout.calls ++ added
      ∧ added.map LayoutCall.label
          = groups.flatMap
              (fun g => Sum.inl g.1 :: (g.2.filter (fun d => isShown U self d)).map Sum.inr) := by
  suffices hgen : ∀ (c : EntityBrowserCanvas R K) (lay : Layout R E K),
      c.m_hideUnused = self.m_hideUnused → c.m_filterText = self.m_filterText →
      ∃ added : List (LayoutCall R E K),
        (groups.foldl
            (fun st group =>
              group.2.foldl
                (fun st definition => addEntityToLayout U S st.1 st.2 definition font)
                (st.1, st.2.addGroup group.1 (S.stringRenderer font group.1)
                  ((font.size : K) + 2)))
            (c, lay)).2.calls = lay.calls ++ added
        ∧ added.map LayoutCall.label
            = groups.flatMap
                (fun g => Sum.inl g.1 :: (g.2.filter (fun d => isShown U self d)).map Sum.inr)
    from hgen self layout rfl rfl
  induction groups with
  | nil =>
    intro c lay _ _
    exact ⟨[], by simp, by simp⟩
  | cons g rest ih =>
    intro c lay hc1 hc2
    rw [List.foldl_cons]
    obtain ⟨items, i1, i2, i3, i4⟩ := foldl_addEntityToLayout U S font g.2 c
      (lay.addGroup g.1 (S.stringRenderer font g.1) ((font.size : K) + 2))
    obtain ⟨added, a1, a2⟩ := ih _ _ (by rw [i3, hc1]) (by rw [i4, hc2])
    refine ⟨LayoutCall.addGroup g.1 (S.stringRenderer font g.1) ((font.size : K) + 2)
      :: (items ++ added), ?_, ?_⟩
    · rw [a1, i1]
      simp [Layout.addGroup]
    · have hcongr : (fun d2 => isShown U c d2) = (fun d2 => isShown U self d2) := by
        funext d2
        exact isShown_congr U _ _ hc1 hc2 d2
      rw [hcongr] at i2
      rw [List.flatMap_cons, List.map_cons, List.map_append, i2, a2]
      simp [LayoutCall.label]

end EntityBrowserCanvas

namespace EntityBrowserCanvas

theorem groupDefinitions_spec (U : Utility) (definitions : List PointEntityDefinition) :
    (groupDefinitions U definitions).Pairwise (fun a b => a.1 < b.1)
    ∧ ∀ (g : StdString) (ds : List PointEntityDefinition),
        (g, ds) ∈ groupDefinitions U definitions
          ↔ ds ≠ [] ∧ ds = definitions.filter (fun d => decide (groupNameOf U d.name = g)) :=
  foldl_pushBackAt (fun d : PointEntityDefinition => groupNameOf U d.name)
    (fun g d => decide (groupNameOf U d.name = g)) (fun g d => by simp) definitions

theorem group_labels (groups : List (StdString × List PointEntityDefinition))
    (p : PointEntityDefinition → Bool) :
    (groups.flatMap
        (fun g => (Sum.inl g.1 : StdString ⊕ PointEntityDefinition)
          :: (g.2.filter p).map Sum.inr)).filterMap Sum.getLeft?
      = groups.map Prod.fst := by
  induction groups with
  | nil => rfl
  | cons g rest ih =>
    have hinr : ∀ l : List PointEntityDefinition,
        (l.map (Sum.inr : PointEntityDefinition → StdString ⊕ PointEntityDefinition)).filterMap
          Sum.getLeft? = [] := by
      intro l
      induction l with
      | nil => rfl
      | cons a t iht => simp [iht]
    rw [List.flatMap_cons, List.filterMap_append, ih, List.map_cons, List.filterMap_cons]
    simp [hinr]

/-- C18. `doReloadLayout` with grouping on.  For every list of definitions:
(1) the group name of a definition is the capitalised text before the first `'_'`
of its name, and `Misc` when the name has no `'_'`;
(2) the groups have strictly ascending, hence distinct, names; the group of a name
holds exactly the definitions with that group name, in the order of the list,
and is not empty; so every definition is in the group of its name and in no
other;
(3) the calls made on the layout are, group by group in ascending order of name,
one `addGroup` for the group followed by one `addItem` for each of its
definitions that is shown, in the order of the list. -/
theorem doReloadLayout_groups {R E K : Type} [LinearOrderedField K] (U : Utility)
    (S : Services R E K) (self : EntityBrowserCanvas R K) (layout : Layout R E K)
    (definitions : List PointEntityDefinition) (font : FontDescriptor) :
    (∀ pre post : List Char, '_' ∉ pre → groupNameOf U (pre ++ '_' :: post) = U.capitalize pre)
    ∧ (∀ name : List Char, '_' ∉ name → groupNameOf U name = "Misc".toList)
    ∧ (groupDefinitions U definitions).Pairwise (fun a b => a.1 < b.1)
    ∧ (∀ (g : StdString) (ds : List PointEntityDefinition),
        (g, ds) ∈ groupDefinitions U definitions
          ↔ ds ≠ [] ∧ ds = definitions.filter (fun d => decide (groupNameOf U d.name = g)))
    ∧ (∀ d ∈ definitions, ∃ ds,
        (groupNameOf U d.name, ds) ∈ groupDefinitions U definitions ∧ d ∈ ds)
    ∧ (∀ (g : StdString) (ds : List PointEntityDefinition) (d : PointEntityDefinition),
        (g, ds) ∈ groupDefinitions U definitions → d ∈ ds → g = groupNameOf U d.name)
    ∧ (self.m_group = true →
        ∃ added : List (LayoutCall R E K),
          (doReloadLayout U S self layout definitions font).2.calls = layout.calls ++ added
          ∧ added.map LayoutCall.label
              = (groupDefinitions U definitions).flatMap
                  (fun g => Sum.inl g.1 :: (g.2.filter (fun d => isShown U self d)).map Sum.inr)
          ∧ (added.map LayoutCall.label).filterMap Sum.getLeft?
              = (groupDefinitions U definitions).map Prod.fst) := by
  obtain ⟨hsorted, hmem⟩ := groupDefinitions_spec U definitions
  refine ⟨fun pre post h => groupNameOf_underscore U pre post h,
    fun name h => groupNameOf_plain U name h, hsorted, hmem, ?_, ?_, ?_⟩
  · intro d hd
    have hin : d ∈ definitions.filter
        (fun d2 => decide (groupNameOf U d2.name = groupNameOf U d.name)) := by
      rw [List.mem_filter]
      exact ⟨hd, by simp⟩
    refine ⟨_, (hmem _ _).mpr ⟨?_, rfl⟩, hin⟩
    intro hnil
    rw [hnil] at hin
    exact absurd hin (List.not_mem_nil _)
  · intro g ds d hm hd
    obtain ⟨_, hds⟩ := (hmem g ds).mp hm
    rw [hds, List.mem_filter] at hd
    have := hd.2
    simp at this
    exact this.symm
  · intro hgroup
    obtain ⟨added, h1, h2⟩ := foldl_groups U S font (groupDefinitions U definitions) self layout
    refine ⟨added, ?_, h2, ?_⟩
    · unfold doReloadLayout
      rw [if_pos hgroup]
      exact h1
    · rw [h2]
      exact group_labels _ _

/-- C18, with the modelled `capitalize`: the name `light_torch` belongs to the group
`Light`, and grouping four definitions gives the groups `Light`, `Misc` and
`Monster` in this order, `Light` holding its two definitions in list order. -/
theorem doReloadLayout_groups_witness :
    groupNameOf Utility.model ("light".toList ++ '_' :: "torch".toList)
        = Utility.model.capitalize "light".toList
    ∧ groupDefinitions Utility.model
        [⟨1, "monster_ogre".toList, 0⟩, ⟨2, "light_torch".toList, 0⟩, ⟨3, "worldspawn".toList, 0⟩,
          ⟨4, "light_globe".toList, 0⟩]
      = [("Light".toList, [⟨2, "light_torch".toList, 0⟩, ⟨4, "light_globe".toList, 0⟩]),
         ("Misc".toList, [⟨3, "worldspawn".toList, 0⟩]),
         ("Monster".toList, [⟨1, "monster_ogre".toList, 0⟩])] :=
  ⟨(doReloadLayout_groups Utility.model
      (⟨fun f s _ _ => (⟨0, 0⟩, f, s), fun _ _ => ⟨0, 0⟩, fun _ s => s, fun _ => 0,
        fun _ => 0, [], fun _ _ => none, fun e => e, fun _ => ⟨⟨0, 0, 0⟩, ⟨1, 1, 1⟩⟩,
        fun b _ => b⟩ : Services StdString (BBox ℚ) ℚ)
      ⟨false, [], true, ⟨1, ⟨0, 0, 0⟩⟩, StdMap.empty⟩ ⟨64, []⟩ [] ⟨"Arial".toList, 12⟩).1
      "light".toList "torch".toList (by decide),
   by decide⟩

end EntityBrowserCanvas

end TrenchBroom
